import Mathlib

/-!
XArray: entry encoding, load, tag operations, store and erase.

A shallow embedding of `include/linux/xarray.h` and `lib/xarray.c`, with the store and
erase path, which is not among these sources, modelled from the specification.

* Machine words (`unsigned long`, `void *`) are natural numbers; `ULONG` truncates
  to `BITS_PER_LONG` bits wherever the C arithmetic can overflow.
* Node memory is a map from addresses to `xa_node` records; a function that
  dereferences an address holding no node yields `none`.
* Loops run on fuel: `none` is also the answer when the fuel runs out.
* A function that receives a non-const pointer to the array or to the cursor
  returns the memory and the cursor it leaves behind, so that what it does not
  write is a theorem and not a convention.
-/

namespace Xarray

/-! ## Machine words -/

/-- Width of `unsigned long` (an LP64 target). -/
def BITS_PER_LONG : Nat := 64

/-- Truncation of a natural number to an `unsigned long`. -/
def ULONG (x : Nat) : Nat := x % 2 ^ BITS_PER_LONG

/-- The C cast `(long)v` of a word `v`. -/
def to_long (v : Nat) : Int :=
  if ULONG v < 2 ^ (BITS_PER_LONG - 1) then (ULONG v : Int)
  else (ULONG v : Int) - 2 ^ BITS_PER_LONG

/-- The C operator `~` on an `unsigned long`. -/
def ulong_not (x : Nat) : Nat := 2 ^ BITS_PER_LONG - 1 - ULONG x

/-- The C operator `~` on a `gfp_t`, an `unsigned int` of 32 bits. -/
def gfp_not (x : Nat) : Nat := 2 ^ 32 - 1 - x % 2 ^ 32

/-- `xa_mk_value()`: the word `(v << 1) | 1`, as an `unsigned long`. -/
def xa_mk_value (v : Nat) : Nat := ULONG ((v <<< 1) ||| 1)

/-- `xa_to_value()`: `(unsigned long)entry >> 1`. -/
def xa_to_value (entry : Nat) : Nat := entry >>> 1

/-- `xa_is_value()`: `(unsigned long)entry & 1`, converted to `bool`. -/
def xa_is_value (entry : Nat) : Bool := (entry &&& 1) != 0

/-- Error kinds of the specification's taxonomy (section 7); `Fault` stands for
an access to an address that holds no node, which the taxonomy has no name for. -/
inductive xa_error where
  | InvalidValue
  | NoMemory
  | AlreadyExists
  | OutOfBounds
  | Fault
  deriving DecidableEq, Repr

/-- What a call can do: return a result (possibly after `WARN_ON` logged a
warning), or fail with an error. -/
inductive Outcome (α : Type) where
  | returned (warned : Bool) (val : α)
  | failed (err : xa_error)
  deriving DecidableEq, Repr

/-- One call of `xa_mk_value()`, with its `WARN_ON((long)v < 0)`: the warning
is logged and the function goes on to return the entry; it has no error
return. -/
def xa_mk_value_call (v : Nat) : Outcome Nat :=
  Outcome.returned (decide (to_long v < 0)) (xa_mk_value v)

/-! ### Declarations used by `lib/xarray.c` that the header under study lacks -/

/-- Modelled from the spec: `XA_CHUNK_SHIFT` is not among the sources; section 3
fixes the fan-out per implementation, "e.g., 64" slots. -/
def XA_CHUNK_SHIFT : Nat := 6

/-- Modelled from the spec: `XA_CHUNK_SIZE`, the fan-out `B` of a node. -/
def XA_CHUNK_SIZE : Nat := 1 <<< XA_CHUNK_SHIFT

/-- Modelled from the spec: `XA_CHUNK_MASK`, the `B-1` of `offset_of`. -/
def XA_CHUNK_MASK : Nat := XA_CHUNK_SIZE - 1

/-- Modelled from the spec: `XA_MAX_TAGS`, "a small fixed number of tag classes,
e.g., 3". -/
def XA_MAX_TAGS : Nat := 3

/-- Modelled from the spec: `xa_mk_internal()` is not among the sources; an
internal entry carries its payload above the lowest two bits `10`. -/
def xa_mk_internal (v : Nat) : Nat := ULONG ((v <<< 2) ||| 2)

/-- Modelled from the spec: `xa_to_internal()`, the payload of an internal entry. -/
def xa_to_internal (entry : Nat) : Nat := entry >>> 2

/-- Modelled from the spec: `xa_is_internal()` is not among the sources; section
3 gives internal entries the lowest two bits `10`. -/
def xa_is_internal (entry : Nat) : Bool := (entry &&& 3) == 2

/-- Modelled from the spec: `xa_mk_node()`, the pointer to a node "wrapped as an
Internal-class entry one level up". -/
def xa_mk_node (node : Nat) : Nat := node ||| 2

/-- Modelled from the spec: `xa_to_node()`, the node address inside a node entry. -/
def xa_to_node (entry : Nat) : Nat := entry - 2

/-- Modelled from the spec: `xa_is_node()` is not among the sources; a node entry
has the lowest two bits `10` and is "tagged distinctly from Retry/Sibling": the
markers are the small internal words, a node entry lies above 4096. -/
def xa_is_node (entry : Nat) : Bool := xa_is_internal entry && decide (entry > 4096)

/-- Modelled from the spec: `xa_mk_sibling()`, the marker `Sibling(offset)`. -/
def xa_mk_sibling (offset : Nat) : Nat := xa_mk_internal offset

/-- Modelled from the spec: `xa_to_sibling()`, the canonical slot a sibling
entry names. -/
def xa_to_sibling (entry : Nat) : Nat := xa_to_internal entry

/-- Modelled from the spec: `xa_is_sibling()` is not among the sources (the
multi-index feature enabled); a sibling entry is an internal entry whose payload
is a slot offset that a later slot of the same node can name. -/
def xa_is_sibling (entry : Nat) : Bool :=
  xa_is_internal entry && decide (entry < xa_mk_sibling (XA_CHUNK_SIZE - 1))

/-- Modelled from the spec: `XA_RETRY_ENTRY`, the marker "the tree changed under
you, reload from the top". -/
def XA_RETRY_ENTRY : Nat := xa_mk_internal 256

/-- Modelled from the spec: `xa_is_retry()`. -/
def xa_is_retry (entry : Nat) : Bool := entry == XA_RETRY_ENTRY

/-- Modelled from the spec: `xa_is_err()` is not among the sources; an error is
carried as an internal-class word. -/
def xa_is_err (entry : Nat) : Bool := xa_is_internal entry

/-- Modelled from the spec: `xa_err()`, the (signed) error code of a word, `0`
when it carries none. -/
def xa_err (entry : Nat) : Int :=
  if xa_is_err entry then (to_long entry) >>> 2 else 0

/-- Modelled from the spec: `struct xa_node` is not among the sources; section 3
lists its attributes. `slots` and the per-tag bitmaps `tags` are indexed by
offset; `parent` is an address, `0` for none. -/
structure xa_node where
  shift : Nat
  offset : Nat
  count : Nat
  nr_values : Nat
  parent : Nat
  slots : Nat → Nat
  tags : Nat → Nat → Bool

/-- Modelled from the spec: `struct xarray` is not among the sources; the root
slot and the flags word that holds the tag-presence bits (the lock has no
content in a sequential model). -/
structure xarray where
  xa_flags : Nat
  xa_head : Nat
  deriving DecidableEq, Repr

/-- The memory an operation runs on: the array object and the nodes by address. -/
structure Mem where
  xa : xarray
  nodes : Nat → Option xa_node

/-- Modelled from the spec: `struct xa_state` is not among the sources; the
cursor of section 3, bound to the array of the memory it is used with. -/
structure xa_state where
  xa_index : Nat
  xa_shift : Nat
  xa_sibs : Nat
  xa_offset : Nat
  xa_node : Nat
  deriving DecidableEq, Repr

/-- Modelled from the spec: `XAS_BOUNDS`, the cursor sentinel `OutOfBounds`. -/
def XAS_BOUNDS : Nat := 1

/-- Modelled from the spec: `XAS_RESTART`, the cursor sentinel of the `Start` /
`Restart` state. -/
def XAS_RESTART : Nat := 3

/-- Modelled from the spec: the `XA_STATE(name, array, index)` initialiser, a
fresh cursor bound to `index`. -/
def XA_STATE (index : Nat) : xa_state :=
  { xa_index := index, xa_shift := 0, xa_sibs := 0, xa_offset := 0, xa_node := XAS_RESTART }

/-- Modelled from the spec: `xas_error()`, the error code the cursor's node word
carries. -/
def xas_error (xas : xa_state) : Int := xa_err xas.xa_node

/-- Modelled from the spec: `xas_invalid()`; the sentinels and the error words
are not node addresses: their lowest two bits are not `00`. -/
def xas_invalid (xas : xa_state) : Bool := (xas.xa_node &&& 3) != 0

/-- Modelled from the spec: `xas_valid()`. -/
def xas_valid (xas : xa_state) : Bool := !xas_invalid xas

/-- Modelled from the spec: `xas_reset()`, back to the `Restart` state. -/
def xas_reset (xas : xa_state) : xa_state := { xas with xa_node := XAS_RESTART }

/-- Modelled from the spec: `xas_retry()`; on a retry entry the cursor is reset
and the caller told to walk again. -/
def xas_retry (xas : xa_state) (entry : Nat) : Bool × xa_state :=
  if !xa_is_retry entry then (false, xas) else (true, xas_reset xas)

/-- Modelled from the spec: `xa_head()`, the root slot. -/
def xa_head (xa : xarray) : Nat := xa.xa_head

/-- Modelled from the spec: `xa_entry()`, `get(offset)` of a node. -/
def xa_entry (node : xa_node) (offset : Nat) : Nat := node.slots offset

/-- Modelled from the spec: `xa_parent_locked()`, the parent back-reference. -/
def xa_parent_locked (node : xa_node) : Nat := node.parent

/-- Modelled from the spec: `__GFP_BITS_SHIFT`, the first bit of the flags word
above the allocation flags. -/
def GFP_BITS_SHIFT : Nat := 23

/-- Modelled from the spec: `XA_FLAGS_TAG(tag)`, the bit of `xa_flags` that is
`tag_presence[tag]`. -/
def XA_FLAGS_TAG (tag : Nat) : Nat := (1 <<< GFP_BITS_SHIFT) <<< tag

/-- Modelled from the spec: `xa_tagged()`, "is tag T set anywhere in the tree". -/
def xa_tagged (xa : xarray) (tag : Nat) : Bool := (xa.xa_flags &&& XA_FLAGS_TAG tag) != 0

/-- Modelled from the spec: `xas_reload()`, the entry at the cursor's position. -/
def xas_reload (m : Mem) (xas : xa_state) : Option Nat :=
  if xas.xa_node != 0 then
    match m.nodes xas.xa_node with
    | none => none
    | some n => some (xa_entry n xas.xa_offset)
  else some (xa_head m.xa)

/-- Modelled from the spec: `bitmap_empty(bitmap, XA_CHUNK_SIZE)` of the kernel's
bitmap library. -/
def bitmap_empty (bitmap : Nat → Bool) (nbits : Nat) : Bool :=
  (List.range nbits).all (fun i => !bitmap i)

/-! ## `lib/xarray.c` -/

/-- `xa_tag_set()` -/
def xa_tag_set (xa : xarray) (tag : Nat) : xarray :=
  if (xa.xa_flags &&& XA_FLAGS_TAG tag) == 0 then
    { xa with xa_flags := xa.xa_flags ||| XA_FLAGS_TAG tag }
  else xa

/-- `xa_tag_clear()`: `xa_flags &= ~XA_FLAGS_TAG(tag)` when the bit is set. -/
def xa_tag_clear (xa : xarray) (tag : Nat) : xarray :=
  if (xa.xa_flags &&& XA_FLAGS_TAG tag) != 0 then
    { xa with xa_flags := xa.xa_flags &&& gfp_not (XA_FLAGS_TAG tag) }
  else xa

/-- `node_get_tag()`: `test_bit(offset, node->tags[tag])`. -/
def node_get_tag (node : xa_node) (offset : Nat) (tag : Nat) : Bool := node.tags tag offset

/-- `node_set_tag()`: `__test_and_set_bit`; the old bit and the node after. -/
def node_set_tag (node : xa_node) (offset : Nat) (tag : Nat) : Bool × xa_node :=
  (node.tags tag offset,
   { node with tags := fun t o => if t = tag ∧ o = offset then true else node.tags t o })

/-- `node_clear_tag()`: `__test_and_clear_bit`; the old bit and the node after. -/
def node_clear_tag (node : xa_node) (offset : Nat) (tag : Nat) : Bool × xa_node :=
  (node.tags tag offset,
   { node with tags := fun t o => if t = tag ∧ o = offset then false else node.tags t o })

/-- `node_any_tag()` -/
def node_any_tag (node : xa_node) (tag : Nat) : Bool :=
  !bitmap_empty (node.tags tag) XA_CHUNK_SIZE

/-- `get_offset()`: extracts the offset within this node from the index. -/
def get_offset (index : Nat) (node : xa_node) : Nat :=
  (index >>> node.shift) &&& XA_CHUNK_MASK

/-- `xas_move_index()`, with `node` the node `xas->xa_node` points to. -/
def xas_move_index (node : xa_node) (xas : xa_state) (offset : Nat) : xa_state :=
  let shift := node.shift
  let index := xas.xa_index &&& ULONG (ulong_not XA_CHUNK_MASK <<< shift)
  { xas with xa_index := ULONG (index + ULONG (offset <<< shift)) }

/-- `set_bounds()` -/
def set_bounds (m : Mem) (xas : xa_state) : Nat × Mem × xa_state :=
  (0, m, { xas with xa_node := XAS_BOUNDS })

/-- `xas_start()` -/
def xas_start (m : Mem) (xas : xa_state) : Option (Nat × Mem × xa_state) :=
  if xas_valid xas then
    match xas_reload m xas with
    | none => none
    | some entry => some (entry, m, xas)
  else if xas_error xas ≠ 0 then some (0, m, xas)
  else
    let entry := xa_head m.xa
    if !xa_is_node entry then
      if xas.xa_index ≠ 0 then some (set_bounds m xas)
      else some (entry, m, { xas with xa_node := 0 })
    else
      match m.nodes (xa_to_node entry) with
      | none => none
      | some head =>
        if (xas.xa_index >>> head.shift) > XA_CHUNK_MASK then some (set_bounds m xas)
        else some (entry, m, { xas with xa_node := 0 })

/-- `xas_descend()`; `node` is the address of the node to enter. -/
def xas_descend (m : Mem) (xas : xa_state) (node : Nat) : Option (Nat × Mem × xa_state) :=
  match m.nodes node with
  | none => none
  | some n =>
    let offset := get_offset xas.xa_index n
    let entry := xa_entry n offset
    let xas1 := { xas with xa_node := node }
    if xa_is_sibling entry then
      let offset1 := xa_to_sibling entry
      let entry1 := xa_entry n offset1
      let xas2 := xas_move_index n xas1 offset1
      some (entry1, m, { xas2 with xa_offset := offset1 })
    else
      some (entry, m, { xas1 with xa_offset := offset })

/-- The `while (xa_is_node(entry))` loop of `xas_load()`. -/
def xas_load_loop : Nat → Nat → Mem → xa_state → Option (Nat × Mem × xa_state)
  | fuel, entry, m, xas =>
    if xa_is_node entry then
      match fuel with
      | 0 => none
      | fuel1 + 1 =>
        match m.nodes (xa_to_node entry) with
        | none => none
        | some node =>
          if xas.xa_shift > node.shift then some (entry, m, xas)
          else
            match xas_descend m xas (xa_to_node entry) with
            | none => none
            | some (entry1, m1, xas1) => xas_load_loop fuel1 entry1 m1 xas1
    else some (entry, m, xas)

/-- `xas_load()` -/
def xas_load (fuel : Nat) (m : Mem) (xas : xa_state) : Option (Nat × Mem × xa_state) :=
  match xas_start m xas with
  | none => none
  | some (entry, m1, xas1) => xas_load_loop fuel entry m1 xas1

/-- `xas_get_tag()` -/
def xas_get_tag (m : Mem) (xas : xa_state) (tag : Nat) : Option Bool :=
  if xas_invalid xas then some false
  else if xas.xa_node == 0 then some (xa_tagged m.xa tag)
  else
    match m.nodes xas.xa_node with
    | none => none
    | some n => some (node_get_tag n xas.xa_offset tag)

/-- The `while (node)` loop of `xas_set_tag()` and the update of the array flag
that follows it. -/
def xas_set_tag_loop : Nat → Mem → Nat → Nat → Nat → Option Mem
  | fuel, m, node, offset, tag =>
    if node ≠ 0 then
      match fuel with
      | 0 => none
      | fuel1 + 1 =>
        match m.nodes node with
        | none => none
        | some n =>
          let r := node_set_tag n offset tag
          let m1 : Mem := { m with nodes := Function.update m.nodes node (some r.2) }
          if r.1 then some m1
          else xas_set_tag_loop fuel1 m1 (xa_parent_locked n) n.offset tag
    else if !xa_tagged m.xa tag then some { m with xa := xa_tag_set m.xa tag }
    else some m

/-- `xas_set_tag()` -/
def xas_set_tag (fuel : Nat) (m : Mem) (xas : xa_state) (tag : Nat) : Option Mem :=
  if xas_invalid xas then some m
  else xas_set_tag_loop fuel m xas.xa_node xas.xa_offset tag

/-- The `while (node)` loop of `xas_clear_tag()` and the update of the array
flag that follows it. -/
def xas_clear_tag_loop : Nat → Mem → Nat → Nat → Nat → Option Mem
  | fuel, m, node, offset, tag =>
    if node ≠ 0 then
      match fuel with
      | 0 => none
      | fuel1 + 1 =>
        match m.nodes node with
        | none => none
        | some n =>
          let r := node_clear_tag n offset tag
          let m1 : Mem := { m with nodes := Function.update m.nodes node (some r.2) }
          if !r.1 then some m1
          else if node_any_tag r.2 tag then some m1
          else xas_clear_tag_loop fuel1 m1 (xa_parent_locked n) n.offset tag
    else if xa_tagged m.xa tag then some { m with xa := xa_tag_clear m.xa tag }
    else some m

/-- `xas_clear_tag()` -/
def xas_clear_tag (fuel : Nat) (m : Mem) (xas : xa_state) (tag : Nat) : Option Mem :=
  if xas_invalid xas then some m
  else xas_clear_tag_loop fuel m xas.xa_node xas.xa_offset tag

/-- `xa_init_flags()` -/
def xa_init_flags (m : Mem) (flags : Nat) : Mem :=
  { m with xa := { xa_flags := flags, xa_head := 0 } }

/-- The `do ... while (xas_retry(&xas, entry))` loop of `xa_load()`; every pass
gives `xas_load()` the fuel `inner`. -/
def xa_load_loop : Nat → Nat → Mem → xa_state → Option (Nat × Mem)
  | 0, _, _, _ => none
  | fuel1 + 1, inner, m, xas =>
    match xas_load inner m xas with
    | none => none
    | some (entry, m1, xas1) =>
      let r := xas_retry xas1 entry
      if r.1 then xa_load_loop fuel1 inner m1 r.2
      else some (entry, m1)

/-- `xa_load()` -/
def xa_load (fuel : Nat) (m : Mem) (index : Nat) : Option (Nat × Mem) :=
  xa_load_loop fuel fuel m (XA_STATE index)

/-- `__xa_set_tag()` -/
def __xa_set_tag (fuel : Nat) (m : Mem) (index : Nat) (tag : Nat) : Option Mem :=
  match xas_load fuel m (XA_STATE index) with
  | none => none
  | some (entry, m1, xas1) =>
    if entry ≠ 0 then xas_set_tag fuel m1 xas1 tag else some m1

/-- `__xa_clear_tag()` -/
def __xa_clear_tag (fuel : Nat) (m : Mem) (index : Nat) (tag : Nat) : Option Mem :=
  match xas_load fuel m (XA_STATE index) with
  | none => none
  | some (entry, m1, xas1) =>
    if entry ≠ 0 then xas_clear_tag fuel m1 xas1 tag else some m1

/-- The `while (xas_get_tag(&xas, tag))` loop of `xa_get_tag()`. -/
def xa_get_tag_loop : Nat → Nat → Mem → xa_state → Nat → Option (Bool × Mem)
  | fuel, entry, m, xas, tag =>
    if xas_get_tag m xas tag = none then none
    else if xas_get_tag m xas tag = some true then
      if !xa_is_node entry then some (true, m)
      else
        match fuel with
        | 0 => none
        | fuel1 + 1 =>
          match xas_descend m xas (xa_to_node entry) with
          | none => none
          | some (entry1, m1, xas1) => xa_get_tag_loop fuel1 entry1 m1 xas1 tag
    else some (false, m)

/-- `xa_get_tag()` -/
def xa_get_tag (fuel : Nat) (m : Mem) (index : Nat) (tag : Nat) : Option (Bool × Mem) :=
  match xas_start m (XA_STATE index) with
  | none => none
  | some (entry, m1, xas1) => xa_get_tag_loop fuel entry m1 xas1 tag

/-- `xa_set_tag()`: `__xa_set_tag()` under the lock. -/
def xa_set_tag (fuel : Nat) (m : Mem) (index : Nat) (tag : Nat) : Option Mem :=
  __xa_set_tag fuel m index tag

/-- `xa_clear_tag()`: `__xa_clear_tag()` under the lock. -/
def xa_clear_tag (fuel : Nat) (m : Mem) (index : Nat) (tag : Nat) : Option Mem :=
  __xa_clear_tag fuel m index tag

/-! ## Reference lookup -/

/-- Reference lookup, in the words of the specification (section 4.4, step 2,
without the sibling redirection): from the node at address `node`, read the slot
`(index >> node.shift) & XA_CHUNK_MASK` and go down while it holds a node; the
answer is the first entry met that is not a node, with the address of the node
and the offset of the slot that hold it. -/
def radix_walk : Nat → Mem → Nat → Nat → Option (Nat × Nat × Nat)
  | 0, _, _, _ => none
  | fuel1 + 1, m, node, index =>
    match m.nodes node with
    | none => none
    | some n =>
      let offset := (index >>> n.shift) &&& XA_CHUNK_MASK
      let entry := n.slots offset
      if xa_is_node entry then radix_walk fuel1 m (xa_to_node entry) index
      else some (entry, node, offset)

/-! ## Example memories -/

/-- An array whose head is the bare value entry of 5, with no node at all. -/
def bare_mem : Mem := { xa := { xa_flags := 0, xa_head := xa_mk_value 5 }, nodes := fun _ => none }

/-- A leaf (shift 0) with the value entry of 4 in slot 4 and `Sibling(4)` in
slots 5, 6 and 7: an entry of order 2 stored at index 4. -/
def span_leaf (parent offset : Nat) : xa_node :=
  { shift := 0, offset := offset, count := 4, nr_values := 4, parent := parent,
    slots := fun o => if o = 4 then xa_mk_value 4 else if o = 5 ∨ o = 6 ∨ o = 7 then xa_mk_sibling 4 else 0,
    tags := fun _ _ => false }

/-- An array of one node, the leaf `span_leaf` at address 8192. -/
def span_mem : Mem :=
  { xa := { xa_flags := 0, xa_head := xa_mk_node 8192 },
    nodes := fun a => if a = 8192 then some (span_leaf 0 0) else none }

/-- An array of two levels: the head node at 8192 (shift 6) has the leaf
`span_leaf` (at 8448) in slot 1 and nothing else. -/
def two_level_mem : Mem :=
  { xa := { xa_flags := 0, xa_head := xa_mk_node 8192 },
    nodes := fun a =>
      if a = 8192 then
        some { shift := 6, offset := 0, count := 1, nr_values := 0, parent := 0,
               slots := fun o => if o = 1 then xa_mk_node 8448 else 0,
               tags := fun _ _ => false }
      else if a = 8448 then some (span_leaf 8192 1)
      else none }

/-- An array of one leaf (at 8192) whose slot 0 holds the retry entry. -/
def retry_mem : Mem :=
  { xa := { xa_flags := 0, xa_head := xa_mk_node 8192 },
    nodes := fun a =>
      if a = 8192 then
        some { shift := 0, offset := 0, count := 1, nr_values := 0, parent := 0,
               slots := fun o => if o = 0 then XA_RETRY_ENTRY else 0,
               tags := fun _ _ => false }
      else none }

/-! ## Store and erase

`xas_store()`, `xa_store()`, `xa_erase()` and what they call are not among the
sources; their model follows section 4.4 (`xas_store`-equivalent, steps 1 to 5)
and section 4.6 of the specification. -/

/-- The memory with the node at address `a` replaced by `n`. -/
def Mem.set_node (m : Mem) (a : Nat) (n : xa_node) : Mem :=
  { m with nodes := Function.update m.nodes a (some n) }

/-- The number of non-empty slots of a node, what `count` stands for. -/
def xa_slots_in_use (n : xa_node) : Nat :=
  ∑ o in Finset.range XA_CHUNK_SIZE, (if n.slots o = 0 then 0 else 1)

/-- What holds of the node `n` at address `a` of a well-formed array. -/
structure NodeOK (m : Mem) (pre : Nat → Nat) (a : Nat) (n : xa_node) : Prop where
  aligned : a % 4 = 0 ∧ 4096 ≤ a
  shift_ok : n.shift % XA_CHUNK_SHIFT = 0 ∧ n.shift + XA_CHUNK_SHIFT ≤ BITS_PER_LONG + 2
  offset_ok : n.offset < XA_CHUNK_SIZE
  root : n.parent = 0 → m.xa.xa_head = xa_mk_node a ∧ pre a = 0
  child : n.parent ≠ 0 → ∃ p, m.nodes n.parent = some p ∧ p.shift = n.shift + XA_CHUNK_SHIFT ∧
    p.slots n.offset = xa_mk_node a ∧ pre a = pre n.parent * XA_CHUNK_SIZE + n.offset
  slot_node : ∀ o, o < XA_CHUNK_SIZE → xa_is_node (n.slots o) = true →
    ∃ c, m.nodes (xa_to_node (n.slots o)) = some c ∧ c.parent = a ∧ c.offset = o
  slot_entry : ∀ o, o < XA_CHUNK_SIZE → xa_is_node (n.slots o) = false →
    xa_is_internal (n.slots o) = false ∧ (n.shift ≠ 0 → n.slots o = 0)
  count_ok : n.count = xa_slots_in_use n

/-- A well-formed array, but for nodes that an operation under way has left
empty. -/
structure WFp (m : Mem) (pre : Nat → Nat) : Prop where
  head_bare : xa_is_node m.xa.xa_head = false → xa_is_internal m.xa.xa_head = false
  head_node : xa_is_node m.xa.xa_head = true →
    ∃ hn, m.nodes (xa_to_node m.xa.xa_head) = some hn ∧ hn.parent = 0
  node_ok : ∀ a n, m.nodes a = some n → NodeOK m pre a n

/-- Reference contents of the array at `index`, in the words of the
specification's `load`: the root entry for index 0 of a root that is no node,
Empty outside the root node's range, and else the entry the reference walk
ends on. -/
def xa_lookup (m : Mem) (index : Nat) : Nat :=
  if xa_is_node m.xa.xa_head then
    match m.nodes (xa_to_node m.xa.xa_head) with
    | none => 0
    | some head =>
      if index >>> head.shift > XA_CHUNK_MASK then 0
      else
        match radix_walk 11 m (xa_to_node m.xa.xa_head) index with
        | none => 0
        | some r => r.1
  else if index = 0 then m.xa.xa_head else 0

/-- The array holds entry `e` for index `j`: in the root slot, for index 0 of a
root that is no node, or in the slot of a leaf. -/
def xa_holds (m : Mem) (pre : Nat → Nat) (j e : Nat) : Prop :=
  (xa_is_node m.xa.xa_head = false ∧ j = 0 ∧ m.xa.xa_head = e) ∨
  (∃ a n o, m.nodes a = some n ∧ n.shift = 0 ∧ o < 64 ∧ n.slots o = e ∧ j = pre a * 64 + o)


/-- Two arrays with the same entries in the same nodes: they differ by tags and
flags only. -/
def xa_same_shape (m m1 : Mem) : Prop :=
  m1.xa.xa_head = m.xa.xa_head ∧
  ∀ a, (m.nodes a = none → m1.nodes a = none) ∧
    ∀ n, m.nodes a = some n → ∃ n1, m1.nodes a = some n1 ∧ n1.shift = n.shift ∧
      n1.offset = n.offset ∧ n1.count = n.count ∧ n1.parent = n.parent ∧ n1.slots = n.slots

/-! ## Tags of well-formed arrays -/

/-- Every tag of `m1` is a tag of `m`: of the array, and of each node at each slot. -/
def xa_tags_le (m1 m : Mem) : Prop :=
  (∀ s, xa_tagged m1.xa s = true → xa_tagged m.xa s = true) ∧
  ∀ b n1, m1.nodes b = some n1 →
    ∃ n, m.nodes b = some n ∧ ∀ s p, n1.tags s p = true → n.tags s p = true

/-! ## Sequences of stores and erases -/

/-- One call that changes the contents of the array: `xa_store(xa, index, entry, gfp)` or
`xa_erase(xa, index)`. -/
inductive xa_op where
  | store (index entry : Nat)
  | erase (index : Nat)

/-- The index the call is for. -/
def xa_op.index : xa_op → Nat
  | xa_op.store index _ => index
  | xa_op.erase index => index

/-- An array whose nodes are linked up: every node sits in the slot of its parent that its
back-reference and offset name, one level below it, the node without parent is the head,
and a slot that holds a node holds a node of the array. Nothing is asked of the entries
that are not nodes: sibling and other internal entries may be there. -/
structure xa_linked (m : Mem) : Prop where
  head_node : xa_is_node m.xa.xa_head = true →
    ∃ hn, m.nodes (xa_to_node m.xa.xa_head) = some hn ∧ hn.parent = 0
  aligned : ∀ a n, m.nodes a = some n → a % 4 = 0 ∧ 4096 ≤ a
  shift_ok : ∀ a n, m.nodes a = some n → n.shift + XA_CHUNK_SHIFT ≤ BITS_PER_LONG + 2
  offset_ok : ∀ a n, m.nodes a = some n → n.offset < XA_CHUNK_SIZE
  root : ∀ a n, m.nodes a = some n → n.parent = 0 → m.xa.xa_head = xa_mk_node a
  child : ∀ a n, m.nodes a = some n → n.parent ≠ 0 →
    ∃ p, m.nodes n.parent = some p ∧ p.shift = n.shift + XA_CHUNK_SHIFT ∧
      p.slots n.offset = xa_mk_node a
  slot_node : ∀ a n o, m.nodes a = some n → o < XA_CHUNK_SIZE →
    xa_is_node (n.slots o) = true →
    ∃ c, m.nodes (xa_to_node (n.slots o)) = some c ∧ c.parent = a ∧ c.offset = o

/-- The node has a slot tagged with `t`: `node_any_tag()` as a proposition. -/
def xa_node_tagged (n : xa_node) (t : Nat) : Prop :=
  ∃ o, o < XA_CHUNK_SIZE ∧ n.tags t o = true

/-- The tag propagation invariant for tag `t`, one level at a time: a node with a tagged
slot is tagged in its parent, at its own offset, and the array is flagged when the node
without parent has a tagged slot. Along the parent links this is: a tagged slot is tagged
in every node above it, and the array is flagged. -/
structure xa_tag_inv (m : Mem) (t : Nat) : Prop where
  parent_tagged : ∀ c nc p, m.nodes c = some nc → nc.parent ≠ 0 →
    m.nodes nc.parent = some p → xa_node_tagged nc t → p.tags t nc.offset = true
  flag_set : ∀ c nc, m.nodes c = some nc → nc.parent = 0 → xa_node_tagged nc t →
    xa_tagged m.xa t = true

/-- The propagation invariant while `xas_set_tag()` is about to tag slot `o` of the node at
`a` (the array flag when `a` is 0) for tag `t`: as `xa_tag_inv`, but that the nodes in
that slot, and the node without parent when `a` is 0, may be tagged already. -/
structure xa_tag_inv_but (m : Mem) (a o t : Nat) : Prop where
  parent_tagged : ∀ c nc p, m.nodes c = some nc → nc.parent ≠ 0 →
    m.nodes nc.parent = some p → ¬ (nc.parent = a ∧ nc.offset = o) →
    xa_node_tagged nc t → p.tags t nc.offset = true
  flag_set : a ≠ 0 → ∀ c nc, m.nodes c = some nc → nc.parent = 0 → xa_node_tagged nc t →
    xa_tagged m.xa t = true

/-! ## Example cursors and arrays of the tag operations -/

/-- A cursor for index 68 in the error state of `-ENOMEM` (errno 12): its node word is the
internal entry of the error code. -/
def enomem_xas : xa_state :=
  { XA_STATE 68 with xa_node := xa_mk_internal (2 ^ BITS_PER_LONG - 12) }

/-- The cursor is positioned on a slot of the tree, and `e` is the entry of that slot:
the root slot (`xa_node` is `NULL`), or the slot `xa_offset` of the node `xa_node`. -/
def xas_on_slot (m : Mem) (xas : xa_state) (e : Nat) : Prop :=
  (xas.xa_node = 0 ∧ e = m.xa.xa_head) ∨
  ∃ n, m.nodes xas.xa_node = some n ∧ xas.xa_offset < XA_CHUNK_SIZE ∧
    e = n.slots xas.xa_offset

/-- The array flag for tag `t` is exact: it is set if and only if some slot of some node
carries the tag. -/
def xa_tag_exact (m : Mem) (t : Nat) : Prop :=
  xa_tagged m.xa t = true ↔
    ∃ a n o, m.nodes a = some n ∧ o < XA_CHUNK_SIZE ∧ n.tags t o = true

/-- The head node of `tagged_tree`: one level above the leaves, with the leaf at 8448 in
slot 1 and tag 0 on that slot. -/
def tagged_tree_head : xa_node :=
  { shift := 6, offset := 0, count := 1, nr_values := 0, parent := 0,
    slots := fun o => if o = 1 then xa_mk_node 8448 else 0,
    tags := fun t o => decide (t = 0 ∧ o = 1) }

/-- The leaf of `tagged_tree`: the value entries of 7 and 9 in the slots 3 and 5 (the
indices 67 and 69 of the array), with tag 0 on slot 3. -/
def tagged_tree_leaf : xa_node :=
  { shift := 0, offset := 1, count := 2, nr_values := 2, parent := 8192,
    slots := fun o => if o = 3 then xa_mk_value 7 else if o = 5 then xa_mk_value 9 else 0,
    tags := fun t o => decide (t = 0 ∧ o = 3) }

/-- An array of two levels, flagged for tag 0: the head node at 8192 and one leaf at
8448; index 67 holds a value tagged with tag 0, index 69 a value without a tag. -/
def tagged_tree : Mem :=
  { xa := { xa_flags := XA_FLAGS_TAG 0, xa_head := xa_mk_node 8192 },
    nodes := fun a =>
      if a = 8192 then some tagged_tree_head
      else if a = 8448 then some tagged_tree_leaf
      else none }

/-- The cursor `xas_load()` leaves on slot `offset` of the leaf of `tagged_tree` after a
load of `index`. -/
def tagged_tree_xas (index offset : Nat) : xa_state :=
  { XA_STATE index with xa_node := 8448, xa_offset := offset }

/-! ## The walk of a load, counted -/

/-- The loop of `xas_load()` with a counter of its calls of `xas_descend()`: the same
loop, returning with its result the number of calls it made. -/
def xas_load_loop_steps :
    Nat → Nat → Mem → xa_state → Option ((Nat × Mem × xa_state) × Nat)
  | fuel, entry, m, xas =>
    if xa_is_node entry then
      match fuel with
      | 0 => none
      | fuel1 + 1 =>
        match m.nodes (xa_to_node entry) with
        | none => none
        | some node =>
          if xas.xa_shift > node.shift then some ((entry, m, xas), 0)
          else
            match xas_descend m xas (xa_to_node entry) with
            | none => none
            | some (entry1, m1, xas1) =>
              match xas_load_loop_steps fuel1 entry1 m1 xas1 with
              | none => none
              | some (r, k) => some (r, k + 1)
    else some ((entry, m, xas), 0)

/-- `xas_load()` with the counter of its calls of `xas_descend()`. -/
def xas_load_steps (fuel : Nat) (m : Mem) (xas : xa_state) :
    Option ((Nat × Mem × xa_state) × Nat) :=
  match xas_start m xas with
  | none => none
  | some (entry, m1, xas1) => xas_load_loop_steps fuel entry m1 xas1

/-- Every node a slot points to is in the array, with a shift smaller than the shift of
the node of the slot by `d` or more. With `d = 1` the shift of a child is strictly
smaller than the shift of its parent; in the arrays the code builds `d` is
`XA_CHUNK_SHIFT`. -/
def xa_shifts_drop (m : Mem) (d : Nat) : Prop :=
  ∀ a n o, m.nodes a = some n → o < XA_CHUNK_SIZE → xa_is_node (n.slots o) = true →
    ∃ c, m.nodes (xa_to_node (n.slots o)) = some c ∧ c.shift + d ≤ n.shift

/-- An array of three levels whose shifts go down one by one: the head node at 8192
(shift 2) has in slot 0 the node at 8448 (shift 1), which has in slot 0 the leaf at 8704
(shift 0), which holds the value entry of 1 in slot 0. -/
def steep_mem : Mem :=
  { xa := { xa_flags := 0, xa_head := xa_mk_node 8192 },
    nodes := fun a =>
      if a = 8192 then
        some { shift := 2, offset := 0, count := 1, nr_values := 0, parent := 0,
               slots := fun o => if o = 0 then xa_mk_node 8448 else 0,
               tags := fun _ _ => false }
      else if a = 8448 then
        some { shift := 1, offset := 0, count := 1, nr_values := 0, parent := 8192,
               slots := fun o => if o = 0 then xa_mk_node 8704 else 0,
               tags := fun _ _ => false }
      else if a = 8704 then
        some { shift := 0, offset := 0, count := 1, nr_values := 1, parent := 8448,
               slots := fun o => if o = 0 then xa_mk_value 1 else 0,
               tags := fun _ _ => false }
      else none }

/-! ## Tags: the tight form of the propagation invariant -/

/-- The tags for `t` are tight: the bit of a slot a node hangs from is set if and only if
that node has a tagged slot, and the array flag is set if and only if the node without
parent, the head node, has a tagged slot. -/
structure xa_tag_tight (m : Mem) (t : Nat) : Prop where
  parent_iff : ∀ c nc p, m.nodes c = some nc → nc.parent ≠ 0 →
    m.nodes nc.parent = some p → (p.tags t nc.offset = true ↔ xa_node_tagged nc t)
  flag_iff : ∀ c nc, m.nodes c = some nc → nc.parent = 0 →
    (xa_tagged m.xa t = true ↔ xa_node_tagged nc t)
/-! ## C1 - C3: value entries -/

theorem ULONG_of_lt {x : Nat} (h : x < 2 ^ BITS_PER_LONG) : ULONG x = x :=
  Nat.mod_eq_of_lt h

theorem shl1_or1 (v : Nat) : (v <<< 1) ||| 1 = 2 * v + 1 := by
  have h : (v <<< 1) = 2 * v := by rw [Nat.shiftLeft_eq]; omega
  rw [h]
  apply Nat.eq_of_testBit_eq
  intro i
  cases i with
  | zero => simp [Nat.testBit_lor]; omega
  | succ j =>
    rw [Nat.testBit_lor]
    have h1 : Nat.testBit 1 (j + 1) = false := by
      rw [Nat.testBit_succ]; simp
    rw [h1, Bool.or_false, Nat.testBit_succ, Nat.testBit_succ]
    congr 1
    omega

theorem xa_mk_value_eq (v : Nat) : xa_mk_value v = (2 * v + 1) % 2 ^ 64 := by
  unfold xa_mk_value ULONG BITS_PER_LONG
  rw [shl1_or1]

theorem xa_is_value_iff (e : Nat) : xa_is_value e = true ↔ e % 2 = 1 := by
  unfold xa_is_value
  rw [Nat.and_one_is_mod]
  have := Nat.mod_two_eq_zero_or_one e
  rcases this with h | h <;> simp [h]

theorem shr1_odd (w : Nat) : (2 * w + 1) >>> 1 = w := by
  rw [Nat.shiftRight_eq_div_pow]
  omega

/-- C1: value round trip. For every word `v` below `2^(BITS_PER_LONG-1)`,
decoding the entry made by `xa_mk_value` gives `v` back. -/
theorem C1_value_round_trip (v : Nat) (hv : v < 2 ^ (BITS_PER_LONG - 1)) :
    xa_to_value (xa_mk_value v) = v := by
  rw [xa_mk_value_eq]
  unfold xa_to_value
  unfold BITS_PER_LONG at hv
  have h2 : 2 * v + 1 < 2 ^ 64 := by
    have : (2:Nat) ^ 64 = 2 * 2 ^ (64 - 1) := by norm_num
    omega
  rw [Nat.mod_eq_of_lt h2]
  exact shr1_odd v

theorem C1_value_round_trip_witness :
    xa_to_value (xa_mk_value 12345678) = 12345678 :=
  C1_value_round_trip 12345678 (by unfold BITS_PER_LONG; norm_num)

theorem and3_eq_mod4 (e : Nat) : e &&& 3 = e % 4 :=
  Nat.and_pow_two_sub_one_eq_mod e 2

theorem xa_is_internal_iff (e : Nat) : xa_is_internal e = true ↔ e % 4 = 2 := by
  unfold xa_is_internal
  rw [and3_eq_mod4]
  simp

theorem xa_is_node_internal {e : Nat} (h : xa_is_node e = true) : xa_is_internal e = true := by
  unfold xa_is_node at h
  simp only [Bool.and_eq_true] at h
  exact h.1

/-- C2: value entries are unambiguous. `xa_is_value` holds exactly of the words
whose lowest bit is 1; the entry made by `xa_mk_value` is a value entry for every
`v`, is not NULL, has neither the lowest two bits `00` of a pointer entry nor the
`10` of an internal entry (so it is no internal, node, sibling or retry entry);
and no pointer entry or internal entry is a value entry. -/
theorem C2_value_entries_unambiguous :
    (∀ e : Nat, xa_is_value e = true ↔ e % 2 = 1) ∧
    (∀ v : Nat, xa_is_value (xa_mk_value v) = true ∧ xa_mk_value v ≠ 0 ∧
      xa_mk_value v % 4 ≠ 0 ∧ xa_mk_value v % 4 ≠ 2 ∧
      xa_is_internal (xa_mk_value v) = false ∧ xa_is_node (xa_mk_value v) = false) ∧
    (∀ e : Nat, e % 4 = 0 ∨ e % 4 = 2 → xa_is_value e = false) ∧
    (∀ e : Nat, xa_is_internal e = true ∨ xa_is_node e = true → xa_is_value e = false) := by
  have hval : ∀ e : Nat, e % 4 = 0 ∨ e % 4 = 2 → xa_is_value e = false := by
    intro e h
    cases hv : xa_is_value e with
    | false => rfl
    | true =>
      rw [xa_is_value_iff] at hv
      omega
  have hodd : ∀ v : Nat, xa_mk_value v % 2 = 1 := by
    intro v
    rw [xa_mk_value_eq]
    omega
  refine ⟨xa_is_value_iff, ?_, hval, ?_⟩
  · intro v
    have h1 := hodd v
    have hni : xa_is_internal (xa_mk_value v) = false := by
      cases hi : xa_is_internal (xa_mk_value v) with
      | false => rfl
      | true =>
        rw [xa_is_internal_iff] at hi
        omega
    refine ⟨(xa_is_value_iff _).2 h1, by omega, by omega, by omega, hni, ?_⟩
    unfold xa_is_node
    rw [hni]
    rfl
  · intro e h
    apply hval
    right
    rcases h with h | h
    · exact (xa_is_internal_iff e).1 h
    · exact (xa_is_internal_iff e).1 (xa_is_node_internal h)

/-- C3, the claim as stated, fails: at `v = 2^(BITS_PER_LONG-1)` the call does
not fail with `InvalidValue`; it logs the warning and returns the entry `1`, the
entry of the value `0`. -/
theorem C3_counterexample :
    xa_mk_value_call (2 ^ 63) ≠ Outcome.failed xa_error.InvalidValue ∧
    xa_mk_value_call (2 ^ 63) = Outcome.returned true 1 ∧
    xa_mk_value 0 = 1 := by
  refine ⟨?_, ?_, ?_⟩
  · intro h
    cases h
  · unfold xa_mk_value_call
    congr 1
  · rfl

/-- C3, amended: `xa_mk_value` has no error return. For every word `v` that is
negative as a signed long, the call logs the `WARN_ON` warning and still returns
an entry: a value entry that has lost the top bit of `v`, that is, the entry of
`v - 2^(BITS_PER_LONG-1)`, which is what it decodes to. For every `v` below
`2^(BITS_PER_LONG-1)` no warning is logged. -/
theorem C3_out_of_range_warns_and_truncates (v : Nat) (hv : v < 2 ^ BITS_PER_LONG) :
    (2 ^ (BITS_PER_LONG - 1) ≤ v →
      xa_mk_value_call v = Outcome.returned true (xa_mk_value (v - 2 ^ (BITS_PER_LONG - 1))) ∧
      xa_is_value (xa_mk_value v) = true ∧
      xa_to_value (xa_mk_value v) = v - 2 ^ (BITS_PER_LONG - 1)) ∧
    (v < 2 ^ (BITS_PER_LONG - 1) →
      xa_mk_value_call v = Outcome.returned false (xa_mk_value v)) := by
  unfold BITS_PER_LONG at hv
  have e63 : (2:Nat) ^ (BITS_PER_LONG - 1) = 9223372036854775808 := by
    unfold BITS_PER_LONG; norm_num
  have e64 : (2:Nat) ^ 64 = 18446744073709551616 := by norm_num
  rw [e63]
  constructor
  · intro hge
    have hlong : to_long v < 0 := by
      unfold to_long ULONG
      rw [e63]
      unfold BITS_PER_LONG
      rw [Nat.mod_eq_of_lt hv, if_neg (by omega)]
      have : (v : Int) < 2 ^ 64 := by exact_mod_cast hv
      omega
    have hsame : xa_mk_value v = xa_mk_value (v - 9223372036854775808) := by
      rw [xa_mk_value_eq, xa_mk_value_eq]
      omega
    refine ⟨?_, ?_, ?_⟩
    · unfold xa_mk_value_call
      rw [hsame]
      simp [hlong]
    · rw [xa_is_value_iff, xa_mk_value_eq]
      omega
    · rw [hsame, xa_mk_value_eq]
      unfold xa_to_value
      rw [Nat.mod_eq_of_lt (by omega)]
      exact shr1_odd _
  · intro hlt
    have hlong : ¬ to_long v < 0 := by
      unfold to_long ULONG
      rw [e63]
      unfold BITS_PER_LONG
      rw [Nat.mod_eq_of_lt hv, if_pos hlt]
      omega
    unfold xa_mk_value_call
    simp [hlong]

theorem C3_out_of_range_witness :
    xa_mk_value_call (2 ^ 64 - 1) = Outcome.returned true (xa_mk_value (2 ^ 63 - 1)) :=
  ((C3_out_of_range_warns_and_truncates (2 ^ 64 - 1)
    (by unfold BITS_PER_LONG; norm_num)).1 (by unfold BITS_PER_LONG; norm_num)).1

/-! ## C4: load on a bare root -/

theorem xas_valid_restart {xas : xa_state} (h : xas.xa_node = XAS_RESTART) :
    xas_valid xas = false := by
  unfold xas_valid xas_invalid
  rw [h]
  rfl

theorem xas_error_restart {xas : xa_state} (h : xas.xa_node = XAS_RESTART) :
    xas_error xas = 0 := by
  unfold xas_error
  rw [h]
  rfl

theorem xas_start_bare (m : Mem) (xas : xa_state)
    (hstart : xas.xa_node = XAS_RESTART) (hhead : xa_is_node m.xa.xa_head = false) :
    xas_start m xas =
      if xas.xa_index ≠ 0 then some (0, m, { xas with xa_node := XAS_BOUNDS })
      else some (m.xa.xa_head, m, { xas with xa_node := 0 }) := by
  unfold xas_start
  rw [xas_valid_restart hstart]
  simp [xas_error_restart hstart, xa_head, hhead, set_bounds]

theorem xas_load_loop_non_node (fuel entry : Nat) (m : Mem) (xas : xa_state)
    (h : xa_is_node entry = false) : xas_load_loop fuel entry m xas = some (entry, m, xas) := by
  unfold xas_load_loop
  simp [h]

/-- C4: load on a bare root. For a cursor in the restart state on an array whose
head is not a node entry, `xas_load` returns the head entry and leaves
`xa_node == NULL` when `xa_index == 0`; when `xa_index != 0` it returns NULL and
leaves the cursor in the bounds state. The memory and the other cursor fields
are as before, whatever the fuel. -/
theorem C4_load_bare_root (fuel : Nat) (m : Mem) (xas : xa_state)
    (hstart : xas.xa_node = XAS_RESTART) (hhead : xa_is_node m.xa.xa_head = false) :
    (xas.xa_index = 0 →
      xas_load fuel m xas = some (m.xa.xa_head, m, { xas with xa_node := 0 })) ∧
    (xas.xa_index ≠ 0 →
      xas_load fuel m xas = some (0, m, { xas with xa_node := XAS_BOUNDS })) := by
  unfold xas_load
  rw [xas_start_bare m xas hstart hhead]
  constructor
  · intro h0
    simp only [h0, ne_eq, not_true_eq_false, if_false]
    exact xas_load_loop_non_node _ _ _ _ hhead
  · intro h0
    simp only [ne_eq, h0, not_false_eq_true, if_true]
    exact xas_load_loop_non_node _ _ _ _ rfl

theorem C4_load_bare_root_witness :
    xas_load 0 bare_mem (XA_STATE 0) = some (xa_mk_value 5, bare_mem, { XA_STATE 0 with xa_node := 0 }) ∧
    xas_load 0 bare_mem (XA_STATE 7) = some (0, bare_mem, { XA_STATE 7 with xa_node := XAS_BOUNDS }) :=
  ⟨(C4_load_bare_root 0 bare_mem (XA_STATE 0) rfl (by decide)).1 rfl,
   (C4_load_bare_root 0 bare_mem (XA_STATE 7) rfl (by decide)).2 (by decide)⟩

/-! ## C5: load follows the radix path -/

theorem xa_is_node_not_sibling {e : Nat} (h : xa_is_node e = true) : xa_is_sibling e = false := by
  unfold xa_is_node at h
  simp only [Bool.and_eq_true, decide_eq_true_eq] at h
  unfold xa_is_sibling
  have : xa_mk_sibling (XA_CHUNK_SIZE - 1) = 254 := by decide
  rw [this]
  simp only [Bool.and_eq_false_imp, decide_eq_false_iff_not]
  intro _
  omega

theorem xa_is_node_not_retry {e : Nat} (h : xa_is_node e = true) : xa_is_retry e = false := by
  unfold xa_is_node at h
  simp only [Bool.and_eq_true, decide_eq_true_eq] at h
  unfold xa_is_retry
  have : XA_RETRY_ENTRY = 1026 := by decide
  rw [this]
  simp only [beq_eq_false_iff_ne, ne_eq]
  omega

theorem get_offset_le (index : Nat) (n : xa_node) : get_offset index n ≤ XA_CHUNK_MASK := by
  unfold get_offset
  exact Nat.and_le_right

theorem xas_descend_plain (m : Mem) (xas : xa_state) (a : Nat) (n : xa_node)
    (hn : m.nodes a = some n) (hs : xa_is_sibling (n.slots (get_offset xas.xa_index n)) = false) :
    xas_descend m xas a =
      some (n.slots (get_offset xas.xa_index n), m,
        { xas with xa_node := a, xa_offset := get_offset xas.xa_index n }) := by
  unfold xas_descend
  simp [hn, xa_entry, hs]

/-- Once it holds a result, the loop of `xas_load` holds it with more fuel. -/
theorem xas_load_loop_mono : ∀ (f : Nat) (e : Nat) (m : Mem) (x : xa_state)
    (r : Nat × Mem × xa_state), xas_load_loop f e m x = some r →
    ∀ g, f ≤ g → xas_load_loop g e m x = some r := by
  intro f
  induction f with
  | zero =>
    intro e m x r h g _
    unfold xas_load_loop at h
    by_cases hn : xa_is_node e = true
    · simp [hn] at h
    · have hn1 : xa_is_node e = false := by simpa using hn
      rw [xas_load_loop_non_node _ _ _ _ hn1]
      simpa [hn1] using h
  | succ f ih =>
    intro e m x r h g hg
    by_cases hn : xa_is_node e = true
    · obtain ⟨g1, rfl⟩ : ∃ g1, g = g1 + 1 := ⟨g - 1, by omega⟩
      unfold xas_load_loop at h ⊢
      simp only [hn, if_true] at h ⊢
      cases hm : m.nodes (xa_to_node e) with
      | none => simp [hm] at h
      | some node =>
        simp only [hm] at h ⊢
        by_cases hsh : x.xa_shift > node.shift
        · simpa [hsh] using h
        · simp only [hsh, if_false] at h ⊢
          cases hd : xas_descend m x (xa_to_node e) with
          | none => simp [hd] at h
          | some r1 =>
            obtain ⟨e1, m1, x1⟩ := r1
            simp only [hd] at h ⊢
            exact ih e1 m1 x1 r h g1 (by omega)
    · have hn1 : xa_is_node e = false := by simpa using hn
      rw [xas_load_loop_non_node _ _ _ _ hn1] at h ⊢
      exact h

theorem xas_load_mono (f : Nat) (m : Mem) (x : xa_state) (r : Nat × Mem × xa_state)
    (h : xas_load f m x = some r) (g : Nat) (hg : f ≤ g) : xas_load g m x = some r := by
  unfold xas_load at h ⊢
  cases hs : xas_start m x with
  | none => simp [hs] at h
  | some r1 =>
    obtain ⟨e1, m1, x1⟩ := r1
    simp only [hs] at h ⊢
    exact xas_load_loop_mono f e1 m1 x1 r h g hg

/-- The loop of `xas_load`, entered on a node entry with a cursor of shift 0,
follows the reference walk as long as that walk ends on no sibling entry. -/
theorem xas_load_loop_walk : ∀ (f : Nat) (m : Mem) (a index e b o : Nat),
    radix_walk f m a index = some (e, b, o) → xa_is_sibling e = false →
    ∀ (entry : Nat) (xas : xa_state), xa_is_node entry = true → xa_to_node entry = a →
      xas.xa_index = index → xas.xa_shift = 0 → ∀ g, f ≤ g →
      xas_load_loop g entry m xas = some (e, m, { xas with xa_node := b, xa_offset := o }) := by
  intro f
  induction f with
  | zero =>
    intro m a index e b o h
    simp [radix_walk] at h
  | succ f ih =>
    intro m a index e b o h hsib entry xas hnode hto hidx hsh g hg
    obtain ⟨g1, rfl⟩ : ∃ g1, g = g1 + 1 := ⟨g - 1, by omega⟩
    unfold radix_walk at h
    cases hm : m.nodes a with
    | none => simp [hm] at h
    | some n =>
      simp only [hm] at h
      have hoff : (index >>> n.shift) &&& XA_CHUNK_MASK = get_offset xas.xa_index n := by
        unfold get_offset
        rw [hidx]
      rw [hoff] at h
      have hns : ¬ (xas.xa_shift > n.shift) := by omega
      unfold xas_load_loop
      simp only [hnode, if_true, hto, hm, hns, if_false]
      by_cases hc : xa_is_node (n.slots (get_offset xas.xa_index n)) = true
      · simp only [hc, if_true] at h
        rw [xas_descend_plain m xas a n hm (xa_is_node_not_sibling hc)]
        simp only
        have := ih m (xa_to_node (n.slots (get_offset xas.xa_index n))) index e b o h hsib
          (n.slots (get_offset xas.xa_index n))
          { xas with xa_node := a, xa_offset := get_offset xas.xa_index n } hc rfl hidx hsh g1
          (by omega)
        exact this
      · have hc1 : xa_is_node (n.slots (get_offset xas.xa_index n)) = false := by simpa using hc
        simp only [hc1, Bool.false_eq_true, if_false, Option.some.injEq, Prod.mk.injEq] at h
        obtain ⟨he, hb, ho⟩ := h
        subst he hb ho
        rw [xas_descend_plain m xas a n hm hsib]
        simp only
        exact xas_load_loop_non_node _ _ _ _ hc1

/-- Where every child node lies one level below its parent, the reference walk
from a node of shift below `XA_CHUNK_SHIFT * k` ends within `k` steps. -/
theorem radix_walk_terminates (m : Mem) (index : Nat)
    (hshape : ∀ a n o, m.nodes a = some n → o ≤ XA_CHUNK_MASK →
      xa_is_node (n.slots o) = true →
      ∃ c, m.nodes (xa_to_node (n.slots o)) = some c ∧ c.shift + XA_CHUNK_SHIFT = n.shift) :
    ∀ (k a : Nat) (n : xa_node), m.nodes a = some n → n.shift < XA_CHUNK_SHIFT * k →
      ∃ r, radix_walk k m a index = some r := by
  intro k
  induction k with
  | zero =>
    intro a n _ h
    simp at h
  | succ k ih =>
    intro a n hn hlt
    unfold radix_walk
    simp only [hn]
    by_cases hc : xa_is_node (n.slots ((index >>> n.shift) &&& XA_CHUNK_MASK)) = true
    · simp only [hc, if_true]
      obtain ⟨c, hcn, hcs⟩ := hshape a n _ hn Nat.and_le_right hc
      apply ih _ c hcn
      have : XA_CHUNK_SHIFT * (k + 1) = XA_CHUNK_SHIFT * k + XA_CHUNK_SHIFT := by ring
      omega
    · simp [hc]

theorem xas_start_node (m : Mem) (xas : xa_state) (head : xa_node)
    (hstart : xas.xa_node = XAS_RESTART) (hnode : xa_is_node m.xa.xa_head = true)
    (hhead : m.nodes (xa_to_node m.xa.xa_head) = some head) :
    xas_start m xas =
      if (xas.xa_index >>> head.shift) > XA_CHUNK_MASK then
        some (0, m, { xas with xa_node := XAS_BOUNDS })
      else some (m.xa.xa_head, m, { xas with xa_node := 0 }) := by
  unfold xas_start
  rw [xas_valid_restart hstart]
  simp [xas_error_restart hstart, xa_head, hnode, hhead, set_bounds]

theorem xas_load_restart_node (g : Nat) (m : Mem) (xas : xa_state) (head : xa_node)
    (hstart : xas.xa_node = XAS_RESTART) (hnode : xa_is_node m.xa.xa_head = true)
    (hhead : m.nodes (xa_to_node m.xa.xa_head) = some head) :
    xas_load g m xas =
      if (xas.xa_index >>> head.shift) > XA_CHUNK_MASK then
        some (0, m, { xas with xa_node := XAS_BOUNDS })
      else xas_load_loop g m.xa.xa_head m { xas with xa_node := 0 } := by
  unfold xas_load
  rw [xas_start_node m xas head hstart hnode hhead]
  split_ifs
  · exact xas_load_loop_non_node _ _ _ _ (by decide)
  · rfl

theorem xa_load_loop_of_load (f inner : Nat) (m : Mem) (xas x1 : xa_state) (e : Nat)
    (h : xas_load inner m xas = some (e, m, x1)) (hr : xa_is_retry e = false) :
    xa_load_loop (f + 1) inner m xas = some (e, m) := by
  unfold xa_load_loop
  simp [h, xas_retry, hr]

/-- On a retry entry `xa_load` walks again: where every walk of a restarted
cursor ends on the same retry entry, no amount of fuel makes `xa_load` return. -/
theorem xa_load_loop_retry_none (m : Mem) (index e b o K : Nat)
    (hwalk : ∀ xas : xa_state, xas.xa_node = XAS_RESTART → xas.xa_index = index →
      xas.xa_shift = 0 → ∀ g, K ≤ g →
      xas_load g m xas = some (e, m, { xas with xa_node := b, xa_offset := o }))
    (hr : xa_is_retry e = true) :
    ∀ (outer inner : Nat) (xas : xa_state), xas.xa_node = XAS_RESTART →
      xas.xa_index = index → xas.xa_shift = 0 → xa_load_loop outer inner m xas = none := by
  intro outer
  induction outer with
  | zero =>
    intro inner xas _ _ _
    rfl
  | succ outer ih =>
    intro inner xas h1 h2 h3
    unfold xa_load_loop
    cases hl : xas_load inner m xas with
    | none => rfl
    | some r =>
      have hbig := xas_load_mono inner m xas r hl (max inner K) (le_max_left _ _)
      rw [hwalk xas h1 h2 h3 (max inner K) (le_max_right _ _)] at hbig
      have hr1 : r = (e, m, { xas with xa_node := b, xa_offset := o }) :=
        (Option.some.inj hbig).symm
      subst hr1
      simp only [xas_retry, hr, Bool.not_true, Bool.false_eq_true, if_false]
      exact ih inner _ rfl h2 h3

/-- C5, the claim as stated, fails where the slot reached holds a retry entry:
in `retry_mem` the head is a node of shift 0 with no child node and no sibling
entry, index 0 is in range and the first non-node entry on its path is the retry
entry in slot 0, yet `xa_load` returns neither that entry nor anything else,
whatever the fuel. -/
theorem C5_counterexample :
    xa_is_node retry_mem.xa.xa_head = true ∧
    (∃ head, retry_mem.nodes (xa_to_node retry_mem.xa.xa_head) = some head ∧ head.shift = 0 ∧
      (0 >>> head.shift) ≤ XA_CHUNK_MASK ∧
      ∀ o, xa_is_node (head.slots o) = false ∧ xa_is_sibling (head.slots o) = false) ∧
    radix_walk 1 retry_mem (xa_to_node retry_mem.xa.xa_head) 0 = some (XA_RETRY_ENTRY, 8192, 0) ∧
    ¬ ∃ fuel r, xa_load fuel retry_mem 0 = some r := by
  refine ⟨by decide, ⟨_, rfl, rfl, by decide, ?_⟩, by decide, ?_⟩
  · intro o
    by_cases h : o = 0
    · subst h
      decide
    · simp only [h, if_false]
      decide
  · rintro ⟨fuel, r, h⟩
    have hnone := xa_load_loop_retry_none retry_mem 0 XA_RETRY_ENTRY 8192 0 1
      (by
        intro xas h1 h2 h3 g hg
        have hw := xas_load_loop_walk 1 retry_mem 8192 0 XA_RETRY_ENTRY 8192 0 (by decide)
          (by decide) retry_mem.xa.xa_head { xas with xa_node := 0 } (by decide) (by decide)
          h2 h3 g hg
        rw [xas_load_restart_node g retry_mem xas _ h1 (by decide) rfl, if_neg]
        · exact hw
        · rw [h2]
          decide)
      (by decide) fuel fuel (XA_STATE 0) rfl rfl rfl
    unfold xa_load at h
    rw [hnone] at h
    cases h

/-- C5, amended: load equals the radix-path reference lookup, except that a
retry entry is never returned. For an array whose head is a node of shift `s`
and in which every child node has its parent's shift minus `XA_CHUNK_SHIFT`:
`xa_load` returns NULL when `index >> s` exceeds `XA_CHUNK_MASK`; otherwise the
reference walk from the head node ends within `s / XA_CHUNK_SHIFT + 1` steps on
a first non-node entry `e` in slot `o` of node `a`, and when `e` is no sibling
entry a single `xas_load` of a fresh cursor returns `e` and leaves the cursor on
`a` and `o` with `xa_index` unchanged; `xa_load` returns `e` when `e` is not a
retry entry, and does not return when it is. -/
theorem C5_load_follows_radix_path (m : Mem) (index : Nat) (head : xa_node)
    (hnode : xa_is_node m.xa.xa_head = true)
    (hhead : m.nodes (xa_to_node m.xa.xa_head) = some head)
    (hshape : ∀ a n o, m.nodes a = some n → o ≤ XA_CHUNK_MASK →
      xa_is_node (n.slots o) = true →
      ∃ c, m.nodes (xa_to_node (n.slots o)) = some c ∧ c.shift + XA_CHUNK_SHIFT = n.shift) :
    ((index >>> head.shift) > XA_CHUNK_MASK →
      ∀ fuel, 1 ≤ fuel → xa_load fuel m index = some (0, m)) ∧
    ((index >>> head.shift) ≤ XA_CHUNK_MASK →
      ∃ e a o,
        radix_walk (head.shift / XA_CHUNK_SHIFT + 1) m (xa_to_node m.xa.xa_head) index
          = some (e, a, o) ∧
        (xa_is_sibling e = false →
          (∀ fuel, head.shift / XA_CHUNK_SHIFT + 1 ≤ fuel →
            xas_load fuel m (XA_STATE index)
              = some (e, m, { XA_STATE index with xa_node := a, xa_offset := o }) ∧
            (xa_is_retry e = false → xa_load fuel m index = some (e, m))) ∧
          (xa_is_retry e = true → ∀ fuel, xa_load fuel m index = none))) := by
  constructor
  · intro hout fuel hfuel
    obtain ⟨f, rfl⟩ : ∃ f, fuel = f + 1 := ⟨fuel - 1, by omega⟩
    unfold xa_load
    apply xa_load_loop_of_load f (f + 1) m (XA_STATE index)
      { XA_STATE index with xa_node := XAS_BOUNDS } 0 _ (by decide)
    rw [xas_load_restart_node (f + 1) m (XA_STATE index) head rfl hnode hhead]
    exact if_pos hout
  · intro hin
    have hlt : head.shift < XA_CHUNK_SHIFT * (head.shift / XA_CHUNK_SHIFT + 1) := by
      have h6 : XA_CHUNK_SHIFT = 6 := rfl
      rw [h6]
      omega
    obtain ⟨⟨e, a, o⟩, hw⟩ := radix_walk_terminates m index hshape _ _ head hhead hlt
    refine ⟨e, a, o, hw, ?_⟩
    intro hsib
    have hload : ∀ xas : xa_state, xas.xa_node = XAS_RESTART → xas.xa_index = index →
        xas.xa_shift = 0 → ∀ g, head.shift / XA_CHUNK_SHIFT + 1 ≤ g →
        xas_load g m xas = some (e, m, { xas with xa_node := a, xa_offset := o }) := by
      intro xas h1 h2 h3 g hg
      have hl := xas_load_loop_walk _ m _ index e a o hw hsib m.xa.xa_head
        { xas with xa_node := 0 } hnode rfl h2 h3 g hg
      rw [xas_load_restart_node g m xas head h1 hnode hhead, if_neg]
      · exact hl
      · rw [h2]
        omega
    constructor
    · intro fuel hfuel
      have h1 := hload (XA_STATE index) rfl rfl rfl fuel hfuel
      refine ⟨h1, ?_⟩
      intro hr
      have hpos : 1 ≤ fuel := le_trans (Nat.le_add_left 1 _) hfuel
      obtain ⟨f, rfl⟩ : ∃ f, fuel = f + 1 := ⟨fuel - 1, by omega⟩
      unfold xa_load
      exact xa_load_loop_of_load f (f + 1) m (XA_STATE index) _ e h1 hr
    · intro hr fuel
      unfold xa_load
      exact xa_load_loop_retry_none m index e a o _ hload hr fuel fuel (XA_STATE index) rfl rfl rfl

theorem two_level_mem_shape : ∀ a n o, two_level_mem.nodes a = some n → o ≤ XA_CHUNK_MASK →
    xa_is_node (n.slots o) = true →
    ∃ c, two_level_mem.nodes (xa_to_node (n.slots o)) = some c ∧
      c.shift + XA_CHUNK_SHIFT = n.shift := by
  intro a n o hn _ hnode
  simp only [two_level_mem] at hn
  split_ifs at hn with h1 h2
  · have hn1 := (Option.some.inj hn).symm
    subst hn1
    by_cases ho : o = 1
    · subst ho
      exact ⟨span_leaf 8192 1, rfl, rfl⟩
    · simp only [ho, if_false] at hnode
      exact absurd hnode (by decide)
  · have hn1 := (Option.some.inj hn).symm
    subst hn1
    simp only [span_leaf] at hnode
    split_ifs at hnode
    · exact absurd hnode (by decide)
    · exact absurd hnode (by decide)
    · exact absurd hnode (by decide)

theorem C5_load_follows_radix_path_witness :
    xa_load 2 two_level_mem 68 = some (xa_mk_value 4, two_level_mem) ∧
    xas_load 2 two_level_mem (XA_STATE 68)
      = some (xa_mk_value 4, two_level_mem, { XA_STATE 68 with xa_node := 8448, xa_offset := 4 }) ∧
    xa_load 1 two_level_mem 4096 = some (0, two_level_mem) := by
  have h := C5_load_follows_radix_path two_level_mem 68 _ (by decide) rfl two_level_mem_shape
  have h4096 := C5_load_follows_radix_path two_level_mem 4096 _ (by decide) rfl two_level_mem_shape
  obtain ⟨e, a, o, hw, hrest⟩ := h.2 (by decide)
  have hw2 : radix_walk 2 two_level_mem 8192 68 = some (xa_mk_value 4, 8448, 4) := by decide
  have heq : (e, a, o) = (xa_mk_value 4, 8448, 4) := Option.some.inj (hw.symm.trans hw2)
  obtain ⟨rfl, rfl, rfl⟩ := Prod.mk.inj heq |>.imp id Prod.mk.inj
  have h2 := (hrest (by decide)).1 2 (le_refl _)
  exact ⟨h2.2 (by decide), h2.1, h4096.1 (by decide) 1 (le_refl _)⟩

/-! ## C6: load through a sibling entry -/

theorem not_mask_val : (2:Nat) ^ 64 - 1 - 63 % 2 ^ 64 = (2 ^ 58 - 1) <<< 6 := by
  norm_num [Nat.shiftLeft_eq]

theorem testBit_clear_mask (s i : Nat) :
    (((2 ^ 58 - 1) <<< 6 <<< s) % 2 ^ 64).testBit i = (decide (s + 6 ≤ i) && decide (i < 64)) := by
  rw [Nat.testBit_mod_two_pow, ← Nat.shiftLeft_add, Nat.testBit_shiftLeft,
    Nat.testBit_two_pow_sub_one]
  by_cases h1 : i < 64 <;> by_cases h2 : s + 6 ≤ i <;> simp [h1, h2] <;> omega

theorem and_clear_mask (index s : Nat) (hidx : index < 2 ^ 64) :
    index &&& (((2 ^ 58 - 1) <<< 6 <<< s) % 2 ^ 64) = (index >>> (s + 6)) <<< (s + 6) := by
  apply Nat.eq_of_testBit_eq
  intro i
  rw [Nat.testBit_and, testBit_clear_mask, Nat.testBit_shiftLeft, Nat.testBit_shiftRight]
  by_cases h2 : s + 6 ≤ i
  · have e : s + 6 + (i - (s + 6)) = i := by omega
    rw [e]
    by_cases h1 : i < 64
    · simp [h1, h2]
    · have : index.testBit i = false := by
        apply Nat.testBit_lt_two_pow
        calc index < 2 ^ 64 := hidx
          _ ≤ 2 ^ i := Nat.pow_le_pow_right (by norm_num) (by omega)
      simp [h1, h2, this]
  · simp [h2]

theorem span_first_lt (index s k : Nat) (hidx : index < 2 ^ 64) (hk : k < 64)
    (hspan : k <<< s < 2 ^ 64) :
    (index >>> (s + 6)) <<< (s + 6) + (k <<< s) < 2 ^ 64 := by
  rw [Nat.shiftLeft_eq, Nat.shiftLeft_eq, Nat.shiftRight_eq_div_pow] at *
  by_cases hs : s + 6 ≤ 64
  · have hq : index / 2 ^ (s + 6) < 2 ^ (64 - (s + 6)) := by
      apply Nat.div_lt_of_lt_mul
      rw [← pow_add]
      have : s + 6 + (64 - (s + 6)) = 64 := by omega
      rw [this]
      exact hidx
    have h1 : (index / 2 ^ (s + 6) + 1) * 2 ^ (s + 6) ≤ 2 ^ (64 - (s + 6)) * 2 ^ (s + 6) :=
      Nat.mul_le_mul_right _ hq
    rw [← pow_add] at h1
    have : 64 - (s + 6) + (s + 6) = 64 := by omega
    rw [this] at h1
    have h2 : k * 2 ^ s < 2 ^ (s + 6) := by
      rw [pow_add]
      have : 0 < 2 ^ s := by positivity
      nlinarith
    nlinarith
  · have : index / 2 ^ (s + 6) = 0 := by
      apply Nat.div_eq_of_lt
      calc index < 2 ^ 64 := hidx
        _ ≤ 2 ^ (s + 6) := Nat.pow_le_pow_right (by norm_num) (by omega)
    rw [this]
    simpa using hspan

/-- What `xas_move_index` leaves in `xa_index`: the index with its low
`shift + XA_CHUNK_SHIFT` bits replaced by `offset << shift`. -/
theorem xas_move_index_eq (n : xa_node) (xas : xa_state) (k : Nat)
    (hidx : xas.xa_index < 2 ^ BITS_PER_LONG) (hk : k < 64)
    (hspan : k <<< n.shift < 2 ^ BITS_PER_LONG) :
    (xas_move_index n xas k).xa_index =
      (xas.xa_index >>> (n.shift + XA_CHUNK_SHIFT)) <<< (n.shift + XA_CHUNK_SHIFT)
        + (k <<< n.shift) := by
  have h6 : XA_CHUNK_SHIFT = 6 := rfl
  have h64 : BITS_PER_LONG = 64 := rfl
  rw [h64] at hidx hspan
  have hm : ulong_not XA_CHUNK_MASK = (2 ^ 58 - 1) <<< 6 := not_mask_val
  simp only [xas_move_index, hm, ULONG, h64, h6]
  rw [and_clear_mask _ _ hidx, Nat.mod_eq_of_lt hspan,
    Nat.mod_eq_of_lt (span_first_lt _ _ _ hidx hk hspan)]

theorem xa_is_sibling_lt {e : Nat} (h : xa_is_sibling e = true) : xa_to_sibling e < 63 := by
  unfold xa_is_sibling at h
  have h254 : xa_mk_sibling (XA_CHUNK_SIZE - 1) = 254 := by decide
  rw [h254] at h
  simp only [Bool.and_eq_true, decide_eq_true_eq] at h
  have h4 := (xa_is_internal_iff e).1 h.1
  unfold xa_to_sibling xa_to_internal
  rw [Nat.shiftRight_eq_div_pow]
  omega

/-- The loop of `xas_load` on a walk that ends on a sibling entry: the cursor
is redirected to the canonical slot and its index moved to the span's start. -/
theorem xas_load_loop_walk_sibling : ∀ (f : Nat) (m : Mem) (b index sib a o : Nat),
    radix_walk f m b index = some (sib, a, o) → xa_is_sibling sib = true →
    ∀ n : xa_node, m.nodes a = some n → xa_is_node (n.slots (xa_to_sibling sib)) = false →
    ∀ (entry : Nat) (xas : xa_state), xa_is_node entry = true → xa_to_node entry = b →
      xas.xa_index = index → xas.xa_shift = 0 → ∀ g, f ≤ g →
      xas_load_loop g entry m xas =
        some (n.slots (xa_to_sibling sib), m,
          { xas with
            xa_index := (xas_move_index n xas (xa_to_sibling sib)).xa_index,
            xa_node := a, xa_offset := xa_to_sibling sib }) := by
  intro f
  induction f with
  | zero =>
    intro m b index sib a o h
    simp [radix_walk] at h
  | succ f ih =>
    intro m b index sib a o h hsib n hn hx entry xas hnode hto hidx hsh g hg
    obtain ⟨g1, rfl⟩ : ∃ g1, g = g1 + 1 := ⟨g - 1, by omega⟩
    unfold radix_walk at h
    cases hm : m.nodes b with
    | none => simp [hm] at h
    | some nb =>
      simp only [hm] at h
      have hoff : (index >>> nb.shift) &&& XA_CHUNK_MASK = get_offset xas.xa_index nb := by
        unfold get_offset
        rw [hidx]
      rw [hoff] at h
      have hns : ¬ (xas.xa_shift > nb.shift) := by omega
      unfold xas_load_loop
      simp only [hnode, if_true, hto, hm, hns, if_false]
      by_cases hc : xa_is_node (nb.slots (get_offset xas.xa_index nb)) = true
      · simp only [hc, if_true] at h
        rw [xas_descend_plain m xas b nb hm (xa_is_node_not_sibling hc)]
        simp only
        exact ih m (xa_to_node (nb.slots (get_offset xas.xa_index nb))) index sib a o h hsib
          n hn hx (nb.slots (get_offset xas.xa_index nb))
          { xas with xa_node := b, xa_offset := get_offset xas.xa_index nb } hc rfl hidx hsh g1
          (by omega)
      · have hc1 : xa_is_node (nb.slots (get_offset xas.xa_index nb)) = false := by
          simpa using hc
        simp only [hc1, Bool.false_eq_true, if_false, Option.some.injEq, Prod.mk.injEq] at h
        obtain ⟨he, hb, _⟩ := h
        subst hb
        have hnb : nb = n := Option.some.inj (hm.symm.trans hn)
        subst hnb
        have hd : xas_descend m xas b =
            some (nb.slots (xa_to_sibling sib), m,
              { xas with
                xa_index := (xas_move_index nb xas (xa_to_sibling sib)).xa_index,
                xa_node := b, xa_offset := xa_to_sibling sib }) := by
          unfold xas_descend
          simp only [hm, xa_entry, he, hsib, if_true]
          rfl
        rw [hd]
        simp only
        exact xas_load_loop_non_node _ _ _ _ hx

/-- Where every child node lies one level below its parent, a reference walk
ends on the node it starts from or on a node at least one level below. -/
theorem radix_walk_shift (m : Mem) (index : Nat)
    (hshape : ∀ a n o, m.nodes a = some n → o ≤ XA_CHUNK_MASK →
      xa_is_node (n.slots o) = true →
      ∃ c, m.nodes (xa_to_node (n.slots o)) = some c ∧ c.shift + XA_CHUNK_SHIFT = n.shift) :
    ∀ (f b e a o : Nat) (nb n : xa_node), radix_walk f m b index = some (e, a, o) →
      m.nodes b = some nb → m.nodes a = some n →
      a = b ∨ n.shift + XA_CHUNK_SHIFT ≤ nb.shift := by
  intro f
  induction f with
  | zero =>
    intro b e a o nb n h
    simp [radix_walk] at h
  | succ f ih =>
    intro b e a o nb n h hb ha
    unfold radix_walk at h
    simp only [hb] at h
    by_cases hc : xa_is_node (nb.slots ((index >>> nb.shift) &&& XA_CHUNK_MASK)) = true
    · simp only [hc, if_true] at h
      obtain ⟨c, hcn, hcs⟩ := hshape b nb _ hb Nat.and_le_right hc
      right
      rcases ih _ e a o c n h hcn ha with h1 | h1
      · subst h1
        have : n = c := Option.some.inj (ha.symm.trans hcn)
        subst this
        omega
      · omega
    · have hc1 : xa_is_node (nb.slots ((index >>> nb.shift) &&& XA_CHUNK_MASK)) = false := by
        simpa using hc
      simp only [hc1, Bool.false_eq_true, if_false, Option.some.injEq, Prod.mk.injEq] at h
      left
      exact h.2.1.symm

/-- Two indices with the same digits above the node a walk ends on walk to that
node alike; there each reads the slot of its own digit. -/
theorem radix_walk_congr (m : Mem) (index index1 : Nat)
    (hshape : ∀ a n o, m.nodes a = some n → o ≤ XA_CHUNK_MASK →
      xa_is_node (n.slots o) = true →
      ∃ c, m.nodes (xa_to_node (n.slots o)) = some c ∧ c.shift + XA_CHUNK_SHIFT = n.shift)
    (a k : Nat) (n : xa_node) (hn : m.nodes a = some n)
    (hup : ∀ t, n.shift + XA_CHUNK_SHIFT ≤ t → index1 >>> t = index >>> t)
    (hk : (index1 >>> n.shift) &&& XA_CHUNK_MASK = k)
    (hx : xa_is_node (n.slots k) = false) :
    ∀ (f b e o : Nat), radix_walk f m b index = some (e, a, o) →
      radix_walk f m b index1 = some (n.slots k, a, k) := by
  intro f
  induction f with
  | zero =>
    intro b e o h
    simp [radix_walk] at h
  | succ f ih =>
    intro b e o h
    have h0 := h
    unfold radix_walk at h ⊢
    cases hb : m.nodes b with
    | none => simp [hb] at h
    | some nb =>
      simp only [hb] at h ⊢
      by_cases hc : xa_is_node (nb.slots ((index >>> nb.shift) &&& XA_CHUNK_MASK)) = true
      · simp only [hc, if_true] at h
        obtain ⟨c, hcn, hcs⟩ := hshape b nb _ hb Nat.and_le_right hc
        have hle : n.shift + XA_CHUNK_SHIFT ≤ nb.shift := by
          rcases radix_walk_shift m index hshape f _ e a o c n h hcn hn with h1 | h1
          · subst h1
            have : n = c := Option.some.inj (hn.symm.trans hcn)
            subst this
            omega
          · omega
        rw [hup nb.shift hle]
        simp only [hc, if_true]
        exact ih _ e o h
      · have hc1 : xa_is_node (nb.slots ((index >>> nb.shift) &&& XA_CHUNK_MASK)) = false := by
          simpa using hc
        simp only [hc1, Bool.false_eq_true, if_false, Option.some.injEq, Prod.mk.injEq] at h
        have hab : a = b := h.2.1.symm
        subst hab
        have : n = nb := Option.some.inj (hn.symm.trans hb)
        subst this
        rw [hk]
        simp [hx]

theorem span_first_upper (index s k t : Nat) (hk : k < 64) (ht : s + 6 ≤ t) :
    ((index >>> (s + 6)) <<< (s + 6) + (k <<< s)) >>> t = index >>> t := by
  obtain ⟨d, rfl⟩ : ∃ d, t = (s + 6) + d := ⟨t - (s + 6), by omega⟩
  have key : ((index >>> (s + 6)) <<< (s + 6) + (k <<< s)) >>> (s + 6) = index >>> (s + 6) := by
    generalize index >>> (s + 6) = q
    rw [Nat.shiftLeft_eq, Nat.shiftLeft_eq, Nat.shiftRight_eq_div_pow]
    have hpos : 0 < 2 ^ (s + 6) := by positivity
    have hlt : k * 2 ^ s < 2 ^ (s + 6) := by
      rw [pow_add]
      have : 0 < 2 ^ s := by positivity
      nlinarith
    rw [Nat.add_comm, Nat.add_mul_div_right _ _ hpos, Nat.div_eq_of_lt hlt]
    simp
  calc ((index >>> (s + 6)) <<< (s + 6) + (k <<< s)) >>> (s + 6 + d)
      = (((index >>> (s + 6)) <<< (s + 6) + (k <<< s)) >>> (s + 6)) >>> d :=
        Nat.shiftRight_add _ _ _
    _ = (index >>> (s + 6)) >>> d := by rw [key]
    _ = index >>> (s + 6 + d) := (Nat.shiftRight_add _ _ _).symm

theorem span_first_digit (index s k : Nat) (hk : k < 64) :
    (((index >>> (s + 6)) <<< (s + 6) + (k <<< s)) >>> s) &&& 63 = k := by
  have h63 : (63 : Nat) = 2 ^ 6 - 1 := by norm_num
  rw [h63, Nat.and_pow_two_sub_one_eq_mod]
  rw [Nat.shiftLeft_eq, Nat.shiftLeft_eq, Nat.shiftRight_eq_div_pow, Nat.shiftRight_eq_div_pow]
  have hpos : 0 < 2 ^ s := by positivity
  have e1 : index / 2 ^ (s + 6) * 2 ^ (s + 6) + k * 2 ^ s
      = (index / 2 ^ (s + 6) * 2 ^ 6 + k) * 2 ^ s := by
    rw [pow_add]
    ring
  rw [e1, Nat.mul_div_cancel _ hpos]
  norm_num
  omega

/-- C6: multi-index spans load identically. Let a fresh cursor at `index` reach
node `a` (shift `s`) at offset `o`, where slot `o` holds a sibling entry naming
slot `k` and slot `k` holds an entry `x` that is neither a node nor a sibling
(`k << s` being an index). Then `xas_load` returns `x` and ends on node `a` with
`xa_offset == k` and `xa_index` equal to `index` with its low
`s + XA_CHUNK_SHIFT` bits replaced by `k << s`; and, where every child node lies
one level below its parent, loading that first index of the span directly gives
the same entry and the same final cursor. -/
theorem C6_sibling_span_load (m : Mem) (index f sib a o : Nat) (head n : xa_node)
    (hidx : index < 2 ^ BITS_PER_LONG)
    (hnode : xa_is_node m.xa.xa_head = true)
    (hhead : m.nodes (xa_to_node m.xa.xa_head) = some head)
    (hin : (index >>> head.shift) ≤ XA_CHUNK_MASK)
    (hreach : radix_walk f m (xa_to_node m.xa.xa_head) index = some (sib, a, o))
    (hn : m.nodes a = some n)
    (hsib : xa_is_sibling sib = true)
    (hxn : xa_is_node (n.slots (xa_to_sibling sib)) = false)
    (hxs : xa_is_sibling (n.slots (xa_to_sibling sib)) = false)
    (hspan : xa_to_sibling sib <<< n.shift < 2 ^ BITS_PER_LONG) :
    xa_to_sibling sib < XA_CHUNK_SIZE ∧
    ∀ g, f ≤ g →
      xas_load g m (XA_STATE index) =
        some (n.slots (xa_to_sibling sib), m,
          { XA_STATE index with
            xa_index := (index >>> (n.shift + XA_CHUNK_SHIFT)) <<< (n.shift + XA_CHUNK_SHIFT)
              + (xa_to_sibling sib <<< n.shift),
            xa_node := a, xa_offset := xa_to_sibling sib }) ∧
      ((∀ b nb c, m.nodes b = some nb → c ≤ XA_CHUNK_MASK → xa_is_node (nb.slots c) = true →
          ∃ child, m.nodes (xa_to_node (nb.slots c)) = some child ∧
            child.shift + XA_CHUNK_SHIFT = nb.shift) →
        xas_load g m (XA_STATE ((index >>> (n.shift + XA_CHUNK_SHIFT)) <<<
            (n.shift + XA_CHUNK_SHIFT) + (xa_to_sibling sib <<< n.shift))) =
          some (n.slots (xa_to_sibling sib), m,
            { XA_STATE ((index >>> (n.shift + XA_CHUNK_SHIFT)) <<< (n.shift + XA_CHUNK_SHIFT)
                + (xa_to_sibling sib <<< n.shift)) with
              xa_node := a, xa_offset := xa_to_sibling sib })) := by
  have hk := xa_is_sibling_lt hsib
  have h6 : XA_CHUNK_SHIFT = 6 := rfl
  have h63 : XA_CHUNK_MASK = 63 := rfl
  refine ⟨by rw [show XA_CHUNK_SIZE = 64 from rfl]; omega, ?_⟩
  intro g hg
  constructor
  · rw [xas_load_restart_node g m (XA_STATE index) head rfl hnode hhead, if_neg (by
      show ¬ (index >>> head.shift > XA_CHUNK_MASK)
      omega)]
    rw [xas_load_loop_walk_sibling f m _ index sib a o hreach hsib n hn hxn m.xa.xa_head
      { XA_STATE index with xa_node := 0 } hnode rfl rfl rfl g hg]
    have hmv := xas_move_index_eq n { XA_STATE index with xa_node := 0 } (xa_to_sibling sib)
      hidx (by omega) hspan
    rw [hmv]
    rfl
  · intro hshape
    have hw := radix_walk_congr m index
      ((index >>> (n.shift + XA_CHUNK_SHIFT)) <<< (n.shift + XA_CHUNK_SHIFT)
        + (xa_to_sibling sib <<< n.shift))
      hshape a (xa_to_sibling sib) n hn
      (by
        intro t ht
        rw [h6] at ht ⊢
        exact span_first_upper index n.shift _ t (by omega) ht)
      (by
        rw [h6, h63]
        exact span_first_digit index n.shift _ (by omega))
      hxn f _ sib o hreach
    have hstart : ¬ ((XA_STATE ((index >>> (n.shift + XA_CHUNK_SHIFT)) <<<
        (n.shift + XA_CHUNK_SHIFT) + (xa_to_sibling sib <<< n.shift))).xa_index
          >>> head.shift > XA_CHUNK_MASK) := by
      show ¬ (((index >>> (n.shift + XA_CHUNK_SHIFT)) <<< (n.shift + XA_CHUNK_SHIFT)
        + (xa_to_sibling sib <<< n.shift)) >>> head.shift > XA_CHUNK_MASK)
      rcases radix_walk_shift m index hshape f _ sib a o head n hreach hhead hn with h1 | h1
      · subst h1
        have : n = head := Option.some.inj (hn.symm.trans hhead)
        subst this
        have hq : index >>> (n.shift + XA_CHUNK_SHIFT) = 0 := by
          rw [Nat.shiftRight_add, h6, Nat.shiftRight_eq_div_pow _ 6]
          rw [h63] at hin
          generalize index >>> n.shift = q at hin ⊢
          omega
        rw [hq]
        simp only [Nat.zero_shiftLeft, Nat.zero_add]
        rw [Nat.shiftLeft_eq, Nat.shiftRight_eq_div_pow,
          Nat.mul_div_cancel _ (by positivity)]
        omega
      · rw [h6] at h1 ⊢
        rw [span_first_upper index n.shift _ head.shift (by omega) h1]
        omega
    rw [xas_load_restart_node g m _ head rfl hnode hhead, if_neg hstart]
    exact xas_load_loop_walk f m _ _ _ a _ hw hxs m.xa.xa_head _ hnode rfl rfl rfl g hg

theorem span_mem_shape : ∀ b nb c, span_mem.nodes b = some nb → c ≤ XA_CHUNK_MASK →
    xa_is_node (nb.slots c) = true →
    ∃ child, span_mem.nodes (xa_to_node (nb.slots c)) = some child ∧
      child.shift + XA_CHUNK_SHIFT = nb.shift := by
  intro b nb c hn _ hnode
  simp only [span_mem] at hn
  split_ifs at hn with h1
  have hn1 := (Option.some.inj hn).symm
  subst hn1
  simp only [span_leaf] at hnode
  split_ifs at hnode
  · exact absurd hnode (by decide)
  · exact absurd hnode (by decide)
  · exact absurd hnode (by decide)

theorem C6_sibling_span_load_witness :
    xas_load 1 span_mem (XA_STATE 5) =
      some (xa_mk_value 4, span_mem, { XA_STATE 4 with xa_node := 8192, xa_offset := 4 }) ∧
    xas_load 1 span_mem (XA_STATE 6) =
      some (xa_mk_value 4, span_mem, { XA_STATE 4 with xa_node := 8192, xa_offset := 4 }) ∧
    xas_load 1 span_mem (XA_STATE 7) =
      some (xa_mk_value 4, span_mem, { XA_STATE 4 with xa_node := 8192, xa_offset := 4 }) ∧
    xas_load 1 span_mem (XA_STATE 4) =
      some (xa_mk_value 4, span_mem, { XA_STATE 4 with xa_node := 8192, xa_offset := 4 }) := by
  have h5 := (C6_sibling_span_load span_mem 5 1 (xa_mk_sibling 4) 8192 5 (span_leaf 0 0)
    (span_leaf 0 0) (by decide) (by decide) rfl (by decide) (by decide) rfl (by decide)
    (by decide) (by decide) (by decide)).2 1 (le_refl _)
  have h6 := (C6_sibling_span_load span_mem 6 1 (xa_mk_sibling 4) 8192 6 (span_leaf 0 0)
    (span_leaf 0 0) (by decide) (by decide) rfl (by decide) (by decide) rfl (by decide)
    (by decide) (by decide) (by decide)).2 1 (le_refl _)
  have h7 := (C6_sibling_span_load span_mem 7 1 (xa_mk_sibling 4) 8192 7 (span_leaf 0 0)
    (span_leaf 0 0) (by decide) (by decide) rfl (by decide) (by decide) rfl (by decide)
    (by decide) (by decide) (by decide)).2 1 (le_refl _)
  exact ⟨h5.1, h6.1, h7.1, h5.2 span_mem_shape⟩

/-! ## C9: retry entries are absorbed by `xa_load` -/

theorem xa_load_loop_not_retry : ∀ (outer inner : Nat) (m : Mem) (xas : xa_state)
    (e : Nat) (m1 : Mem), xa_load_loop outer inner m xas = some (e, m1) →
    xa_is_retry e = false := by
  intro outer
  induction outer with
  | zero =>
    intro inner m xas e m1 h
    simp [xa_load_loop] at h
  | succ outer ih =>
    intro inner m xas e m1 h
    unfold xa_load_loop at h
    cases hl : xas_load inner m xas with
    | none => simp [hl] at h
    | some r =>
      obtain ⟨e1, m2, x1⟩ := r
      simp only [hl] at h
      cases hr : xa_is_retry e1 with
      | true =>
        simp only [xas_retry, hr, Bool.not_true, Bool.false_eq_true, if_false, if_true] at h
        exact ih inner m2 _ e m1 h
      | false =>
        simp only [xas_retry, hr, Bool.not_false, if_true, Bool.false_eq_true, if_false,
          Option.some.injEq, Prod.mk.injEq] at h
        rw [← h.1]
        exact hr

theorem xa_load_loop_of_load_gen (f inner : Nat) (m m1 : Mem) (xas x1 : xa_state) (e : Nat)
    (h : xas_load inner m xas = some (e, m1, x1)) (hr : xa_is_retry e = false) :
    xa_load_loop (f + 1) inner m xas = some (e, m1) := by
  unfold xa_load_loop
  simp [h, xas_retry, hr]

/-- C9: retry is absorbed by `xa_load`. Whenever `xa_load` returns, the entry it
returns is not a retry entry; and where a single `xas_load` of a fresh cursor at
`index` returns an entry that is not a retry entry, `xa_load` returns exactly
that entry, with any fuel that suffices for the single load (and one pass). -/
theorem C9_retry_absorbed :
    (∀ (fuel : Nat) (m : Mem) (index e : Nat) (m1 : Mem),
      xa_load fuel m index = some (e, m1) → xa_is_retry e = false) ∧
    (∀ (inner : Nat) (m : Mem) (index e : Nat) (m1 : Mem) (x1 : xa_state),
      xas_load inner m (XA_STATE index) = some (e, m1, x1) → xa_is_retry e = false →
      ∀ fuel, inner ≤ fuel → 1 ≤ fuel → xa_load fuel m index = some (e, m1)) := by
  constructor
  · intro fuel m index e m1 h
    exact xa_load_loop_not_retry fuel fuel m (XA_STATE index) e m1 h
  · intro inner m index e m1 x1 h hr fuel hfuel hpos
    obtain ⟨f, rfl⟩ : ∃ f, fuel = f + 1 := ⟨fuel - 1, by omega⟩
    have h1 := xas_load_mono inner m (XA_STATE index) _ h (f + 1) hfuel
    exact xa_load_loop_of_load_gen f (f + 1) m m1 (XA_STATE index) x1 e h1 hr

theorem C9_retry_absorbed_witness :
    xa_is_retry (xa_mk_value 4) = false ∧
    xa_load 2 two_level_mem 68 = some (xa_mk_value 4, two_level_mem) :=
  ⟨C9_retry_absorbed.1 2 two_level_mem 68 (xa_mk_value 4) two_level_mem rfl,
   C9_retry_absorbed.2 2 two_level_mem 68 (xa_mk_value 4) two_level_mem
     { XA_STATE 68 with xa_node := 8448, xa_offset := 4 } rfl (by decide) 2
     (le_refl _) (by decide)⟩

/-! ## C10: reads do not write to the array -/

theorem xas_start_frame (m : Mem) (xas : xa_state) (e : Nat) (m1 : Mem) (x1 : xa_state)
    (h : xas_start m xas = some (e, m1, x1)) :
    m1 = m ∧ x1.xa_shift = xas.xa_shift ∧ x1.xa_sibs = xas.xa_sibs := by
  unfold xas_start set_bounds at h
  cases hv : xas_valid xas with
  | true =>
    simp only [hv, if_true] at h
    cases hr : xas_reload m xas with
    | none => simp [hr] at h
    | some v =>
      simp only [hr, Option.some.injEq, Prod.mk.injEq] at h
      obtain ⟨_, rfl, rfl⟩ := h
      exact ⟨rfl, rfl, rfl⟩
  | false =>
    simp only [hv, Bool.false_eq_true, if_false] at h
    by_cases he : xas_error xas ≠ 0
    · rw [if_pos he] at h
      simp only [Option.some.injEq, Prod.mk.injEq] at h
      obtain ⟨_, rfl, rfl⟩ := h
      exact ⟨rfl, rfl, rfl⟩
    · rw [if_neg he] at h
      cases hn : xa_is_node (xa_head m.xa) with
      | true =>
        simp only [hn, Bool.not_true, Bool.false_eq_true, if_false] at h
        cases hm : m.nodes (xa_to_node (xa_head m.xa)) with
        | none => simp [hm] at h
        | some head =>
          simp only [hm] at h
          by_cases hb : xas.xa_index >>> head.shift > XA_CHUNK_MASK
          · simp only [hb, if_true, Option.some.injEq, Prod.mk.injEq] at h
            obtain ⟨_, rfl, rfl⟩ := h
            exact ⟨rfl, rfl, rfl⟩
          · simp only [hb, if_false, Option.some.injEq, Prod.mk.injEq] at h
            obtain ⟨_, rfl, rfl⟩ := h
            exact ⟨rfl, rfl, rfl⟩
      | false =>
        simp only [hn, Bool.not_false, if_true] at h
        by_cases h0 : xas.xa_index ≠ 0
        · rw [if_pos h0] at h
          simp only [Option.some.injEq, Prod.mk.injEq] at h
          obtain ⟨_, rfl, rfl⟩ := h
          exact ⟨rfl, rfl, rfl⟩
        · rw [if_neg h0] at h
          simp only [Option.some.injEq, Prod.mk.injEq] at h
          obtain ⟨_, rfl, rfl⟩ := h
          exact ⟨rfl, rfl, rfl⟩

theorem xas_descend_frame (m : Mem) (xas : xa_state) (node e : Nat) (m1 : Mem) (x1 : xa_state)
    (h : xas_descend m xas node = some (e, m1, x1)) :
    m1 = m ∧ x1.xa_shift = xas.xa_shift ∧ x1.xa_sibs = xas.xa_sibs := by
  unfold xas_descend xas_move_index at h
  cases hn : m.nodes node with
  | none => simp [hn] at h
  | some n =>
    simp only [hn] at h
    cases hs : xa_is_sibling (xa_entry n (get_offset xas.xa_index n)) with
    | true =>
      simp only [hs, if_true, Option.some.injEq, Prod.mk.injEq] at h
      obtain ⟨_, rfl, rfl⟩ := h
      exact ⟨rfl, rfl, rfl⟩
    | false =>
      simp only [hs, Bool.false_eq_true, if_false, Option.some.injEq, Prod.mk.injEq] at h
      obtain ⟨_, rfl, rfl⟩ := h
      exact ⟨rfl, rfl, rfl⟩

theorem xas_load_loop_frame : ∀ (f e : Nat) (m : Mem) (xas : xa_state) (e1 : Nat) (m1 : Mem)
    (x1 : xa_state), xas_load_loop f e m xas = some (e1, m1, x1) →
    m1 = m ∧ x1.xa_shift = xas.xa_shift ∧ x1.xa_sibs = xas.xa_sibs := by
  intro f
  induction f with
  | zero =>
    intro e m xas e1 m1 x1 h
    unfold xas_load_loop at h
    split_ifs at h
    simp only [Option.some.injEq, Prod.mk.injEq] at h
    obtain ⟨_, rfl, rfl⟩ := h
    exact ⟨rfl, rfl, rfl⟩
  | succ f ih =>
    intro e m xas e1 m1 x1 h
    unfold xas_load_loop at h
    split_ifs at h with hn
    · cases hm : m.nodes (xa_to_node e) with
      | none => simp [hm] at h
      | some node =>
        simp only [hm] at h
        split_ifs at h
        · simp only [Option.some.injEq, Prod.mk.injEq] at h
          obtain ⟨_, rfl, rfl⟩ := h
          exact ⟨rfl, rfl, rfl⟩
        · cases hd : xas_descend m xas (xa_to_node e) with
          | none => simp [hd] at h
          | some r =>
            obtain ⟨e2, m2, x2⟩ := r
            simp only [hd] at h
            obtain ⟨rfl, h2, h3⟩ := xas_descend_frame m xas _ e2 m2 x2 hd
            obtain ⟨h4, h5, h6⟩ := ih e2 m2 x2 e1 m1 x1 h
            exact ⟨h4, h5.trans h2, h6.trans h3⟩
    · simp only [Option.some.injEq, Prod.mk.injEq] at h
      obtain ⟨_, rfl, rfl⟩ := h
      exact ⟨rfl, rfl, rfl⟩

theorem xas_load_frame (f : Nat) (m : Mem) (xas : xa_state) (e : Nat) (m1 : Mem)
    (x1 : xa_state) (h : xas_load f m xas = some (e, m1, x1)) :
    m1 = m ∧ x1.xa_shift = xas.xa_shift ∧ x1.xa_sibs = xas.xa_sibs := by
  unfold xas_load at h
  cases hs : xas_start m xas with
  | none => simp [hs] at h
  | some r =>
    obtain ⟨e2, m2, x2⟩ := r
    simp only [hs] at h
    obtain ⟨rfl, h2, h3⟩ := xas_start_frame m xas e2 m2 x2 hs
    obtain ⟨h4, h5, h6⟩ := xas_load_loop_frame f e2 m2 x2 e m1 x1 h
    exact ⟨h4, h5.trans h2, h6.trans h3⟩

theorem xa_load_loop_frame : ∀ (outer inner : Nat) (m : Mem) (xas : xa_state) (e : Nat)
    (m1 : Mem), xa_load_loop outer inner m xas = some (e, m1) → m1 = m := by
  intro outer
  induction outer with
  | zero =>
    intro inner m xas e m1 h
    simp [xa_load_loop] at h
  | succ outer ih =>
    intro inner m xas e m1 h
    unfold xa_load_loop at h
    cases hl : xas_load inner m xas with
    | none => simp [hl] at h
    | some r =>
      obtain ⟨e1, m2, x1⟩ := r
      simp only [hl] at h
      obtain ⟨rfl, _, _⟩ := xas_load_frame inner m xas e1 m2 x1 hl
      split_ifs at h
      · exact ih inner m2 _ e m1 h
      · simp only [Option.some.injEq, Prod.mk.injEq] at h
        exact h.2.symm

theorem xa_get_tag_loop_frame : ∀ (f e : Nat) (m : Mem) (xas : xa_state) (tag : Nat)
    (b : Bool) (m1 : Mem), xa_get_tag_loop f e m xas tag = some (b, m1) → m1 = m := by
  intro f
  induction f with
  | zero =>
    intro e m xas tag b m1 h
    unfold xa_get_tag_loop at h
    split_ifs at h
    all_goals
      simp only [Option.some.injEq, Prod.mk.injEq] at h
      exact h.2.symm
  | succ f ih =>
    intro e m xas tag b m1 h
    unfold xa_get_tag_loop at h
    split_ifs at h
    · simp only [Option.some.injEq, Prod.mk.injEq] at h
      exact h.2.symm
    · cases hd : xas_descend m xas (xa_to_node e) with
      | none => simp [hd] at h
      | some r =>
        obtain ⟨e2, m2, x2⟩ := r
        simp only [hd] at h
        obtain ⟨rfl, _, _⟩ := xas_descend_frame m xas _ e2 m2 x2 hd
        exact ih e2 m2 x2 tag b m1 h
    · simp only [Option.some.injEq, Prod.mk.injEq] at h
      exact h.2.symm

/-- C10: reads never change the array. Whenever `xas_load`, `xa_load` or
`xa_get_tag` returns, the memory it leaves is the memory it was given: the
array's head and flags and every node (slots, tag bitmaps, shift, offset,
parent, count, nr_values) are unchanged and no node has appeared; of the cursor,
`xas_load` leaves `xa_shift` and `xa_sibs` as they were, so that only `xa_node`,
`xa_offset` and `xa_index` may change. -/
theorem C10_reads_do_not_write :
    (∀ (fuel : Nat) (m : Mem) (xas : xa_state) (e : Nat) (m1 : Mem) (x1 : xa_state),
      xas_load fuel m xas = some (e, m1, x1) →
      m1 = m ∧ x1.xa_shift = xas.xa_shift ∧ x1.xa_sibs = xas.xa_sibs) ∧
    (∀ (fuel : Nat) (m : Mem) (index e : Nat) (m1 : Mem),
      xa_load fuel m index = some (e, m1) → m1 = m) ∧
    (∀ (fuel : Nat) (m : Mem) (index tag : Nat) (b : Bool) (m1 : Mem),
      xa_get_tag fuel m index tag = some (b, m1) → m1 = m) := by
  refine ⟨xas_load_frame, ?_, ?_⟩
  · intro fuel m index e m1 h
    exact xa_load_loop_frame fuel fuel m (XA_STATE index) e m1 h
  · intro fuel m index tag b m1 h
    unfold xa_get_tag at h
    cases hs : xas_start m (XA_STATE index) with
    | none => simp [hs] at h
    | some r =>
      obtain ⟨e2, m2, x2⟩ := r
      simp only [hs] at h
      obtain ⟨rfl, _, _⟩ := xas_start_frame m _ e2 m2 x2 hs
      exact xa_get_tag_loop_frame fuel e2 m2 x2 tag b m1 h

/-! ## Store and erase on well-formed arrays -/

theorem xa_mk_node_eq {a : Nat} (h : a % 4 = 0) : xa_mk_node a = a + 2 := by
  unfold xa_mk_node
  apply Nat.eq_of_testBit_eq
  intro i
  rw [Nat.testBit_lor]
  obtain ⟨q, rfl⟩ : ∃ q, a = 4 * q := ⟨a / 4, by omega⟩
  match i with
  | 0 =>
    simp [Nat.testBit_zero]
  | 1 =>
    have h1 : (4 * q).testBit 1 = false := by
      rw [Nat.testBit_succ, Nat.testBit_zero]
      simp
      omega
    have h2 : (4 * q + 2).testBit 1 = true := by
      rw [Nat.testBit_succ, Nat.testBit_zero]
      simp
      omega
    rw [h1, h2]
    rfl
  | k + 2 =>
    have h1 : Nat.testBit 2 (k + 2) = false := by
      rw [Nat.testBit_succ, Nat.testBit_succ]
      simp
    rw [h1, Bool.or_false, Nat.testBit_succ, Nat.testBit_succ, Nat.testBit_succ,
      Nat.testBit_succ]
    congr 1
    omega

theorem xa_is_node_mk {a : Nat} (h : a % 4 = 0) (h1 : 4096 ≤ a) :
    xa_is_node (xa_mk_node a) = true := by
  rw [xa_mk_node_eq h]
  unfold xa_is_node
  simp only [Bool.and_eq_true, decide_eq_true_eq]
  exact ⟨(xa_is_internal_iff _).2 (by omega), by omega⟩

theorem xa_to_node_mk {a : Nat} (h : a % 4 = 0) : xa_to_node (xa_mk_node a) = a := by
  rw [xa_mk_node_eq h]
  unfold xa_to_node
  omega

theorem xa_mk_node_inj {a b : Nat} (ha : a % 4 = 0) (hb : b % 4 = 0)
    (h : xa_mk_node a = xa_mk_node b) : a = b := by
  rw [xa_mk_node_eq ha, xa_mk_node_eq hb] at h
  omega

@[simp] theorem set_node_same (m : Mem) (a : Nat) (n : xa_node) :
    (m.set_node a n).nodes a = some n := by
  simp [Mem.set_node]

theorem set_node_ne (m : Mem) {a b : Nat} (n : xa_node) (h : b ≠ a) :
    (m.set_node a n).nodes b = m.nodes b := by
  simp [Mem.set_node, Function.update, h]

@[simp] theorem set_node_xa (m : Mem) (a : Nat) (n : xa_node) : (m.set_node a n).xa = m.xa := rfl

theorem digit_eq (q : Nat) : q &&& XA_CHUNK_MASK = q % 64 := by
  have : XA_CHUNK_MASK = 2 ^ 6 - 1 := by decide
  rw [this, Nat.and_pow_two_sub_one_eq_mod]

theorem shr_succ (j s : Nat) : j >>> (s + 6) = (j >>> s) / 64 := by
  rw [Nat.shiftRight_add, Nat.shiftRight_eq_div_pow _ 6]

theorem wf_child {m : Mem} {pre : Nat → Nat} (hwf : WFp m pre) {a : Nat} {n : xa_node}
    (hn : m.nodes a = some n) {o : Nat} (ho : o < XA_CHUNK_SIZE)
    (hs : xa_is_node (n.slots o) = true) :
    ∃ c, m.nodes (xa_to_node (n.slots o)) = some c ∧ c.shift + XA_CHUNK_SHIFT = n.shift ∧
      c.parent = a ∧ c.offset = o ∧
      pre (xa_to_node (n.slots o)) = pre a * XA_CHUNK_SIZE + o ∧
      n.slots o = xa_mk_node (xa_to_node (n.slots o)) := by
  obtain ⟨c, hc, hcp, hco⟩ := (hwf.node_ok a n hn).slot_node o ho hs
  have hca := hwf.node_ok _ c hc
  have ha0 : a ≠ 0 := by
    have := (hwf.node_ok a n hn).aligned.2
    omega
  have hcp0 : c.parent ≠ 0 := by rw [hcp]; exact ha0
  obtain ⟨p, hp, hps, hpslot, hpre⟩ := hca.child hcp0
  rw [hcp] at hp hpre
  have hpn : p = n := Option.some.inj (hp.symm.trans hn)
  subst hpn
  rw [hco] at hpslot hpre
  exact ⟨c, hc, hps.symm, hcp, hco, hpre, hpslot⟩

theorem wf_shape {m : Mem} {pre : Nat → Nat} (hwf : WFp m pre) :
    ∀ a n o, m.nodes a = some n → o ≤ XA_CHUNK_MASK → xa_is_node (n.slots o) = true →
      ∃ c, m.nodes (xa_to_node (n.slots o)) = some c ∧ c.shift + XA_CHUNK_SHIFT = n.shift := by
  intro a n o hn ho hs
  have ho1 : o < XA_CHUNK_SIZE := by
    have : XA_CHUNK_MASK = 63 := rfl
    have : XA_CHUNK_SIZE = 64 := rfl
    omega
  obtain ⟨c, hc, hsh, _⟩ := wf_child hwf hn ho1 hs
  exact ⟨c, hc, hsh⟩

theorem radix_walk_mono : ∀ (f : Nat) (m : Mem) (b j : Nat) (r : Nat × Nat × Nat),
    radix_walk f m b j = some r → ∀ g, f ≤ g → radix_walk g m b j = some r := by
  intro f
  induction f with
  | zero =>
    intro m b j r h
    simp [radix_walk] at h
  | succ f ih =>
    intro m b j r h g hg
    obtain ⟨g1, rfl⟩ : ∃ g1, g = g1 + 1 := ⟨g - 1, by omega⟩
    unfold radix_walk at h ⊢
    cases hb : m.nodes b with
    | none => simp [hb] at h
    | some nb =>
      simp only [hb] at h ⊢
      split_ifs at h ⊢ with hc
      · exact ih m _ j r h g1 (by omega)
      · exact h

/-- Where a walk of a well-formed array ends: on a slot of a node the index is
routed through, at the offset of its digit, holding an entry that is no node. -/
theorem radix_walk_route {m : Mem} {pre : Nat → Nat} (hwf : WFp m pre) (j : Nat) :
    ∀ (f b : Nat) (nb : xa_node) (e a o : Nat), m.nodes b = some nb →
      j >>> (nb.shift + 6) = pre b → radix_walk f m b j = some (e, a, o) →
      ∃ n, m.nodes a = some n ∧ j >>> (n.shift + 6) = pre a ∧ o = (j >>> n.shift) % 64 ∧
        n.slots o = e ∧ xa_is_node e = false := by
  intro f
  induction f with
  | zero =>
    intro b nb e a o _ _ h
    simp [radix_walk] at h
  | succ f ih =>
    intro b nb e a o hb hpre h
    unfold radix_walk at h
    simp only [hb, digit_eq] at h
    have ho : (j >>> nb.shift) % 64 < XA_CHUNK_SIZE := Nat.mod_lt _ (by decide)
    split_ifs at h with hc
    · obtain ⟨c, hcn, hcs, _, _, hcpre, _⟩ := wf_child hwf hb ho hc
      apply ih _ c e a o hcn _ h
      have h6 : XA_CHUNK_SHIFT = 6 := rfl
      have h64 : XA_CHUNK_SIZE = 64 := rfl
      rw [h6] at hcs
      have e1 : j >>> nb.shift = (j >>> c.shift) / 64 := by rw [← hcs, shr_succ]
      rw [hcpre, ← hpre, h64, shr_succ, shr_succ j nb.shift, ← e1]
      omega
    · simp only [Option.some.injEq, Prod.mk.injEq] at h
      obtain ⟨he, hab, ho1⟩ := h
      subst hab
      exact ⟨nb, hb, hpre, ho1.symm, by rw [← ho1]; exact he, by
        rw [← he]
        simpa using hc⟩

/-- Every node of a well-formed array is met by the walks, from the root node,
of the indices routed through it. -/
theorem radix_walk_reach {m : Mem} {pre : Nat → Nat} (hwf : WFp m pre) (j : Nat) :
    ∀ (d a : Nat) (n : xa_node), m.nodes a = some n → 60 - n.shift ≤ d →
      j >>> (n.shift + 6) = pre a → ∀ (r : Nat × Nat × Nat) (f : Nat),
      radix_walk f m a j = some r →
      ∃ hn, xa_is_node m.xa.xa_head = true ∧ m.nodes (xa_to_node m.xa.xa_head) = some hn ∧
        j >>> (hn.shift + 6) = 0 ∧ ∃ g, radix_walk g m (xa_to_node m.xa.xa_head) j = some r := by
  intro d
  induction d using Nat.strong_induction_on with
  | _ d ih =>
    intro a n hn hd hpre r f hr
    have hok := hwf.node_ok a n hn
    have h6 : XA_CHUNK_SHIFT = 6 := rfl
    have h64 : XA_CHUNK_SIZE = 64 := rfl
    by_cases hp : n.parent = 0
    · obtain ⟨hhead, hpre0⟩ := hok.root hp
      have hto : xa_to_node m.xa.xa_head = a := by rw [hhead]; exact xa_to_node_mk hok.aligned.1
      refine ⟨n, ?_, ?_, ?_, f, ?_⟩
      · rw [hhead]; exact xa_is_node_mk hok.aligned.1 hok.aligned.2
      · rw [hto]; exact hn
      · rw [hpre, hpre0]
      · rw [hto]; exact hr
    · obtain ⟨p, hpn, hps, hpslot, hppre⟩ := hok.child hp
      have hpok := hwf.node_ok _ p hpn
      have hoff := hok.offset_ok
      rw [h64] at hppre hoff
      rw [h6] at hps
      have hq : j >>> p.shift = pre n.parent * 64 + n.offset := by
        rw [hps, hpre, hppre]
      have hwalk : radix_walk (f + 1) m n.parent j = some r := by
        unfold radix_walk
        simp only [hpn, digit_eq]
        have hdig : (j >>> p.shift) % 64 = n.offset := by
          rw [hq]
          omega
        rw [hdig, hpslot]
        simp only [xa_is_node_mk hok.aligned.1 hok.aligned.2, if_true,
          xa_to_node_mk hok.aligned.1]
        exact hr
      have hsh := hpok.shift_ok.2
      rw [h6, show BITS_PER_LONG = 64 from rfl] at hsh
      apply ih (60 - p.shift) (by omega) n.parent p hpn (le_refl _) _ r (f + 1) hwalk
      rw [shr_succ, hq]
      omega

theorem wf_head_pre {m : Mem} {pre : Nat → Nat} (hwf : WFp m pre)
    (hnode : xa_is_node m.xa.xa_head = true) :
    ∃ hn, m.nodes (xa_to_node m.xa.xa_head) = some hn ∧ hn.parent = 0 ∧
      pre (xa_to_node m.xa.xa_head) = 0 ∧ hn.shift ≤ 60 := by
  obtain ⟨hn, hh, hp⟩ := hwf.head_node hnode
  have hok := hwf.node_ok _ hn hh
  have hsh := hok.shift_ok.2
  rw [show XA_CHUNK_SHIFT = 6 from rfl, show BITS_PER_LONG = 64 from rfl] at hsh
  exact ⟨hn, hh, hp, (hok.root hp).2, by omega⟩

theorem cov_iff (j s : Nat) : j >>> (s + 6) = 0 ↔ ¬ (j >>> s > XA_CHUNK_MASK) := by
  rw [shr_succ, show XA_CHUNK_MASK = 63 from rfl]
  generalize j >>> s = q
  omega

theorem xa_lookup_of_walk {m : Mem} {pre : Nat → Nat} (hwf : WFp m pre) (j : Nat)
    (hnode : xa_is_node m.xa.xa_head = true) (hn : xa_node)
    (hh : m.nodes (xa_to_node m.xa.xa_head) = some hn) (hcov : j >>> (hn.shift + 6) = 0)
    (g : Nat) (r : Nat × Nat × Nat)
    (hr : radix_walk g m (xa_to_node m.xa.xa_head) j = some r) : xa_lookup m j = r.1 := by
  obtain ⟨hn1, hh1, _, _, hsh⟩ := wf_head_pre hwf hnode
  have : hn1 = hn := Option.some.inj (hh1.symm.trans hh)
  subst this
  have hlt : hn1.shift < XA_CHUNK_SHIFT * (hn1.shift / XA_CHUNK_SHIFT + 1) := by
    rw [show XA_CHUNK_SHIFT = 6 from rfl]
    omega
  obtain ⟨r1, hr1⟩ := radix_walk_terminates m j (wf_shape hwf) _ _ hn1 hh hlt
  have hle : hn1.shift / XA_CHUNK_SHIFT + 1 ≤ 11 := by
    rw [show XA_CHUNK_SHIFT = 6 from rfl]
    omega
  have h11 := radix_walk_mono _ m _ j r1 hr1 11 hle
  have hmax1 := radix_walk_mono _ m _ j r1 h11 (max g 11) (le_max_right _ _)
  have hmax2 := radix_walk_mono _ m _ j r hr (max g 11) (le_max_left _ _)
  have hrr : r1 = r := Option.some.inj (hmax1.symm.trans hmax2)
  subst hrr
  unfold xa_lookup
  have hin : ¬ (j >>> hn1.shift > XA_CHUNK_MASK) := (cov_iff j _).1 hcov
  simp only [hnode, if_true, hh, hin, if_false, h11]

/-- The contents of a well-formed array lie in its leaves (or in the root slot):
an index whose reference lookup is an entry other than NULL is index 0 of a root
that is that entry, or has its slot in a leaf. -/
theorem xa_lookup_nonzero {m : Mem} {pre : Nat → Nat} (hwf : WFp m pre) (j e : Nat)
    (hl : xa_lookup m j = e) (he : e ≠ 0) :
    (xa_is_node m.xa.xa_head = false ∧ j = 0 ∧ m.xa.xa_head = e) ∨
    (∃ a n o, m.nodes a = some n ∧ n.shift = 0 ∧ o < 64 ∧ n.slots o = e ∧ j = pre a * 64 + o) := by
  cases hnode : xa_is_node m.xa.xa_head with
  | false =>
    left
    unfold xa_lookup at hl
    simp only [hnode, Bool.false_eq_true, if_false] at hl
    split_ifs at hl with h0
    · exact ⟨rfl, h0, hl⟩
    · exact absurd hl.symm he
  | true =>
    right
    obtain ⟨hn, hh, _, hpre0, _⟩ := wf_head_pre hwf hnode
    unfold xa_lookup at hl
    simp only [hnode, if_true, hh] at hl
    split_ifs at hl with hout
    · exact absurd hl.symm he
    · cases hw : radix_walk 11 m (xa_to_node m.xa.xa_head) j with
      | none =>
        simp only [hw] at hl
        exact absurd hl.symm he
      | some r =>
        obtain ⟨e1, a, o⟩ := r
        simp only [hw] at hl
        subst hl
        have hcov : j >>> (hn.shift + 6) = pre (xa_to_node m.xa.xa_head) := by
          rw [hpre0]
          exact (cov_iff j _).2 hout
        obtain ⟨n, hna, hroute, ho, hslot, hnn⟩ :=
          radix_walk_route hwf j 11 _ hn e1 a o hh hcov hw
        have hok := hwf.node_ok a n hna
        have ho64 : o < XA_CHUNK_SIZE := by
          rw [ho]
          exact Nat.mod_lt _ (by decide)
        have hs0 : n.shift = 0 := by
          by_contra hs
          have := (hok.slot_entry o ho64 (by rw [hslot]; exact hnn)).2 hs
          rw [hslot] at this
          exact he this
        refine ⟨a, n, o, hna, hs0, ho64, hslot, ?_⟩
        rw [hs0] at hroute ho
        simp only [Nat.zero_add, Nat.shiftRight_zero] at hroute ho
        rw [Nat.shiftRight_eq_div_pow] at hroute
        omega

/-- The slot of a leaf of a well-formed array is the reference lookup of the
index it stands for. -/
theorem xa_lookup_leaf {m : Mem} {pre : Nat → Nat} (hwf : WFp m pre) (a : Nat) (n : xa_node)
    (o : Nat) (hn : m.nodes a = some n) (hs : n.shift = 0) (ho : o < 64) :
    xa_lookup m (pre a * 64 + o) = n.slots o := by
  have hnn : xa_is_node (n.slots o) = false := by
    cases hc : xa_is_node (n.slots o) with
    | false => rfl
    | true =>
      obtain ⟨c, _, hcs, _⟩ := wf_child hwf hn ho hc
      rw [hs, show XA_CHUNK_SHIFT = 6 from rfl] at hcs
      omega
  have hw : radix_walk 1 m a (pre a * 64 + o) = some (n.slots o, a, o) := by
    unfold radix_walk
    simp only [hn, digit_eq, hs, Nat.shiftRight_zero]
    have : (pre a * 64 + o) % 64 = o := by omega
    rw [this]
    simp [hnn]
  have hroute : (pre a * 64 + o) >>> (n.shift + 6) = pre a := by
    rw [hs, Nat.zero_add, Nat.shiftRight_eq_div_pow]
    omega
  obtain ⟨hn1, hnode, hh, hcov, g, hg⟩ :=
    radix_walk_reach hwf _ (60 - n.shift) a n hn (le_refl _) hroute _ 1 hw
  exact xa_lookup_of_walk hwf _ hnode hn1 hh hcov g _ hg

theorem xa_lookup_bare {m : Mem} (hnode : xa_is_node m.xa.xa_head = false) (j : Nat) :
    xa_lookup m j = if j = 0 then m.xa.xa_head else 0 := by
  unfold xa_lookup
  simp [hnode]

theorem xa_lookup_iff_holds {m : Mem} {pre : Nat → Nat} (hwf : WFp m pre) (j e : Nat)
    (he : e ≠ 0) : xa_lookup m j = e ↔ xa_holds m pre j e := by
  constructor
  · intro hl
    exact xa_lookup_nonzero hwf j e hl he
  · intro hh
    rcases hh with ⟨hb, h0, hhead⟩ | ⟨a, n, o, hn, hs, ho, hslot, hj⟩
    · rw [xa_lookup_bare hb, if_pos h0, hhead]
    · rw [hj, xa_lookup_leaf hwf a n o hn hs ho, hslot]

/-- Two well-formed arrays that hold the same entries look up alike. -/
theorem xa_lookup_congr {m m1 : Mem} {pre pre1 : Nat → Nat} (hwf : WFp m pre)
    (hwf1 : WFp m1 pre1) (j : Nat)
    (h : ∀ e, e ≠ 0 → (xa_holds m1 pre1 j e ↔ xa_holds m pre j e)) :
    xa_lookup m1 j = xa_lookup m j := by
  by_cases h0 : xa_lookup m j = 0
  · by_cases h1 : xa_lookup m1 j = 0
    · rw [h0, h1]
    · have := (xa_lookup_iff_holds hwf1 j _ h1).1 rfl
      have := (xa_lookup_iff_holds hwf j _ h1).2 ((h _ h1).1 this)
      rw [this] at h0
      exact absurd h0 h1
  · have := (xa_lookup_iff_holds hwf j _ h0).1 rfl
    exact (xa_lookup_iff_holds hwf1 j _ h0).2 ((h _ h0).2 this)

theorem get_offset_eq (i : Nat) (n : xa_node) : get_offset i n = (i >>> n.shift) % 64 := by
  unfold get_offset
  exact digit_eq _

theorem same_shape_refl (m : Mem) : xa_same_shape m m :=
  ⟨rfl, fun _ => ⟨fun h => h, fun n h => ⟨n, h, rfl, rfl, rfl, rfl, rfl⟩⟩⟩

theorem same_shape_trans {m m1 m2 : Mem} (h1 : xa_same_shape m m1) (h2 : xa_same_shape m1 m2) :
    xa_same_shape m m2 := by
  refine ⟨h2.1.trans h1.1, fun a => ⟨fun h => (h2.2 a).1 ((h1.2 a).1 h), fun n h => ?_⟩⟩
  obtain ⟨n1, hn1, a1, a2, a3, a4, a5⟩ := (h1.2 a).2 n h
  obtain ⟨n2, hn2, b1, b2, b3, b4, b5⟩ := (h2.2 a).2 n1 hn1
  exact ⟨n2, hn2, b1.trans a1, b2.trans a2, b3.trans a3, b4.trans a4, b5.trans a5⟩

theorem same_shape_back {m m1 : Mem} (h : xa_same_shape m m1) {a : Nat} {n1 : xa_node}
    (h1 : m1.nodes a = some n1) :
    ∃ n, m.nodes a = some n ∧ n1.shift = n.shift ∧ n1.offset = n.offset ∧
      n1.count = n.count ∧ n1.parent = n.parent ∧ n1.slots = n.slots := by
  cases hm : m.nodes a with
  | none =>
    rw [(h.2 a).1 hm] at h1
    cases h1
  | some n =>
    obtain ⟨n2, hn2, p⟩ := (h.2 a).2 n hm
    rw [hn2] at h1
    cases h1
    exact ⟨n, rfl, p⟩

theorem same_shape_set_node {m : Mem} {a : Nat} {n n1 : xa_node} (hn : m.nodes a = some n)
    (hshift : n1.shift = n.shift) (hoff : n1.offset = n.offset) (hcount : n1.count = n.count)
    (hpar : n1.parent = n.parent) (hslots : n1.slots = n.slots) :
    xa_same_shape m (m.set_node a n1) := by
  refine ⟨rfl, fun b => ?_⟩
  by_cases hb : b = a
  · subst hb
    refine ⟨fun h => ?_, fun n2 h => ?_⟩
    · rw [hn] at h
      cases h
    · rw [hn] at h
      cases h
      exact ⟨n1, set_node_same _ _ _, hshift, hoff, hcount, hpar, hslots⟩
  · rw [set_node_ne _ _ hb]
    exact ⟨fun h => h, fun n2 h => ⟨n2, h, rfl, rfl, rfl, rfl, rfl⟩⟩

theorem wfp_same_shape {m m1 : Mem} {pre : Nat → Nat} (h : xa_same_shape m m1)
    (hwf : WFp m pre) : WFp m1 pre where
  head_bare := by
    rw [h.1]
    exact hwf.head_bare
  head_node := by
    rw [h.1]
    intro hnode
    obtain ⟨hn, hh, hp⟩ := hwf.head_node hnode
    obtain ⟨n1, hn1, _, _, _, a4, _⟩ := (h.2 _).2 hn hh
    exact ⟨n1, hn1, a4.trans hp⟩
  node_ok := by
    intro a n1 h1
    obtain ⟨n, hn, a1, a2, a3, a4, a5⟩ := same_shape_back h h1
    have hok := hwf.node_ok a n hn
    refine ⟨hok.aligned, by rw [a1]; exact hok.shift_ok, by rw [a2]; exact hok.offset_ok,
      ?_, ?_, ?_, ?_, ?_⟩
    · rw [a4, h.1]
      exact hok.root
    · rw [a4, a1, a2]
      intro hp
      obtain ⟨p, hpn, hps, hpsl, hpp⟩ := hok.child hp
      obtain ⟨p1, hp1, b1, _, _, _, b5⟩ := (h.2 _).2 p hpn
      exact ⟨p1, hp1, b1.trans hps, by rw [b5]; exact hpsl, hpp⟩
    · rw [a5]
      intro o ho hs
      obtain ⟨c, hc, hcp, hco⟩ := hok.slot_node o ho hs
      obtain ⟨c1, hc1, _, b2, _, b4, _⟩ := (h.2 _).2 c hc
      exact ⟨c1, hc1, b4.trans hcp, b2.trans hco⟩
    · rw [a5, a1]
      exact hok.slot_entry
    · rw [a3, hok.count_ok]
      unfold xa_slots_in_use
      rw [a5]

theorem holds_same_shape {m m1 : Mem} (h : xa_same_shape m m1) (pre : Nat → Nat) (j e : Nat) :
    xa_holds m1 pre j e ↔ xa_holds m pre j e := by
  unfold xa_holds
  rw [h.1]
  constructor
  · rintro (hb | ⟨a, n1, o, hn1, hs, ho, hsl, hj⟩)
    · exact Or.inl hb
    · obtain ⟨n, hn, a1, _, _, _, a5⟩ := same_shape_back h hn1
      exact Or.inr ⟨a, n, o, hn, by rw [← a1]; exact hs, ho, by rw [← a5]; exact hsl, hj⟩
  · rintro (hb | ⟨a, n, o, hn, hs, ho, hsl, hj⟩)
    · exact Or.inl hb
    · obtain ⟨n1, hn1, a1, _, _, _, a5⟩ := (h.2 a).2 n hn
      exact Or.inr ⟨a, n1, o, hn1, by rw [a1]; exact hs, ho, by rw [a5]; exact hsl, hj⟩

theorem lookup_same_shape {m m1 : Mem} {pre : Nat → Nat} (h : xa_same_shape m m1)
    (hwf : WFp m pre) (j : Nat) : xa_lookup m1 j = xa_lookup m j :=
  xa_lookup_congr hwf (wfp_same_shape h hwf) j (fun e _ => holds_same_shape h pre j e)

/-! ### The tag clearing of an erase keeps the shape -/

theorem xa_tag_clear_head (xa : xarray) (tag : Nat) : (xa_tag_clear xa tag).xa_head = xa.xa_head := by
  unfold xa_tag_clear
  split_ifs <;> rfl

theorem same_shape_xa (m : Mem) (xa : xarray) (h : xa.xa_head = m.xa.xa_head) :
    xa_same_shape m { m with xa := xa } :=
  ⟨h, fun _ => ⟨fun h => h, fun n h => ⟨n, h, rfl, rfl, rfl, rfl, rfl⟩⟩⟩

theorem xas_invalid_node (xas : xa_state) (a : Nat) (h : a % 4 = 0) :
    xas_invalid { xas with xa_node := a } = false := by
  unfold xas_invalid
  simp [and3_eq_mod4, h]

theorem xas_invalid_bounds (xas : xa_state) :
    xas_invalid { xas with xa_node := XAS_BOUNDS } = true := by
  change ((XAS_BOUNDS &&& 3) != 0) = true
  decide

theorem flags_tag_mask (s t : Nat) (hs : s < XA_MAX_TAGS) (ht : t < XA_MAX_TAGS) :
    gfp_not (XA_FLAGS_TAG t) &&& XA_FLAGS_TAG s = if s = t then 0 else XA_FLAGS_TAG s := by
  have hs3 : s < 3 := hs
  have ht3 : t < 3 := ht
  interval_cases t <;> interval_cases s <;> decide

theorem xa_tagged_clear (xa : xarray) (s t : Nat) (hs : s < XA_MAX_TAGS) (ht : t < XA_MAX_TAGS) :
    xa_tagged (xa_tag_clear xa t) s = (decide (s ≠ t) && xa_tagged xa s) := by
  unfold xa_tag_clear
  by_cases hset : ((xa.xa_flags &&& XA_FLAGS_TAG t) != 0) = true
  · rw [if_pos hset]
    unfold xa_tagged
    simp only []
    rw [Nat.land_assoc, flags_tag_mask s t hs ht]
    by_cases hst : s = t
    · rw [if_pos hst]
      simp [hst]
    · rw [if_neg hst]
      simp [hst]
  · rw [if_neg hset]
    by_cases hst : s = t
    · subst hst
      have : xa_tagged xa s = false := by
        unfold xa_tagged
        simpa using hset
      simp [this]
    · simp [hst]

theorem node_any_tag_iff (n : xa_node) (t : Nat) :
    node_any_tag n t = true ↔ ∃ o, o < XA_CHUNK_SIZE ∧ n.tags t o = true := by
  unfold node_any_tag bitmap_empty
  simp [List.all_eq_true, List.mem_range]

theorem tags_le_refl (m : Mem) : xa_tags_le m m :=
  ⟨fun _ h => h, fun _ n h => ⟨n, h, fun _ _ h => h⟩⟩

theorem tags_le_trans {m2 m1 m : Mem} (h2 : xa_tags_le m2 m1) (h1 : xa_tags_le m1 m) :
    xa_tags_le m2 m := by
  refine ⟨fun s h => h1.1 s (h2.1 s h), fun b n2 hb => ?_⟩
  obtain ⟨n1, hn1, hle1⟩ := h2.2 b n2 hb
  obtain ⟨n, hn, hle⟩ := h1.2 b n1 hn1
  exact ⟨n, hn, fun s p h => hle s p (hle1 s p h)⟩

theorem xas_get_tag_node (m : Mem) (xas : xa_state) (t a : Nat) (n : xa_node)
    (hx : xas.xa_node = a) (hn : m.nodes a = some n) (ha : a % 4 = 0 ∧ 4096 ≤ a) :
    xas_get_tag m xas t = some (n.tags t xas.xa_offset) := by
  unfold xas_get_tag xas_invalid
  rw [hx, and3_eq_mod4, ha.1]
  have h1 : ((0 : Nat) != 0) = false := rfl
  have h2 : (a == 0) = false := by
    rw [beq_eq_false_iff_ne]
    omega
  rw [h1, h2, hn]
  rfl

theorem xas_get_tag_invalid (m : Mem) (xas : xa_state) (t : Nat) (h : xas_invalid xas = true) :
    xas_get_tag m xas t = some false := by
  unfold xas_get_tag
  rw [if_pos h]

theorem xas_get_tag_root (m : Mem) (xas : xa_state) (t : Nat) (h : xas.xa_node = 0) :
    xas_get_tag m xas t = some (xa_tagged m.xa t) := by
  unfold xas_get_tag xas_invalid
  rw [h]
  rfl

theorem xa_get_tag_loop_false (fuel entry : Nat) (m : Mem) (xas : xa_state) (t : Nat)
    (h : xas_get_tag m xas t = some false) :
    xa_get_tag_loop fuel entry m xas t = some (false, m) := by
  unfold xa_get_tag_loop
  rw [h]
  simp

theorem xa_get_tag_loop_found (fuel entry : Nat) (m : Mem) (xas : xa_state) (t : Nat)
    (h : xas_get_tag m xas t = some true) (he : xa_is_node entry = false) :
    xa_get_tag_loop fuel entry m xas t = some (true, m) := by
  unfold xa_get_tag_loop
  rw [h, he]
  simp

/-- The answer of `xa_get_tag()` on an array whose head is no node: the array flag for
index 0, false for any other index. -/
theorem xa_get_tag_bare (m : Mem) (hb : xa_is_node m.xa.xa_head = false) (fuel index t : Nat) :
    xa_get_tag fuel m index t = some (decide (index = 0) && xa_tagged m.xa t, m) := by
  unfold xa_get_tag
  rw [xas_start_bare m (XA_STATE index) rfl hb]
  by_cases hi : index = 0
  · subst hi
    have : ¬ ((XA_STATE 0).xa_index ≠ 0) := fun h => h rfl
    rw [if_neg this]
    simp only []
    cases hfl : xa_tagged m.xa t with
    | false =>
      rw [xa_get_tag_loop_false _ _ _ _ _ (by rw [xas_get_tag_root m _ t rfl, hfl])]
      rfl
    | true =>
      rw [xa_get_tag_loop_found _ _ _ _ _ (by rw [xas_get_tag_root m _ t rfl, hfl]) hb]
      rfl
  · have : (XA_STATE index).xa_index ≠ 0 := hi
    rw [if_pos this]
    simp only []
    rw [xa_get_tag_loop_false _ _ _ _ _ (xas_get_tag_invalid _ _ _ (xas_invalid_bounds _))]
    simp [hi]

/-- The answer of `xa_load()` on an array whose head is NULL. -/
theorem xa_load_empty (m : Mem) (h0 : m.xa.xa_head = 0) (fuel index : Nat) :
    xa_load (fuel + 1) m index = some (0, m) := by
  have hb : xa_is_node m.xa.xa_head = false := by
    rw [h0]
    decide
  unfold xa_load
  by_cases hi : index = 0
  · subst hi
    have hl : xas_load (fuel + 1) m (XA_STATE 0)
        = some (0, m, { XA_STATE 0 with xa_node := 0 }) := by
      unfold xas_load
      rw [xas_start_bare m (XA_STATE 0) rfl hb]
      have : ¬ ((XA_STATE 0).xa_index ≠ 0) := fun h => h rfl
      rw [if_neg this, h0]
      exact xas_load_loop_non_node _ _ _ _ (by decide)
    exact xa_load_loop_of_load fuel (fuel + 1) m _ _ _ hl (by decide)
  · have hl : xas_load (fuel + 1) m (XA_STATE index)
        = some (0, m, { XA_STATE index with xa_node := XAS_BOUNDS }) := by
      unfold xas_load
      rw [xas_start_bare m (XA_STATE index) rfl hb]
      have : (XA_STATE index).xa_index ≠ 0 := hi
      rw [if_pos this]
      exact xas_load_loop_non_node _ _ _ _ (by decide)
    exact xa_load_loop_of_load fuel (fuel + 1) m _ _ _ hl (by decide)

/-! ## Tags: the array flags -/

theorem XA_FLAGS_TAG_eq (t : Nat) : XA_FLAGS_TAG t = 2 ^ (23 + t) := by
  unfold XA_FLAGS_TAG GFP_BITS_SHIFT
  rw [Nat.shiftLeft_eq, Nat.shiftLeft_eq, Nat.one_mul, ← Nat.pow_add]

theorem xa_tagged_eq (xa : xarray) (t : Nat) : xa_tagged xa t = xa.xa_flags.testBit (23 + t) := by
  unfold xa_tagged
  rw [XA_FLAGS_TAG_eq, Nat.and_two_pow]
  cases h : xa.xa_flags.testBit (23 + t) with
  | false => simp
  | true => simp

theorem xa_tagged_set (xa : xarray) (s t : Nat) :
    xa_tagged (xa_tag_set xa t) s = (decide (s = t) || xa_tagged xa s) := by
  unfold xa_tag_set
  by_cases hset : ((xa.xa_flags &&& XA_FLAGS_TAG t) == 0) = true
  · rw [if_pos hset, xa_tagged_eq, xa_tagged_eq]
    simp only []
    rw [XA_FLAGS_TAG_eq, Nat.testBit_or, Nat.testBit_two_pow, Bool.or_comm]
    congr 1
    by_cases hst : s = t
    · simp [hst]
    · have : ¬ (23 + t = 23 + s) := by omega
      simp [hst, this]
  · rw [if_neg hset]
    by_cases hst : s = t
    · subst hst
      have : xa_tagged xa s = true := by
        unfold xa_tagged
        simpa using hset
      simp [this]
    · simp [hst]

theorem xa_tag_set_head (xa : xarray) (tag : Nat) : (xa_tag_set xa tag).xa_head = xa.xa_head := by
  unfold xa_tag_set
  split_ifs <;> rfl

/-! ## Tags: arrays linked up -/

theorem wfp_linked {m : Mem} {pre : Nat → Nat} (hwf : WFp m pre) : xa_linked m where
  head_node := hwf.head_node
  aligned := fun a n h => (hwf.node_ok a n h).aligned
  shift_ok := fun a n h => (hwf.node_ok a n h).shift_ok.2
  offset_ok := fun a n h => (hwf.node_ok a n h).offset_ok
  root := fun a n h hp => ((hwf.node_ok a n h).root hp).1
  child := fun a n h hp => by
    obtain ⟨p, hpn, hps, hsl, _⟩ := (hwf.node_ok a n h).child hp
    exact ⟨p, hpn, hps, hsl⟩
  slot_node := fun a n o h ho hs => (hwf.node_ok a n h).slot_node o ho hs

theorem linked_same_shape {m m1 : Mem} (h : xa_same_shape m m1) (hl : xa_linked m) :
    xa_linked m1 where
  head_node := by
    rw [h.1]
    intro hnode
    obtain ⟨hn, hh, hp⟩ := hl.head_node hnode
    obtain ⟨n1, hn1, _, _, _, a4, _⟩ := (h.2 _).2 hn hh
    exact ⟨n1, hn1, a4.trans hp⟩
  aligned := by
    intro a n1 h1
    obtain ⟨n, hn, _⟩ := same_shape_back h h1
    exact hl.aligned a n hn
  shift_ok := by
    intro a n1 h1
    obtain ⟨n, hn, a1, _⟩ := same_shape_back h h1
    rw [a1]
    exact hl.shift_ok a n hn
  offset_ok := by
    intro a n1 h1
    obtain ⟨n, hn, _, a2, _⟩ := same_shape_back h h1
    rw [a2]
    exact hl.offset_ok a n hn
  root := by
    intro a n1 h1 hp
    obtain ⟨n, hn, _, _, _, a4, _⟩ := same_shape_back h h1
    rw [h.1]
    exact hl.root a n hn (a4 ▸ hp)
  child := by
    intro a n1 h1 hp
    obtain ⟨n, hn, a1, a2, _, a4, _⟩ := same_shape_back h h1
    rw [a4] at hp ⊢
    obtain ⟨p, hpn, hps, hsl⟩ := hl.child a n hn hp
    obtain ⟨p1, hp1, b1, _, _, _, b5⟩ := (h.2 _).2 p hpn
    exact ⟨p1, hp1, by rw [b1, a1]; exact hps, by rw [b5, a2]; exact hsl⟩
  slot_node := by
    intro a n1 o h1 ho hs
    obtain ⟨n, hn, _, _, _, _, a5⟩ := same_shape_back h h1
    rw [a5] at hs ⊢
    obtain ⟨c, hc, hcp, hco⟩ := hl.slot_node a n o hn ho hs
    obtain ⟨c1, hc1, _, b2, _, b4, _⟩ := (h.2 _).2 c hc
    exact ⟨c1, hc1, b4.trans hcp, b2.trans hco⟩

theorem tag_inv_to_but {m : Mem} {t : Nat} (h : xa_tag_inv m t) (a o : Nat) :
    xa_tag_inv_but m a o t :=
  ⟨fun c nc p hc hp hpn _ => h.parent_tagged c nc p hc hp hpn, fun _ => h.flag_set⟩

/-! ## Tags: the loop of `xas_set_tag()` -/

/-- The nodes after one pass of the loop of `xas_set_tag()`, seen from the nodes before. -/
theorem set_tag_step_nodes (m : Mem) (a o t : Nat) (n : xa_node) (hn : m.nodes a = some n) :
    ∀ b nb, (m.set_node a (node_set_tag n o t).2).nodes b = some nb →
      ∃ n0, m.nodes b = some n0 ∧ nb.slots = n0.slots ∧ nb.shift = n0.shift ∧
        nb.parent = n0.parent ∧ nb.offset = n0.offset ∧ nb.count = n0.count ∧
        ∀ s q, nb.tags s q = (if b = a ∧ s = t ∧ q = o then true else n0.tags s q) := by
  intro b nb hb
  by_cases hba : b = a
  · subst hba
    rw [set_node_same] at hb
    cases hb
    refine ⟨n, hn, rfl, rfl, rfl, rfl, rfl, fun s q => ?_⟩
    change (if s = t ∧ q = o then true else n.tags s q) = _
    by_cases h : s = t ∧ q = o
    · rw [if_pos h, if_pos ⟨rfl, h⟩]
    · rw [if_neg h, if_neg (fun h1 => h h1.2)]
  · rw [set_node_ne _ _ hba] at hb
    refine ⟨nb, hb, rfl, rfl, rfl, rfl, rfl, fun s q => ?_⟩
    rw [if_neg (fun h1 => hba h1.1)]

/-- The nodes before one pass of the loop of `xas_set_tag()`, seen from the nodes after. -/
theorem set_tag_step_back (m : Mem) (a o t : Nat) (n : xa_node) (hn : m.nodes a = some n) :
    ∀ b n0, m.nodes b = some n0 →
      ∃ nb, (m.set_node a (node_set_tag n o t).2).nodes b = some nb ∧ nb.slots = n0.slots ∧
        nb.shift = n0.shift ∧ nb.parent = n0.parent ∧ nb.offset = n0.offset ∧
        nb.count = n0.count ∧
        ∀ s q, nb.tags s q = (if b = a ∧ s = t ∧ q = o then true else n0.tags s q) := by
  intro b n0 hb
  by_cases hba : b = a
  · subst hba
    rw [hn] at hb
    cases hb
    refine ⟨_, set_node_same _ _ _, rfl, rfl, rfl, rfl, rfl, fun s q => ?_⟩
    change (if s = t ∧ q = o then true else n.tags s q) = _
    by_cases h : s = t ∧ q = o
    · rw [if_pos h, if_pos ⟨rfl, h⟩]
    · rw [if_neg h, if_neg (fun h1 => h h1.2)]
  · refine ⟨n0, by rw [set_node_ne _ _ hba]; exact hb, rfl, rfl, rfl, rfl, rfl, fun s q => ?_⟩
    rw [if_neg (fun h1 => hba h1.1)]

theorem set_tag_step_shape (m : Mem) (a o t : Nat) (n : xa_node) (hn : m.nodes a = some n) :
    xa_same_shape m (m.set_node a (node_set_tag n o t).2) :=
  same_shape_set_node hn rfl rfl rfl rfl rfl

theorem set_tag_step_le (m : Mem) (a o t : Nat) (n : xa_node) (hn : m.nodes a = some n) :
    xa_tags_le m (m.set_node a (node_set_tag n o t).2) := by
  refine ⟨fun _ h => h, fun b n0 hb => ?_⟩
  obtain ⟨nb, hnb, _, _, _, _, _, htg⟩ := set_tag_step_back m a o t n hn b n0 hb
  refine ⟨nb, hnb, fun s q h1 => ?_⟩
  rw [htg s q]
  split_ifs
  · rfl
  · exact h1

/-- What the loop of `xas_set_tag()` changes: no slot, no link, no tag other than `t`; of
tag `t` it only sets bits, and only at the slot it starts from and at the slots nodes hang
from. -/
theorem xas_set_tag_loop_frame (t : Nat) :
    ∀ (fuel : Nat) (m : Mem) (a o : Nat) (m1 : Mem),
      xas_set_tag_loop fuel m a o t = some m1 →
      xa_same_shape m m1 ∧ xa_tags_le m m1 ∧
      (∀ s, s ≠ t → xa_tagged m1.xa s = xa_tagged m.xa s) ∧
      (∀ b n n1, m.nodes b = some n → m1.nodes b = some n1 → ∀ s q,
        n1.tags s q = n.tags s q ∨
          (s = t ∧ ((b = a ∧ q = o) ∨
            ∃ c nc, m.nodes c = some nc ∧ nc.parent = b ∧ nc.offset = q))) := by
  have hzero : ∀ (m : Mem) (o : Nat) (m1 : Mem),
      (if (!xa_tagged m.xa t) = true then some { m with xa := xa_tag_set m.xa t }
        else some m) = some m1 →
      xa_same_shape m m1 ∧ xa_tags_le m m1 ∧
      (∀ s, s ≠ t → xa_tagged m1.xa s = xa_tagged m.xa s) ∧
      (∀ b n n1, m.nodes b = some n → m1.nodes b = some n1 → ∀ s q,
        n1.tags s q = n.tags s q ∨
          (s = t ∧ ((b = 0 ∧ q = o) ∨
            ∃ c nc, m.nodes c = some nc ∧ nc.parent = b ∧ nc.offset = q))) := by
    intro m o m1 h
    by_cases htag : (!xa_tagged m.xa t) = true
    · rw [if_pos htag] at h
      cases h
      refine ⟨same_shape_xa m _ (xa_tag_set_head _ _),
        ⟨fun s hs => ?_, fun b n hb => ⟨n, hb, fun _ _ h => h⟩⟩, fun s hs => ?_,
        fun b n n1 hb hb1 s q => ?_⟩
      · change xa_tagged (xa_tag_set m.xa t) s = true
        rw [xa_tagged_set, hs, Bool.or_true]
      · change xa_tagged (xa_tag_set m.xa t) s = _
        rw [xa_tagged_set, decide_eq_false hs, Bool.false_or]
      · have hb2 : m.nodes b = some n1 := hb1
        rw [hb] at hb2
        cases hb2
        exact Or.inl rfl
    · rw [if_neg htag] at h
      cases h
      refine ⟨same_shape_refl _, tags_le_refl _, fun _ _ => rfl, fun b n n1 hb hb1 s q => ?_⟩
      rw [hb] at hb1
      cases hb1
      exact Or.inl rfl
  intro fuel
  induction fuel with
  | zero =>
    intro m a o m1 h
    unfold xas_set_tag_loop at h
    by_cases h0 : a = 0
    · subst h0
      rw [if_neg (not_not.2 rfl)] at h
      exact hzero m o m1 h
    · rw [if_pos h0] at h
      cases h
  | succ f ih =>
    intro m a o m1 h
    unfold xas_set_tag_loop at h
    by_cases h0 : a = 0
    · subst h0
      rw [if_neg (not_not.2 rfl)] at h
      exact hzero m o m1 h
    rw [if_pos h0] at h
    cases hn : m.nodes a with
    | none =>
      rw [hn] at h
      cases h
    | some n =>
      rw [hn] at h
      simp only [] at h
      have hfwd := set_tag_step_nodes m a o t n hn
      have hbwd := set_tag_step_back m a o t n hn
      have hstep : ∀ b n0 nb, m.nodes b = some n0 →
          (m.set_node a (node_set_tag n o t).2).nodes b = some nb → ∀ s q,
          nb.tags s q = n0.tags s q ∨ (s = t ∧ b = a ∧ q = o) := by
        intro b n0 nb hb hnb s q
        obtain ⟨n2, hn2, _, _, _, _, _, htg⟩ := hfwd b nb hnb
        rw [hb] at hn2
        cases hn2
        rw [htg s q]
        by_cases hc : b = a ∧ s = t ∧ q = o
        · exact Or.inr ⟨hc.2.1, hc.1, hc.2.2⟩
        · rw [if_neg hc]
          exact Or.inl rfl
      by_cases hwas : (node_set_tag n o t).1 = true
      · rw [if_pos hwas] at h
        cases h
        refine ⟨set_tag_step_shape m a o t n hn, set_tag_step_le m a o t n hn, fun _ _ => rfl,
          fun b n0 nb hb hnb s q => ?_⟩
        rcases hstep b n0 nb hb hnb s q with h1 | ⟨h1, h2, h3⟩
        · exact Or.inl h1
        · exact Or.inr ⟨h1, Or.inl ⟨h2, h3⟩⟩
      · rw [if_neg hwas] at h
        obtain ⟨hs2, hle2, hfl2, hch2⟩ := ih _ _ _ m1 h
        refine ⟨same_shape_trans (set_tag_step_shape m a o t n hn) hs2,
          tags_le_trans (set_tag_step_le m a o t n hn) hle2, fun s hs => hfl2 s hs,
          fun b n0 n1 hb hb1 s q => ?_⟩
        obtain ⟨nb, hnb, _, _, _, _, _, _⟩ := hbwd b n0 hb
        rcases hch2 b nb n1 hnb hb1 s q with h1 | ⟨h1, h2⟩
        · rcases hstep b n0 nb hb hnb s q with h3 | ⟨h3, h4, h5⟩
          · exact Or.inl (h1.trans h3)
          · exact Or.inr ⟨h3, Or.inl ⟨h4, h5⟩⟩
        · refine Or.inr ⟨h1, Or.inr ?_⟩
          rcases h2 with ⟨h3, h4⟩ | ⟨c, nc, hc, hcp, hco⟩
          · exact ⟨a, n, hn, h3.symm, h4.symm⟩
          · obtain ⟨nc0, hnc0, _, _, hp0, ho0, _⟩ := hfwd c nc hc
            exact ⟨c, nc0, hnc0, hp0 ▸ hcp, ho0 ▸ hco⟩

/-- The loop of `xas_set_tag()` restores the propagation invariant: started where the
invariant may fail, at the slot it is about to tag, it ends with the invariant and with
that slot tagged (the array flagged, when it starts at the root). -/
theorem xas_set_tag_loop_inv (t : Nat) :
    ∀ (fuel : Nat) (m : Mem) (a o : Nat) (m1 : Mem),
      xas_set_tag_loop fuel m a o t = some m1 → xa_tag_inv_but m a o t →
      xa_tag_inv m1 t ∧ (a = 0 → xa_tagged m1.xa t = true) ∧
      (a ≠ 0 → ∃ n1, m1.nodes a = some n1 ∧ n1.tags t o = true) := by
  have hzero : ∀ (m : Mem) (o : Nat) (m1 : Mem),
      (if (!xa_tagged m.xa t) = true then some { m with xa := xa_tag_set m.xa t }
        else some m) = some m1 → xa_tag_inv_but m 0 o t →
      xa_tag_inv m1 t ∧ (0 = 0 → xa_tagged m1.xa t = true) ∧
      ((0 : Nat) ≠ 0 → ∃ n1, m1.nodes 0 = some n1 ∧ n1.tags t o = true) := by
    intro m o m1 h hbut
    have hpar : ∀ c nc p, m.nodes c = some nc → nc.parent ≠ 0 →
        m.nodes nc.parent = some p → xa_node_tagged nc t → p.tags t nc.offset = true :=
      fun c nc p hc hp hpn => hbut.parent_tagged c nc p hc hp hpn (fun h => hp h.1)
    by_cases htag : (!xa_tagged m.xa t) = true
    · rw [if_pos htag] at h
      cases h
      have hfl : xa_tagged (xa_tag_set m.xa t) t = true := by
        rw [xa_tagged_set]
        simp
      exact ⟨⟨hpar, fun _ _ _ _ _ => hfl⟩, fun _ => hfl, fun h => absurd rfl h⟩
    · rw [if_neg htag] at h
      cases h
      have hfl : xa_tagged m.xa t = true := by
        simpa using htag
      exact ⟨⟨hpar, fun _ _ _ _ _ => hfl⟩, fun _ => hfl, fun h => absurd rfl h⟩
  intro fuel
  induction fuel with
  | zero =>
    intro m a o m1 h hbut
    unfold xas_set_tag_loop at h
    by_cases h0 : a = 0
    · subst h0
      rw [if_neg (not_not.2 rfl)] at h
      exact hzero m o m1 h hbut
    · rw [if_pos h0] at h
      cases h
  | succ f ih =>
    intro m a o m1 h hbut
    unfold xas_set_tag_loop at h
    by_cases h0 : a = 0
    · subst h0
      rw [if_neg (not_not.2 rfl)] at h
      exact hzero m o m1 h hbut
    rw [if_pos h0] at h
    cases hn : m.nodes a with
    | none =>
      rw [hn] at h
      cases h
    | some n =>
      rw [hn] at h
      simp only [] at h
      have hfwd := set_tag_step_nodes m a o t n hn
      have hbwd := set_tag_step_back m a o t n hn
      -- the node at `a` after the pass
      obtain ⟨na, hna, _, _, hnap, hnao, _, hnat⟩ := hbwd a n hn
      have hnabit : na.tags t o = true := by
        rw [hnat t o, if_pos ⟨rfl, rfl, rfl⟩]
      -- a node tagged after the pass was tagged before, unless it is the node at `a`
      have hwas : ∀ c nc, (m.set_node a (node_set_tag n o t).2).nodes c = some nc →
          xa_node_tagged nc t → c ≠ a →
          ∃ nc0, m.nodes c = some nc0 ∧ nc.parent = nc0.parent ∧ nc.offset = nc0.offset ∧
            xa_node_tagged nc0 t := by
        intro c nc hc ⟨q, hq, hb⟩ hca
        obtain ⟨nc0, hnc0, _, _, hp0, ho0, _, htg⟩ := hfwd c nc hc
        refine ⟨nc0, hnc0, hp0, ho0, q, hq, ?_⟩
        rw [htg t q, if_neg (fun h1 => hca h1.1)] at hb
        exact hb
      -- a bit set before the pass is set after it
      have hkeep : ∀ x p0 p1 q, m.nodes x = some p0 →
          (m.set_node a (node_set_tag n o t).2).nodes x = some p1 → p0.tags t q = true →
          p1.tags t q = true := by
        intro x p0 p1 q hx hx1 hb
        obtain ⟨p2, hp2, _, _, _, _, _, htg⟩ := hfwd x p1 hx1
        rw [hx] at hp2
        cases hp2
        rw [htg t q]
        split_ifs
        · rfl
        · exact hb
      -- the invariant for a node that was tagged before the pass
      have hpar : ∀ c nc nc0 p1, (m.set_node a (node_set_tag n o t).2).nodes c = some nc →
          m.nodes c = some nc0 → nc.parent = nc0.parent → nc.offset = nc0.offset →
          xa_node_tagged nc0 t → nc.parent ≠ 0 →
          (m.set_node a (node_set_tag n o t).2).nodes nc.parent = some p1 →
          p1.tags t nc.offset = true := by
        intro c nc nc0 p1 hc hc0 hp0 ho0 htg hp hpn
        by_cases hex : nc0.parent = a ∧ nc0.offset = o
        · rw [hp0, hex.1, hna] at hpn
          cases hpn
          rw [ho0, hex.2]
          exact hnabit
        · obtain ⟨p0, hp0n, _⟩ := hfwd _ p1 hpn
          rw [hp0] at hp0n hp hpn
          rw [ho0]
          exact hkeep _ p0 p1 _ hp0n hpn (hbut.parent_tagged c nc0 p0 hc0 hp hp0n hex htg)
      by_cases hwasset : (node_set_tag n o t).1 = true
      · have hbitm : n.tags t o = true := hwasset
        rw [if_pos hwasset] at h
        cases h
        have hsame : ∀ c nc, (m.set_node a (node_set_tag n o t).2).nodes c = some nc →
            xa_node_tagged nc t →
            ∃ nc0, m.nodes c = some nc0 ∧ nc.parent = nc0.parent ∧ nc.offset = nc0.offset ∧
              xa_node_tagged nc0 t := by
          intro c nc hc htg
          by_cases hca : c = a
          · subst hca
            rw [hna] at hc
            cases hc
            obtain ⟨q, hq, hb⟩ := htg
            refine ⟨n, hn, hnap, hnao, q, hq, ?_⟩
            by_cases hqo : q = o
            · rw [hqo]
              exact hbitm
            · rw [hnat t q, if_neg (fun h1 => hqo h1.2.2)] at hb
              exact hb
          · exact hwas c nc hc htg hca
        refine ⟨⟨?_, ?_⟩, fun h => absurd h h0, fun _ => ⟨na, hna, hnabit⟩⟩
        · intro c nc p1 hc hp hpn htg
          obtain ⟨nc0, hc0, hp0, ho0, htg0⟩ := hsame c nc hc htg
          exact hpar c nc nc0 p1 hc hc0 hp0 ho0 htg0 hp hpn
        · intro c nc hc hp htg
          obtain ⟨nc0, hc0, hp0, _, htg0⟩ := hsame c nc hc htg
          exact hbut.flag_set h0 c nc0 hc0 (hp0 ▸ hp) htg0
      · rw [if_neg hwasset] at h
        have hbut1 : xa_tag_inv_but (m.set_node a (node_set_tag n o t).2)
            (xa_parent_locked n) n.offset t := by
          refine ⟨?_, ?_⟩
          · intro c nc p1 hc hp hpn hex htg
            have hca : c ≠ a := by
              intro hca
              subst hca
              rw [hna] at hc
              cases hc
              exact hex ⟨hnap, hnao⟩
            obtain ⟨nc0, hc0, hp0, ho0, htg0⟩ := hwas c nc hc htg hca
            exact hpar c nc nc0 p1 hc hc0 hp0 ho0 htg0 hp hpn
          · intro hpne c nc hc hp htg
            have hca : c ≠ a := by
              intro hca
              subst hca
              rw [hna] at hc
              cases hc
              exact hpne (hnap.symm.trans hp)
            obtain ⟨nc0, hc0, hp0, _, htg0⟩ := hwas c nc hc htg hca
            exact hbut.flag_set h0 c nc0 hc0 (hp0 ▸ hp) htg0
        obtain ⟨hinv, _, _⟩ := ih _ _ _ m1 h hbut1
        obtain ⟨_, hle, _, _⟩ := xas_set_tag_loop_frame t f _ _ _ m1 h
        refine ⟨hinv, fun h => absurd h h0, fun _ => ?_⟩
        obtain ⟨n1, hn1, hb1⟩ := hle.2 a na hna
        exact ⟨n1, hn1, hb1 t o hnabit⟩

/-! ## Tags: where a load leaves the cursor -/

/-- A step of `xas_descend()` into an existing node lands on a slot of that node. -/
theorem xas_descend_slot (m : Mem) (xas : xa_state) (a : Nat) (n : xa_node)
    (hn : m.nodes a = some n) :
    ∃ e1 xas1, xas_descend m xas a = some (e1, m, xas1) ∧ xas1.xa_node = a ∧
      xas1.xa_offset < XA_CHUNK_SIZE ∧ e1 = n.slots xas1.xa_offset ∧
      xas1.xa_shift = xas.xa_shift := by
  have h1 : XA_CHUNK_SIZE = 64 := rfl
  have h2 : XA_CHUNK_MASK = 63 := rfl
  unfold xas_descend xas_move_index
  simp only [hn]
  cases hs : xa_is_sibling (xa_entry n (get_offset xas.xa_index n)) with
  | true =>
    simp only [if_true]
    refine ⟨_, _, rfl, rfl, ?_, rfl, rfl⟩
    have := xa_is_sibling_lt hs
    show xa_to_sibling _ < XA_CHUNK_SIZE
    omega
  | false =>
    simp only [Bool.false_eq_true, if_false]
    refine ⟨_, _, rfl, rfl, ?_, rfl, rfl⟩
    have := get_offset_le xas.xa_index n
    show get_offset _ _ < XA_CHUNK_SIZE
    omega

/-- Where `xas_start()` leaves the cursor, and the entry it returns. -/
theorem xas_start_slot (m : Mem) (xas0 : xa_state) (e0 : Nat) (m0 : Mem) (x0 : xa_state)
    (h : xas_start m xas0 = some (e0, m0, x0)) :
    m0 = m ∧
    ((x0 = xas0 ∧ xas_invalid xas0 = false ∧ ((xas0.xa_node = 0 ∧ e0 = m.xa.xa_head) ∨
        ∃ n, m.nodes xas0.xa_node = some n ∧ e0 = n.slots xas0.xa_offset)) ∨
     (x0 = xas0 ∧ xas_invalid xas0 = true ∧ e0 = 0 ∧ xas_error xas0 ≠ 0) ∨
     (x0 = { xas0 with xa_node := XAS_BOUNDS } ∧ e0 = 0 ∧ xas_invalid xas0 = true ∧
        (xa_is_node m.xa.xa_head = false → xas0.xa_index ≠ 0)) ∨
     (x0 = { xas0 with xa_node := 0 } ∧ e0 = m.xa.xa_head ∧ xas_invalid xas0 = true ∧
        (xa_is_node m.xa.xa_head = false → xas0.xa_index = 0))) := by
  unfold xas_start at h
  cases hv : xas_invalid xas0 with
  | false =>
    have hval : xas_valid xas0 = true := by
      unfold xas_valid
      rw [hv]
      rfl
    rw [if_pos hval] at h
    unfold xas_reload xa_head xa_entry at h
    by_cases h0 : xas0.xa_node = 0
    · simp only [h0, bne_self_eq_false, Bool.false_eq_true, if_false, Option.some.injEq,
        Prod.mk.injEq] at h
      obtain ⟨he, hm, hx⟩ := h
      exact ⟨hm.symm, Or.inl ⟨hx.symm, rfl, Or.inl ⟨h0, he.symm⟩⟩⟩
    · have hb : (xas0.xa_node != 0) = true := by simpa using h0
      rw [if_pos hb] at h
      cases hn : m.nodes xas0.xa_node with
      | none => simp [hn] at h
      | some n =>
        simp only [hn, Option.some.injEq, Prod.mk.injEq] at h
        obtain ⟨he, hm, hx⟩ := h
        exact ⟨hm.symm, Or.inl ⟨hx.symm, rfl, Or.inr ⟨n, rfl, he.symm⟩⟩⟩
  | true =>
    have hval : ¬ (xas_valid xas0 = true) := by
      unfold xas_valid
      rw [hv]
      decide
    rw [if_neg hval] at h
    by_cases herr : xas_error xas0 ≠ 0
    · rw [if_pos herr] at h
      simp only [Option.some.injEq, Prod.mk.injEq] at h
      obtain ⟨he, hm, hx⟩ := h
      exact ⟨hm.symm, Or.inr (Or.inl ⟨hx.symm, rfl, he.symm, herr⟩)⟩
    · rw [if_neg herr] at h
      simp only [xa_head, set_bounds] at h
      cases hnode : xa_is_node m.xa.xa_head with
      | false =>
        simp only [hnode, Bool.not_false, if_true] at h
        by_cases hi : xas0.xa_index ≠ 0
        · rw [if_pos hi] at h
          simp only [Option.some.injEq, Prod.mk.injEq] at h
          obtain ⟨he, hm, hx⟩ := h
          exact ⟨hm.symm, Or.inr (Or.inr (Or.inl ⟨hx.symm, he.symm, rfl, fun _ => hi⟩))⟩
        · rw [if_neg hi] at h
          simp only [Option.some.injEq, Prod.mk.injEq] at h
          obtain ⟨he, hm, hx⟩ := h
          exact ⟨hm.symm, Or.inr (Or.inr (Or.inr ⟨hx.symm, he.symm, rfl,
            fun _ => not_not.1 hi⟩))⟩
      | true =>
        simp only [hnode, Bool.not_true, Bool.false_eq_true, if_false] at h
        cases hh : m.nodes (xa_to_node m.xa.xa_head) with
        | none => simp [hh] at h
        | some head =>
          simp only [hh] at h
          split_ifs at h
          · simp only [Option.some.injEq, Prod.mk.injEq] at h
            obtain ⟨he, hm, hx⟩ := h
            exact ⟨hm.symm, Or.inr (Or.inr (Or.inl ⟨hx.symm, he.symm, rfl,
              fun hc => by cases hc⟩))⟩
          · simp only [Option.some.injEq, Prod.mk.injEq] at h
            obtain ⟨he, hm, hx⟩ := h
            exact ⟨hm.symm, Or.inr (Or.inr (Or.inr ⟨hx.symm, he.symm, rfl,
              fun hc => by cases hc⟩))⟩

/-- Where the loop of `xas_load()` leaves a cursor of shift 0: on the slot it started
from, or on a slot of a node; the entry it returns is the entry of that slot, and is
not a node. -/
theorem xas_load_loop_slot : ∀ (f e : Nat) (m : Mem) (xas : xa_state) (e1 : Nat) (m1 : Mem)
    (x1 : xa_state), xas.xa_shift = 0 → xas_load_loop f e m xas = some (e1, m1, x1) →
    m1 = m ∧ xa_is_node e1 = false ∧ x1.xa_shift = 0 ∧
    ((x1 = xas ∧ e1 = e) ∨
      ∃ n, m.nodes x1.xa_node = some n ∧ x1.xa_offset < XA_CHUNK_SIZE ∧
        e1 = n.slots x1.xa_offset) := by
  intro f
  induction f with
  | zero =>
    intro e m xas e1 m1 x1 hs h
    unfold xas_load_loop at h
    split_ifs at h with hn
    simp only [Option.some.injEq, Prod.mk.injEq] at h
    obtain ⟨he, hm, hx⟩ := h
    subst he hm hx
    exact ⟨rfl, by simpa using hn, hs, Or.inl ⟨rfl, rfl⟩⟩
  | succ f ih =>
    intro e m xas e1 m1 x1 hs h
    unfold xas_load_loop at h
    split_ifs at h with hn
    · cases hm : m.nodes (xa_to_node e) with
      | none => simp [hm] at h
      | some node =>
        simp only [hm] at h
        split_ifs at h with hsh
        · omega
        · obtain ⟨e2, x2, hd, hx2n, hx2o, he2, hx2s⟩ := xas_descend_slot m xas _ node hm
          rw [hd] at h
          simp only [] at h
          obtain ⟨h1, h2, h3, h4⟩ := ih e2 m x2 e1 m1 x1 (hx2s.trans hs) h
          refine ⟨h1, h2, h3, Or.inr ?_⟩
          rcases h4 with ⟨hx, he⟩ | h4
          · subst hx he
            exact ⟨node, by rw [hx2n]; exact hm, hx2o, he2⟩
          · exact h4
    · simp only [Option.some.injEq, Prod.mk.injEq] at h
      obtain ⟨he, hm, hx⟩ := h
      subst he hm hx
      exact ⟨rfl, by simpa using hn, hs, Or.inl ⟨rfl, rfl⟩⟩

/-- Where `xas_load()` leaves a cursor of shift 0: in an invalid state, on the root slot,
or on a slot of a node; the entry it returns is the entry of that slot, and is not a
node. -/
theorem xas_load_slot (f : Nat) (m : Mem) (xas0 : xa_state) (e : Nat) (m1 : Mem)
    (xas : xa_state) (hs : xas0.xa_shift = 0) (h : xas_load f m xas0 = some (e, m1, xas)) :
    m1 = m ∧ xa_is_node e = false ∧
    ((xas_invalid xas = true ∧ e = 0) ∨ (xas.xa_node = 0 ∧ e = m.xa.xa_head) ∨
      ∃ n, m.nodes xas.xa_node = some n ∧ e = n.slots xas.xa_offset) := by
  unfold xas_load at h
  cases hst : xas_start m xas0 with
  | none => simp [hst] at h
  | some r =>
    obtain ⟨e0, m0, x0⟩ := r
    simp only [hst] at h
    obtain ⟨hm0, hc⟩ := xas_start_slot m xas0 e0 m0 x0 hst
    subst hm0
    have hx0s : x0.xa_shift = 0 := by
      rcases hc with ⟨hx, _⟩ | ⟨hx, _⟩ | ⟨hx, _⟩ | ⟨hx, _⟩ <;> rw [hx] <;> exact hs
    obtain ⟨h1, h2, _, h4⟩ := xas_load_loop_slot f e0 m0 x0 e m1 xas hx0s h
    refine ⟨h1, h2, ?_⟩
    rcases h4 with ⟨hx, he⟩ | ⟨n, hn, _, he⟩
    · subst hx he
      rcases hc with ⟨hx, hv, hc⟩ | ⟨hx, hv, he, _⟩ | ⟨hx, he, _⟩ | ⟨hx, he, _⟩
      · rw [hx]
        exact Or.inr hc
      · rw [hx]
        exact Or.inl ⟨hv, he⟩
      · rw [hx]
        exact Or.inl ⟨xas_invalid_bounds _, he⟩
      · rw [hx]
        exact Or.inr (Or.inl ⟨rfl, he⟩)
    · exact Or.inr (Or.inr ⟨n, hn, he⟩)

/-- Where `xas_load()` leaves a fresh cursor: out of bounds with the answer NULL, on the
root slot of an array whose head is no node, or on a slot of a node. -/
theorem xas_load_on_slot (f : Nat) (m : Mem) (i e : Nat) (m1 : Mem) (xas : xa_state)
    (h : xas_load f m (XA_STATE i) = some (e, m1, xas)) :
    m1 = m ∧ xa_is_node e = false ∧ xas.xa_shift = 0 ∧
    ((xas = { XA_STATE i with xa_node := XAS_BOUNDS } ∧ e = 0) ∨
     (xas = { XA_STATE i with xa_node := 0 } ∧ e = m.xa.xa_head ∧ i = 0) ∨
      ∃ n, m.nodes xas.xa_node = some n ∧ xas.xa_offset < XA_CHUNK_SIZE ∧
        e = n.slots xas.xa_offset) := by
  unfold xas_load at h
  cases hst : xas_start m (XA_STATE i) with
  | none => simp [hst] at h
  | some r =>
    obtain ⟨e0, m0, x0⟩ := r
    simp only [hst] at h
    obtain ⟨hm0, hc⟩ := xas_start_slot m (XA_STATE i) e0 m0 x0 hst
    subst hm0
    have hinv : xas_invalid (XA_STATE i) = true := by
      have := @xas_valid_restart (XA_STATE i) rfl
      unfold xas_valid at this
      simpa using this
    have herr : xas_error (XA_STATE i) = 0 := xas_error_restart rfl
    have hx0s : x0.xa_shift = 0 := by
      rcases hc with ⟨hx, _⟩ | ⟨hx, _⟩ | ⟨hx, _⟩ | ⟨hx, _⟩ <;> rw [hx] <;> rfl
    obtain ⟨h1, h2, h3, h4⟩ := xas_load_loop_slot f e0 m0 x0 e m1 xas hx0s h
    refine ⟨h1, h2, h3, ?_⟩
    rcases h4 with ⟨hx, he⟩ | h4
    · subst hx he
      rcases hc with ⟨_, hv, _⟩ | ⟨_, _, _, he⟩ | ⟨hx, he, _⟩ | ⟨hx, he, _, hi⟩
      · rw [hinv] at hv
        cases hv
      · exact absurd herr he
      · exact Or.inl ⟨hx, he⟩
      · exact Or.inr (Or.inl ⟨hx, he, hi (he ▸ h2)⟩)
    · exact Or.inr (Or.inr h4)

/-! ## Tags: loads of linked arrays -/

/-- A cursor on a node of a linked array is valid. -/
theorem linked_node_valid {m : Mem} (hl : xa_linked m) {a : Nat} {n : xa_node}
    (hn : m.nodes a = some n) (xas : xa_state) (hx : xas.xa_node = a) :
    xas_invalid xas = false ∧ a ≠ 0 := by
  have ha := hl.aligned a n hn
  constructor
  · unfold xas_invalid
    rw [hx, and3_eq_mod4, ha.1]
    rfl
  · omega

/-- The node a slot of a linked array points to: it hangs from that slot, one level
down. -/
theorem linked_slot_child {m : Mem} (hl : xa_linked m) {a : Nat} {n : xa_node}
    (hn : m.nodes a = some n) {o : Nat} (ho : o < XA_CHUNK_SIZE)
    (he : xa_is_node (n.slots o) = true) :
    ∃ c, m.nodes (xa_to_node (n.slots o)) = some c ∧ c.parent = a ∧ c.offset = o ∧
      c.shift + XA_CHUNK_SHIFT = n.shift := by
  obtain ⟨c, hc, hcp, hco⟩ := hl.slot_node a n o hn ho he
  have ha := hl.aligned a n hn
  obtain ⟨p, hp, hps, _⟩ := hl.child _ c hc (by rw [hcp]; omega)
  rw [hcp, hn] at hp
  cases hp
  exact ⟨c, hc, hcp, hco, hps.symm⟩

/-- A slot of a linked array a node hangs from holds a node entry. -/
theorem linked_child_slot {m : Mem} (hl : xa_linked m) {c : Nat} {nc : xa_node}
    (hc : m.nodes c = some nc) {a : Nat} {n : xa_node} (hn : m.nodes a = some n)
    (hp : nc.parent = a) : n.slots nc.offset = xa_mk_node c ∧
      xa_is_node (n.slots nc.offset) = true := by
  have ha := hl.aligned a n hn
  have hca := hl.aligned c nc hc
  obtain ⟨p, hpn, _, hsl⟩ := hl.child c nc hc (by rw [hp]; omega)
  rw [hp, hn] at hpn
  cases hpn
  exact ⟨hsl, by rw [hsl]; exact xa_is_node_mk hca.1 hca.2⟩

/-- The loop of `xas_load()` returns on a linked array, given fuel for the levels below
the entry it starts from. -/
theorem xas_load_loop_total {m : Mem} (hl : xa_linked m) :
    ∀ (f e : Nat) (xas : xa_state), xas.xa_shift = 0 →
      (xa_is_node e = true → ∃ c, m.nodes (xa_to_node e) = some c ∧ c.shift < 6 * f) →
      ∃ e1 x1, xas_load_loop f e m xas = some (e1, m, x1) := by
  intro f
  induction f with
  | zero =>
    intro e xas hs hc
    cases hn : xa_is_node e with
    | true =>
      obtain ⟨c, _, h⟩ := hc hn
      omega
    | false => exact ⟨e, xas, xas_load_loop_non_node 0 e m xas hn⟩
  | succ f ih =>
    intro e xas hs hc
    cases hn : xa_is_node e with
    | false => exact ⟨e, xas, xas_load_loop_non_node _ e m xas hn⟩
    | true =>
      obtain ⟨c, hcn, hcs⟩ := hc hn
      obtain ⟨e2, x2, hd, hx2n, hx2o, he2, hx2s⟩ := xas_descend_slot m xas _ c hcn
      unfold xas_load_loop
      rw [if_pos hn]
      simp only [hcn]
      rw [if_neg (by omega), hd]
      simp only []
      apply ih e2 x2 (hx2s.trans hs)
      intro hn2
      rw [he2] at hn2
      obtain ⟨c2, hc2, _, _, hsh⟩ := linked_slot_child hl hcn hx2o hn2
      rw [he2]
      refine ⟨c2, hc2, ?_⟩
      rw [show XA_CHUNK_SHIFT = 6 from rfl] at hsh
      omega

/-- `xas_load()` with a fresh cursor returns on a linked array, given fuel for the eleven
levels a tree can have. -/
theorem xas_load_total {m : Mem} (hl : xa_linked m) (f : Nat) (hf : 11 ≤ f) (i : Nat) :
    ∃ e xas, xas_load f m (XA_STATE i) = some (e, m, xas) := by
  unfold xas_load
  cases hnode : xa_is_node m.xa.xa_head with
  | false =>
    rw [xas_start_bare m (XA_STATE i) rfl hnode]
    split_ifs
    · exact ⟨_, _, xas_load_loop_non_node _ _ _ _ (by decide)⟩
    · exact ⟨_, _, xas_load_loop_non_node _ _ _ _ hnode⟩
  | true =>
    obtain ⟨hn, hh, _⟩ := hl.head_node hnode
    rw [xas_start_node m (XA_STATE i) hn rfl hnode hh]
    split_ifs
    · exact ⟨_, _, xas_load_loop_non_node _ _ _ _ (by decide)⟩
    · have hsh := hl.shift_ok _ _ hh
      rw [show XA_CHUNK_SHIFT = 6 from rfl, show BITS_PER_LONG = 64 from rfl] at hsh
      exact xas_load_loop_total hl f _ _ rfl (fun _ => ⟨hn, hh, by omega⟩)

/-- A step of `xas_descend()` reads the entries and the shift of a node only. -/
theorem xas_descend_congr {m m1 : Mem} (hs : xa_same_shape m m1) (xas : xa_state)
    (a e : Nat) (x1 : xa_state) (h : xas_descend m xas a = some (e, m, x1)) :
    xas_descend m1 xas a = some (e, m1, x1) := by
  unfold xas_descend xas_move_index get_offset xa_entry at h ⊢
  cases hn : m.nodes a with
  | none => simp [hn] at h
  | some n =>
    obtain ⟨n1, hn1, hsh, _, _, _, hsl⟩ := (hs.2 a).2 n hn
    simp only [hn] at h
    simp only [hn1, hsh, hsl]
    split_ifs at h ⊢
    · simp only [Option.some.injEq, Prod.mk.injEq] at h ⊢
      exact ⟨h.1, trivial, h.2.2⟩
    · simp only [Option.some.injEq, Prod.mk.injEq] at h ⊢
      exact ⟨h.1, trivial, h.2.2⟩

/-- The loop of `xas_load()` reads the entries and the shifts of the nodes only. -/
theorem xas_load_loop_congr {m m1 : Mem} (hs : xa_same_shape m m1) :
    ∀ (f e : Nat) (xas : xa_state) (e1 : Nat) (x1 : xa_state),
      xas_load_loop f e m xas = some (e1, m, x1) →
      xas_load_loop f e m1 xas = some (e1, m1, x1) := by
  intro f
  induction f with
  | zero =>
    intro e xas e1 x1 h
    unfold xas_load_loop at h ⊢
    split_ifs at h with hn
    rw [if_neg hn]
    simp only [Option.some.injEq, Prod.mk.injEq] at h ⊢
    exact ⟨h.1, trivial, h.2.2⟩
  | succ f ih =>
    intro e xas e1 x1 h
    unfold xas_load_loop at h ⊢
    split_ifs at h with hn
    · rw [if_pos hn]
      cases hm : m.nodes (xa_to_node e) with
      | none => simp [hm] at h
      | some node =>
        obtain ⟨n1, hn1, hsh, _⟩ := (hs.2 _).2 node hm
        simp only [hm] at h
        simp only [hn1, hsh]
        split_ifs at h with hgt
        · rw [if_pos hgt]
          simp only [Option.some.injEq, Prod.mk.injEq] at h ⊢
          exact ⟨h.1, trivial, h.2.2⟩
        · rw [if_neg hgt]
          cases hd : xas_descend m xas (xa_to_node e) with
          | none => simp [hd] at h
          | some r =>
            obtain ⟨e2, m2, x2⟩ := r
            obtain ⟨hm2, _⟩ := xas_descend_frame m xas _ e2 m2 x2 hd
            subst hm2
            simp only [hd] at h
            rw [xas_descend_congr hs xas _ e2 x2 hd]
            exact ih e2 x2 e1 x1 h
    · rw [if_neg hn]
      simp only [Option.some.injEq, Prod.mk.injEq] at h ⊢
      exact ⟨h.1, trivial, h.2.2⟩

/-- `xas_load()` with a fresh cursor reads the entries and the shifts of the nodes only:
on an array of the same shape it returns the same entry and leaves the same cursor. -/
theorem xas_load_congr {m m1 : Mem} (hl : xa_linked m) (hs : xa_same_shape m m1)
    (f i e : Nat) (xas : xa_state) (h : xas_load f m (XA_STATE i) = some (e, m, xas)) :
    xas_load f m1 (XA_STATE i) = some (e, m1, xas) := by
  unfold xas_load at h ⊢
  cases hnode : xa_is_node m.xa.xa_head with
  | false =>
    rw [xas_start_bare m (XA_STATE i) rfl hnode] at h
    rw [xas_start_bare m1 (XA_STATE i) rfl (by rw [hs.1]; exact hnode), hs.1]
    split_ifs at h ⊢
    · exact xas_load_loop_congr hs _ _ _ _ _ h
    · exact xas_load_loop_congr hs _ _ _ _ _ h
  | true =>
    obtain ⟨hn, hh, _⟩ := hl.head_node hnode
    obtain ⟨hn1, hh1, hsh, _⟩ := (hs.2 _).2 hn hh
    rw [xas_start_node m (XA_STATE i) hn rfl hnode hh] at h
    rw [xas_start_node m1 (XA_STATE i) hn1 rfl (by rw [hs.1]; exact hnode)
      (by rw [hs.1]; exact hh1), hs.1, hsh]
    split_ifs at h ⊢
    · exact xas_load_loop_congr hs _ _ _ _ _ h
    · exact xas_load_loop_congr hs _ _ _ _ _ h

/-! ## Tags: `xa_get_tag()` walks the path of the load -/

/-- One pass of the loop of `xa_get_tag()` over a tagged slot that holds a node. -/
theorem xa_get_tag_loop_step (f e : Nat) (m : Mem) (xas : xa_state) (t e1 : Nat) (m1 : Mem)
    (x1 : xa_state) (h : xas_get_tag m xas t = some true) (he : xa_is_node e = true)
    (hd : xas_descend m xas (xa_to_node e) = some (e1, m1, x1)) :
    xa_get_tag_loop (f + 1) e m xas t = xa_get_tag_loop f e1 m1 x1 t := by
  rw [xa_get_tag_loop]
  rw [h, he, hd]
  simp

/-- The tag bit `xas_get_tag()` reads with the cursor on a slot of a linked array. -/
theorem on_slot_get_tag {m : Mem} (hl : xa_linked m) {xas : xa_state} {e : Nat}
    (h : xas_on_slot m xas e) (t : Nat) : ∃ b, xas_get_tag m xas t = some b := by
  rcases h with ⟨h0, _⟩ | ⟨n, hn, _, _⟩
  · exact ⟨_, xas_get_tag_root m xas t h0⟩
  · exact ⟨_, xas_get_tag_node m xas t _ n rfl hn (hl.aligned _ n hn)⟩

/-- The loop of `xa_get_tag()` against the loop of `xas_load()` on a linked array: it
walks the same slots, stops at the first one without the tag, and so answers false when
the slot the load ends on has no tag; under the propagation invariant it answers true
when that slot has the tag. -/
theorem xa_get_tag_loop_of_load {m : Mem} (hl : xa_linked m) (t : Nat) :
    ∀ (f e : Nat) (xas : xa_state) (e1 : Nat) (x1 : xa_state),
      xas_load_loop f e m xas = some (e1, m, x1) → xas.xa_shift = 0 → xas_on_slot m xas e →
      (xas_get_tag m x1 t = some false → xa_get_tag_loop f e m xas t = some (false, m)) ∧
      (xa_tag_inv m t → xas_get_tag m x1 t = some true →
        xas_get_tag m xas t = some true ∧ xa_get_tag_loop f e m xas t = some (true, m)) ∧
      xas_on_slot m x1 e1 := by
  have hstop : ∀ (f e : Nat) (xas : xa_state) (e1 : Nat) (x1 : xa_state),
      xa_is_node e = false → some (e, m, xas) = some (e1, m, x1) → xas_on_slot m xas e →
      (xas_get_tag m x1 t = some false → xa_get_tag_loop f e m xas t = some (false, m)) ∧
      (xa_tag_inv m t → xas_get_tag m x1 t = some true →
        xas_get_tag m xas t = some true ∧ xa_get_tag_loop f e m xas t = some (true, m)) ∧
      xas_on_slot m x1 e1 := by
    intro f e xas e1 x1 hn h hon
    simp only [Option.some.injEq, Prod.mk.injEq] at h
    obtain ⟨he, _, hx⟩ := h
    subst he hx
    exact ⟨fun hf => xa_get_tag_loop_false _ _ _ _ _ hf,
      fun _ ht => ⟨ht, xa_get_tag_loop_found _ _ _ _ _ ht hn⟩, hon⟩
  intro f
  induction f with
  | zero =>
    intro e xas e1 x1 h hs hon
    unfold xas_load_loop at h
    split_ifs at h with hn
    exact hstop 0 e xas e1 x1 (by simpa using hn) h hon
  | succ f ih =>
    intro e xas e1 x1 h hs hon
    unfold xas_load_loop at h
    split_ifs at h with hn
    · -- the node the slot points to, and how it hangs from the slot
      obtain ⟨c, hc, hup⟩ : ∃ c, m.nodes (xa_to_node e) = some c ∧
          ((xas.xa_node = 0 ∧ c.parent = 0) ∨
            ∃ n, m.nodes xas.xa_node = some n ∧ c.parent = xas.xa_node ∧
              c.offset = xas.xa_offset) := by
        rcases hon with ⟨h0, he⟩ | ⟨n, hnn, ho, he⟩
        · rw [he] at hn ⊢
          obtain ⟨c, hc, hcp⟩ := hl.head_node hn
          exact ⟨c, hc, Or.inl ⟨h0, hcp⟩⟩
        · rw [he] at hn ⊢
          obtain ⟨c, hc, hcp, hco, _⟩ := linked_slot_child hl hnn ho hn
          exact ⟨c, hc, Or.inr ⟨n, hnn, hcp, hco⟩⟩
      simp only [hc] at h
      rw [if_neg (by omega)] at h
      obtain ⟨e2, x2, hd, hx2n, hx2o, he2, hx2s⟩ := xas_descend_slot m xas _ c hc
      rw [hd] at h
      simp only [] at h
      have hon2 : xas_on_slot m x2 e2 := Or.inr ⟨c, by rw [hx2n]; exact hc, hx2o, he2⟩
      obtain ⟨hA, hB, hC⟩ := ih e2 x2 e1 x1 h (hx2s.trans hs) hon2
      obtain ⟨b0, hb0⟩ := on_slot_get_tag hl hon t
      refine ⟨?_, ?_, hC⟩
      · intro hf
        cases b0 with
        | false => exact xa_get_tag_loop_false _ _ _ _ _ hb0
        | true =>
          rw [xa_get_tag_loop_step f e m xas t e2 m x2 hb0 hn hd]
          exact hA hf
      · intro hinv ht
        obtain ⟨ht2, hloop⟩ := hB hinv ht
        have hca := hl.aligned _ c hc
        rw [xas_get_tag_node m x2 t _ c hx2n hc hca] at ht2
        have hbit : c.tags t x2.xa_offset = true := by simpa using ht2
        have htg : xa_node_tagged c t := ⟨_, hx2o, hbit⟩
        have hcur : xas_get_tag m xas t = some true := by
          rcases hup with ⟨h0, hcp⟩ | ⟨n, hnn, hcp, hco⟩
          · rw [xas_get_tag_root m xas t h0, hinv.flag_set _ c hc hcp htg]
          · have hna := hl.aligned _ n hnn
            rw [xas_get_tag_node m xas t _ n rfl hnn hna, ← hco]
            have := hinv.parent_tagged _ c n hc (by rw [hcp]; omega) (by rw [hcp]; exact hnn) htg
            rw [this]
        refine ⟨hcur, ?_⟩
        rw [xa_get_tag_loop_step f e m xas t e2 m x2 hcur hn hd]
        exact hloop
    · exact hstop (f + 1) e xas e1 x1 (by simpa using hn) h hon

/-- The answer of `xa_get_tag()` against the cursor `xas_load()` leaves for the same index
on a linked array: false when the slot of the cursor has no tag, and, under the
propagation invariant, true when it has the tag. -/
theorem xa_get_tag_of_load {m : Mem} (hl : xa_linked m) (t f i e : Nat) (xas : xa_state)
    (h : xas_load f m (XA_STATE i) = some (e, m, xas)) :
    (xas_get_tag m xas t = some false → xa_get_tag f m i t = some (false, m)) ∧
    (xa_tag_inv m t → xas_get_tag m xas t = some true →
      xa_get_tag f m i t = some (true, m)) ∧
    ∃ b, xas_get_tag m xas t = some b := by
  have hbounds : ∀ x : xa_state,
      xas_load_loop f 0 m { x with xa_node := XAS_BOUNDS } = some (e, m, xas) →
      (xas_get_tag m xas t = some false →
        xa_get_tag_loop f 0 m { x with xa_node := XAS_BOUNDS } t = some (false, m)) ∧
      (xa_tag_inv m t → xas_get_tag m xas t = some true →
        xa_get_tag_loop f 0 m { x with xa_node := XAS_BOUNDS } t = some (true, m)) ∧
      ∃ b, xas_get_tag m xas t = some b := by
    intro x h
    rw [xas_load_loop_non_node _ _ _ _ (by decide)] at h
    simp only [Option.some.injEq, Prod.mk.injEq] at h
    obtain ⟨_, _, hx⟩ := h
    subst hx
    have hf := xas_get_tag_invalid m { x with xa_node := XAS_BOUNDS } t (xas_invalid_bounds _)
    refine ⟨fun _ => xa_get_tag_loop_false _ _ _ _ _ hf, fun _ ht => ?_, ⟨false, hf⟩⟩
    rw [hf] at ht
    cases ht
  have hroot : ∀ x : xa_state, x.xa_shift = 0 →
      xas_load_loop f m.xa.xa_head m { x with xa_node := 0 } = some (e, m, xas) →
      (xas_get_tag m xas t = some false →
        xa_get_tag_loop f m.xa.xa_head m { x with xa_node := 0 } t = some (false, m)) ∧
      (xa_tag_inv m t → xas_get_tag m xas t = some true →
        xa_get_tag_loop f m.xa.xa_head m { x with xa_node := 0 } t = some (true, m)) ∧
      ∃ b, xas_get_tag m xas t = some b := by
    intro x hxs h
    obtain ⟨hA, hB, hC⟩ := xa_get_tag_loop_of_load hl t f _ _ e xas h hxs (Or.inl ⟨rfl, rfl⟩)
    exact ⟨hA, fun hinv ht => (hB hinv ht).2, on_slot_get_tag hl hC t⟩
  unfold xas_load at h
  unfold xa_get_tag
  cases hnode : xa_is_node m.xa.xa_head with
  | false =>
    rw [xas_start_bare m (XA_STATE i) rfl hnode] at h ⊢
    split_ifs at h ⊢
    · exact hbounds _ h
    · exact hroot _ rfl h
  | true =>
    obtain ⟨hn, hh, _⟩ := hl.head_node hnode
    rw [xas_start_node m (XA_STATE i) hn rfl hnode hh] at h ⊢
    split_ifs at h ⊢
    · exact hbounds _ h
    · exact hroot _ rfl h

/-! ## Tags: the loops of set and clear return on linked arrays -/

/-- The loop of `xas_set_tag()` returns on a linked array, given fuel for the levels
above the node it starts from. -/
theorem xas_set_tag_loop_total (t : Nat) :
    ∀ (f : Nat) (m : Mem) (a o : Nat), xa_linked m →
      (a ≠ 0 → ∃ n, m.nodes a = some n ∧ 66 ≤ n.shift + 6 * f) →
      ∃ m1, xas_set_tag_loop f m a o t = some m1 := by
  intro f
  induction f with
  | zero =>
    intro m a o hl ha
    unfold xas_set_tag_loop
    by_cases h0 : a = 0
    · rw [if_neg (not_not.2 h0)]
      split_ifs <;> exact ⟨_, rfl⟩
    · obtain ⟨n, hn, hsh⟩ := ha h0
      have := hl.shift_ok a n hn
      rw [show XA_CHUNK_SHIFT = 6 from rfl, show BITS_PER_LONG = 64 from rfl] at this
      omega
  | succ f ih =>
    intro m a o hl ha
    unfold xas_set_tag_loop
    by_cases h0 : a = 0
    · rw [if_neg (not_not.2 h0)]
      split_ifs <;> exact ⟨_, rfl⟩
    · rw [if_pos h0]
      obtain ⟨n, hn, hsh⟩ := ha h0
      simp only [hn]
      split_ifs
      · exact ⟨_, rfl⟩
      · apply ih _ _ _ (linked_same_shape (set_tag_step_shape m a o t n hn) hl)
        intro hp
        obtain ⟨p, hpn, hps, _⟩ := hl.child a n hn hp
        obtain ⟨p1, hp1, _, hp1s, _⟩ := set_tag_step_back m a o t n hn _ p hpn
        refine ⟨p1, hp1, ?_⟩
        rw [hp1s, hps, show XA_CHUNK_SHIFT = 6 from rfl]
        omega

/-- The nodes after one pass of the loop of `xas_clear_tag()`. -/
theorem clear_tag_step_full (m : Mem) (a o t : Nat) (n : xa_node) (hn : m.nodes a = some n) :
    ∀ b nb, (m.set_node a (node_clear_tag n o t).2).nodes b = some nb →
      ∃ n0, m.nodes b = some n0 ∧ nb.slots = n0.slots ∧ nb.shift = n0.shift ∧
        nb.parent = n0.parent ∧ nb.offset = n0.offset ∧
        ∀ s q, nb.tags s q = (if b = a ∧ s = t ∧ q = o then false else n0.tags s q) := by
  intro b nb hb
  by_cases hba : b = a
  · subst hba
    rw [set_node_same] at hb
    cases hb
    refine ⟨n, hn, rfl, rfl, rfl, rfl, fun s q => ?_⟩
    change (if s = t ∧ q = o then false else n.tags s q) = _
    by_cases h : s = t ∧ q = o
    · rw [if_pos h, if_pos ⟨rfl, h⟩]
    · rw [if_neg h, if_neg (fun h1 => h h1.2)]
  · rw [set_node_ne _ _ hba] at hb
    refine ⟨nb, hb, rfl, rfl, rfl, rfl, fun s q => ?_⟩
    rw [if_neg (fun h1 => hba h1.1)]

/-- The nodes before one pass of the loop of `xas_clear_tag()`, seen from the nodes
after. -/
theorem clear_tag_step_full_back (m : Mem) (a o t : Nat) (n : xa_node)
    (hn : m.nodes a = some n) :
    ∀ b n0, m.nodes b = some n0 →
      ∃ nb, (m.set_node a (node_clear_tag n o t).2).nodes b = some nb ∧ nb.slots = n0.slots ∧
        nb.shift = n0.shift ∧ nb.parent = n0.parent ∧ nb.offset = n0.offset ∧
        ∀ s q, nb.tags s q = (if b = a ∧ s = t ∧ q = o then false else n0.tags s q) := by
  intro b n0 hb
  by_cases hba : b = a
  · subst hba
    rw [hn] at hb
    cases hb
    refine ⟨_, set_node_same _ _ _, rfl, rfl, rfl, rfl, fun s q => ?_⟩
    change (if s = t ∧ q = o then false else n.tags s q) = _
    by_cases h : s = t ∧ q = o
    · rw [if_pos h, if_pos ⟨rfl, h⟩]
    · rw [if_neg h, if_neg (fun h1 => h h1.2)]
  · refine ⟨n0, by rw [set_node_ne _ _ hba]; exact hb, rfl, rfl, rfl, rfl, fun s q => ?_⟩
    rw [if_neg (fun h1 => hba h1.1)]

theorem clear_tag_step_shape (m : Mem) (a o t : Nat) (n : xa_node) (hn : m.nodes a = some n) :
    xa_same_shape m (m.set_node a (node_clear_tag n o t).2) :=
  same_shape_set_node hn rfl rfl rfl rfl rfl

theorem clear_tag_step_le (m : Mem) (a o t : Nat) (n : xa_node) (hn : m.nodes a = some n) :
    xa_tags_le (m.set_node a (node_clear_tag n o t).2) m := by
  refine ⟨fun _ h => h, fun b nb hb => ?_⟩
  obtain ⟨n0, hn0, _, _, _, _, htg⟩ := clear_tag_step_full m a o t n hn b nb hb
  refine ⟨n0, hn0, fun s p hsp => ?_⟩
  rw [htg s p] at hsp
  split_ifs at hsp
  exact hsp

/-- The loop of `xas_clear_tag()` returns on a linked array, given fuel for the levels
above the node it starts from. -/
theorem xas_clear_tag_loop_total (t : Nat) :
    ∀ (f : Nat) (m : Mem) (a o : Nat), xa_linked m →
      (a ≠ 0 → ∃ n, m.nodes a = some n ∧ 66 ≤ n.shift + 6 * f) →
      ∃ m1, xas_clear_tag_loop f m a o t = some m1 := by
  intro f
  induction f with
  | zero =>
    intro m a o hl ha
    unfold xas_clear_tag_loop
    by_cases h0 : a = 0
    · rw [if_neg (not_not.2 h0)]
      split_ifs <;> exact ⟨_, rfl⟩
    · obtain ⟨n, hn, hsh⟩ := ha h0
      have := hl.shift_ok a n hn
      rw [show XA_CHUNK_SHIFT = 6 from rfl, show BITS_PER_LONG = 64 from rfl] at this
      omega
  | succ f ih =>
    intro m a o hl ha
    unfold xas_clear_tag_loop
    by_cases h0 : a = 0
    · rw [if_neg (not_not.2 h0)]
      split_ifs <;> exact ⟨_, rfl⟩
    · rw [if_pos h0]
      obtain ⟨n, hn, hsh⟩ := ha h0
      simp only [hn]
      split_ifs
      · exact ⟨_, rfl⟩
      · exact ⟨_, rfl⟩
      · apply ih _ _ _ (linked_same_shape (clear_tag_step_shape m a o t n hn) hl)
        intro hp
        obtain ⟨p, hpn, hps, _⟩ := hl.child a n hn hp
        obtain ⟨p1, hp1, _, hp1s, _⟩ := clear_tag_step_full_back m a o t n hn _ p hpn
        refine ⟨p1, hp1, ?_⟩
        rw [hp1s, hps, show XA_CHUNK_SHIFT = 6 from rfl]
        omega

/-- Clearing the flag of a tag sets no flag. -/
theorem xa_tagged_clear_le (xa : xarray) (s t : Nat)
    (h : xa_tagged (xa_tag_clear xa t) s = true) : xa_tagged xa s = true := by
  unfold xa_tag_clear at h
  split_ifs at h
  · rw [xa_tagged_eq] at h ⊢
    simp only [Nat.testBit_land, Bool.and_eq_true] at h
    exact h.1
  · exact h

/-- What the loop of `xas_clear_tag()` changes: no entry and no link; no flag and no
bit of another tag; it sets no bit, and leaves the slot it starts from without the
tag. -/
theorem xas_clear_tag_loop_frame (t : Nat) :
    ∀ (f : Nat) (m : Mem) (a o : Nat) (m1 : Mem),
      xas_clear_tag_loop f m a o t = some m1 →
      xa_same_shape m m1 ∧ xa_tags_le m1 m ∧
      (∀ s, s ≠ t → s < XA_MAX_TAGS → t < XA_MAX_TAGS →
        xa_tagged m1.xa s = xa_tagged m.xa s) ∧
      (∀ b n n1, m.nodes b = some n → m1.nodes b = some n1 → ∀ s, s ≠ t →
        ∀ q, n1.tags s q = n.tags s q) ∧
      (a = 0 → t < XA_MAX_TAGS → xa_tagged m1.xa t = false) ∧
      (a ≠ 0 → ∃ n1, m1.nodes a = some n1 ∧ n1.tags t o = false) := by
  have hzero : ∀ (m : Mem) (m1 : Mem),
      (if xa_tagged m.xa t then some { m with xa := xa_tag_clear m.xa t } else some m)
        = some m1 →
      xa_same_shape m m1 ∧ xa_tags_le m1 m ∧
      (∀ s, s ≠ t → s < XA_MAX_TAGS → t < XA_MAX_TAGS →
        xa_tagged m1.xa s = xa_tagged m.xa s) ∧
      (∀ b n n1, m.nodes b = some n → m1.nodes b = some n1 → ∀ s, s ≠ t →
        ∀ q, n1.tags s q = n.tags s q) ∧
      (t < XA_MAX_TAGS → xa_tagged m1.xa t = false) := by
    intro m m1 h
    split_ifs at h with hfl
    · cases h
      refine ⟨same_shape_xa m _ (xa_tag_clear_head _ _),
        ⟨fun s hs => xa_tagged_clear_le _ _ _ hs, fun b n1 hb => ⟨n1, hb, fun _ _ h => h⟩⟩,
        ?_, ?_, ?_⟩
      · intro s hst hs ht
        show xa_tagged (xa_tag_clear m.xa t) s = _
        rw [xa_tagged_clear _ _ _ hs ht]
        simp [hst]
      · intro b n n1 hb hb1 s _ q
        have hb2 : m.nodes b = some n1 := hb1
        rw [hb] at hb2
        cases hb2
        rfl
      · intro ht
        show xa_tagged (xa_tag_clear m.xa t) t = _
        rw [xa_tagged_clear _ _ _ ht ht]
        simp
    · cases h
      refine ⟨same_shape_refl _, tags_le_refl _, fun _ _ _ _ => rfl, ?_, ?_⟩
      · intro b n n1 hb hb1 s _ q
        rw [hb] at hb1
        cases hb1
        rfl
      · intro _
        simpa using hfl
  intro f
  induction f with
  | zero =>
    intro m a o m1 h
    unfold xas_clear_tag_loop at h
    by_cases h0 : a = 0
    · rw [if_neg (not_not.2 h0)] at h
      obtain ⟨h1, h2, h3, h4, h5⟩ := hzero m m1 h
      exact ⟨h1, h2, h3, h4, fun _ => h5, fun h => absurd h0 h⟩
    · rw [if_pos h0] at h
      cases h
  | succ f ih =>
    intro m a o m1 h
    unfold xas_clear_tag_loop at h
    by_cases h0 : a = 0
    · rw [if_neg (not_not.2 h0)] at h
      obtain ⟨h1, h2, h3, h4, h5⟩ := hzero m m1 h
      exact ⟨h1, h2, h3, h4, fun _ => h5, fun h => absurd h0 h⟩
    rw [if_pos h0] at h
    cases hn : m.nodes a with
    | none =>
      rw [hn] at h
      cases h
    | some n =>
      rw [hn] at h
      simp only [] at h
      have hfwd := clear_tag_step_full m a o t n hn
      have hbwd := clear_tag_step_full_back m a o t n hn
      obtain ⟨na, hna, _, _, _, _, hnat⟩ := hbwd a n hn
      have hnabit : na.tags t o = false := by
        rw [hnat t o, if_pos ⟨rfl, rfl, rfl⟩]
      -- the facts of the step alone
      have hstep : xa_same_shape m (m.set_node a (node_clear_tag n o t).2) ∧
          xa_tags_le (m.set_node a (node_clear_tag n o t).2) m ∧
          (∀ b n0 n1, m.nodes b = some n0 →
            (m.set_node a (node_clear_tag n o t).2).nodes b = some n1 → ∀ s, s ≠ t →
            ∀ q, n1.tags s q = n0.tags s q) := by
        refine ⟨clear_tag_step_shape m a o t n hn, clear_tag_step_le m a o t n hn, ?_⟩
        intro b n0 n1 hb hb1 s hst q
        obtain ⟨n2, hn2, _, _, _, _, htg⟩ := hfwd b n1 hb1
        rw [hb] at hn2
        cases hn2
        rw [htg s q, if_neg (fun h1 => hst h1.2.1)]
      have hdone : xa_same_shape m (m.set_node a (node_clear_tag n o t).2) ∧
          xa_tags_le (m.set_node a (node_clear_tag n o t).2) m ∧
          (∀ s, s ≠ t → s < XA_MAX_TAGS → t < XA_MAX_TAGS →
            xa_tagged (m.set_node a (node_clear_tag n o t).2).xa s = xa_tagged m.xa s) ∧
          (∀ b n0 n1, m.nodes b = some n0 →
            (m.set_node a (node_clear_tag n o t).2).nodes b = some n1 → ∀ s, s ≠ t →
            ∀ q, n1.tags s q = n0.tags s q) ∧
          (a = 0 → t < XA_MAX_TAGS →
            xa_tagged (m.set_node a (node_clear_tag n o t).2).xa t = false) ∧
          (a ≠ 0 → ∃ n1, (m.set_node a (node_clear_tag n o t).2).nodes a = some n1 ∧
            n1.tags t o = false) :=
        ⟨hstep.1, hstep.2.1, fun _ _ _ _ => rfl, hstep.2.2, fun h => absurd h h0,
          fun _ => ⟨na, hna, hnabit⟩⟩
      split_ifs at h with hc1 hc2
      · cases h
        exact hdone
      · cases h
        exact hdone
      · obtain ⟨i1, i2, i3, i4, _, _⟩ := ih _ _ _ m1 h
        refine ⟨same_shape_trans hstep.1 i1, tags_le_trans i2 hstep.2.1, i3, ?_,
          fun h => absurd h h0, fun _ => ?_⟩
        · intro b n0 n1 hb hb1 s hst q
          obtain ⟨nb, hnb, _⟩ := hbwd b n0 hb
          rw [i4 b nb n1 hnb hb1 s hst q]
          exact hstep.2.2 b n0 nb hb hnb s hst q
        · obtain ⟨n1, hn1, _⟩ := (i1.2 a).2 na hna
          refine ⟨n1, hn1, ?_⟩
          obtain ⟨n2, hn2, hle⟩ := i2.2 a n1 hn1
          have hn3 : some na = some n2 := hna.symm.trans hn2
          cases hn3
          cases hb : n1.tags t o with
          | false => rfl
          | true =>
            have := hle t o hb
            rw [hnabit] at this
            cases this

/-! ## Tags: the loop of clear keeps the propagation invariant -/

/-- Two nodes of a linked array that hang from the same slot are the same node. -/
theorem linked_same_slot {m : Mem} (hl : xa_linked m) {c a : Nat} {nc n : xa_node}
    (hc : m.nodes c = some nc) (hn : m.nodes a = some n) (hp : nc.parent = n.parent)
    (ho : n.parent ≠ 0 → nc.offset = n.offset) : c = a := by
  have hca := hl.aligned c nc hc
  have haa := hl.aligned a n hn
  by_cases h0 : n.parent = 0
  · have h1 := hl.root c nc hc (hp.trans h0)
    have h2 := hl.root a n hn h0
    exact xa_mk_node_inj hca.1 haa.1 (h1.symm.trans h2)
  · obtain ⟨p, hpn, _, hsl⟩ := hl.child a n hn h0
    obtain ⟨p1, hpn1, _, hsl1⟩ := hl.child c nc hc (by rw [hp]; exact h0)
    rw [hp, hpn] at hpn1
    cases hpn1
    rw [ho h0] at hsl1
    exact xa_mk_node_inj hca.1 haa.1 (hsl1.symm.trans hsl)

/-- A node of a linked array is not its own parent. -/
theorem linked_parent_ne {m : Mem} (hl : xa_linked m) {a : Nat} {n : xa_node}
    (hn : m.nodes a = some n) : n.parent ≠ a := by
  intro h
  have ha := hl.aligned a n hn
  obtain ⟨p, hpn, hps, _⟩ := hl.child a n hn (by rw [h]; omega)
  rw [h, hn] at hpn
  cases hpn
  rw [show XA_CHUNK_SHIFT = 6 from rfl] at hps
  omega

/-- The loop of `xas_clear_tag()` keeps the propagation invariant of a linked array when
no tagged node hangs from the slot it starts from; and when that slot is a slot of a
node, an array flag that is set only where a slot carries the tag stays so. -/
theorem xas_clear_tag_loop_inv (t : Nat) :
    ∀ (f : Nat) (m : Mem) (a o : Nat) (m1 : Mem), xa_linked m → xa_tag_inv m t →
      (∀ c nc, m.nodes c = some nc → nc.parent = a → (a ≠ 0 → nc.offset = o) →
        ¬ xa_node_tagged nc t) →
      xas_clear_tag_loop f m a o t = some m1 →
      xa_tag_inv m1 t ∧
      (o < XA_CHUNK_SIZE → t < XA_MAX_TAGS →
        (xa_tagged m.xa t = true →
          ∃ b n q, m.nodes b = some n ∧ q < XA_CHUNK_SIZE ∧ n.tags t q = true) →
        xa_tagged m1.xa t = true →
          ∃ b n q, m1.nodes b = some n ∧ q < XA_CHUNK_SIZE ∧ n.tags t q = true) := by
  have hzero : ∀ (m m1 : Mem), xa_tag_inv m t →
      (∀ c nc, m.nodes c = some nc → nc.parent = 0 → ¬ xa_node_tagged nc t) →
      (if xa_tagged m.xa t then some { m with xa := xa_tag_clear m.xa t } else some m)
        = some m1 →
      xa_tag_inv m1 t ∧
      (t < XA_MAX_TAGS →
        (xa_tagged m.xa t = true →
          ∃ b n q, m.nodes b = some n ∧ q < XA_CHUNK_SIZE ∧ n.tags t q = true) →
        xa_tagged m1.xa t = true →
          ∃ b n q, m1.nodes b = some n ∧ q < XA_CHUNK_SIZE ∧ n.tags t q = true) := by
    intro m m1 hinv hno h
    split_ifs at h with hfl
    · cases h
      refine ⟨⟨fun c nc p hc hp hpn htg => hinv.parent_tagged c nc p hc hp hpn htg,
        fun c nc hc hp htg => absurd htg (hno c nc hc hp)⟩, fun ht _ hfl1 => ?_⟩
      exfalso
      have h2 : xa_tagged (xa_tag_clear m.xa t) t = true := hfl1
      rw [xa_tagged_clear _ _ _ ht ht] at h2
      simp at h2
    · cases h
      exact ⟨hinv, fun _ hx => hx⟩
  intro f
  induction f with
  | zero =>
    intro m a o m1 hl hinv hchild h
    unfold xas_clear_tag_loop at h
    by_cases h0 : a = 0
    · rw [if_neg (not_not.2 h0)] at h
      obtain ⟨h1, h2⟩ := hzero m m1 hinv
        (fun c nc hc hp => hchild c nc hc (hp.trans h0.symm) (fun h => absurd h0 h)) h
      exact ⟨h1, fun _ => h2⟩
    · rw [if_pos h0] at h
      cases h
  | succ f ih =>
    intro m a o m1 hl hinv hchild h
    unfold xas_clear_tag_loop at h
    by_cases h0 : a = 0
    · rw [if_neg (not_not.2 h0)] at h
      obtain ⟨h1, h2⟩ := hzero m m1 hinv
        (fun c nc hc hp => hchild c nc hc (hp.trans h0.symm) (fun h => absurd h0 h)) h
      exact ⟨h1, fun _ => h2⟩
    rw [if_pos h0] at h
    cases hn : m.nodes a with
    | none =>
      rw [hn] at h
      cases h
    | some n =>
      rw [hn] at h
      simp only [] at h
      have hfwd := clear_tag_step_full m a o t n hn
      have hbwd := clear_tag_step_full_back m a o t n hn
      have hl1 : xa_linked (m.set_node a (node_clear_tag n o t).2) :=
        linked_same_shape (clear_tag_step_shape m a o t n hn) hl
      -- a node tagged after the pass was tagged before
      have hwas : ∀ c nc, (m.set_node a (node_clear_tag n o t).2).nodes c = some nc →
          xa_node_tagged nc t →
          ∃ nc0, m.nodes c = some nc0 ∧ nc.parent = nc0.parent ∧ nc.offset = nc0.offset ∧
            xa_node_tagged nc0 t := by
        intro c nc hc ⟨q, hq, hb⟩
        obtain ⟨nc0, hc0, _, _, hpar, hoff, htgs⟩ := hfwd c nc hc
        refine ⟨nc0, hc0, hpar, hoff, q, hq, ?_⟩
        rw [htgs t q] at hb
        split_ifs at hb
        exact hb
      have hinv1 : xa_tag_inv (m.set_node a (node_clear_tag n o t).2) t := by
        refine ⟨?_, ?_⟩
        · intro c nc p1 hc hp hpn htg
          obtain ⟨nc0, hc0, hpar, hoff, htg0⟩ := hwas c nc hc htg
          obtain ⟨p0, hp0, _, _, _, _, hptg⟩ := hfwd _ p1 hpn
          rw [hptg t nc.offset]
          have hex : ¬ (nc.parent = a ∧ t = t ∧ nc.offset = o) := fun hh =>
            hchild c nc0 hc0 (hpar.symm.trans hh.1) (fun _ => hoff.symm.trans hh.2.2) htg0
          rw [if_neg hex]
          rw [hpar] at hp0 hp
          rw [hoff]
          exact hinv.parent_tagged c nc0 p0 hc0 hp hp0 htg0
        · intro c nc hc hp htg
          obtain ⟨nc0, hc0, hpar, _, htg0⟩ := hwas c nc hc htg
          exact hinv.flag_set c nc0 hc0 (hpar.symm.trans hp) htg0
      split_ifs at h with hc1 hc2
      · cases h
        refine ⟨hinv1, fun _ _ hx hfl => ?_⟩
        have hold : n.tags t o = false := by simpa [node_clear_tag] using hc1
        obtain ⟨b, nb, q, hb, hq, hbit⟩ := hx hfl
        obtain ⟨nb1, hnb1, _, _, _, _, htg1⟩ := hbwd b nb hb
        refine ⟨b, nb1, q, hnb1, hq, ?_⟩
        rw [htg1 t q, if_neg, hbit]
        intro hh
        rw [hh.1, hn] at hb
        cases hb
        rw [hh.2.2, hold] at hbit
        cases hbit
      · cases h
        refine ⟨hinv1, fun _ _ _ _ => ?_⟩
        obtain ⟨q, hq, hb⟩ := (node_any_tag_iff _ t).1 hc2
        exact ⟨a, (node_clear_tag n o t).2, q, set_node_same _ _ _, hq, hb⟩
      · have hold : n.tags t o = true := by simpa [node_clear_tag] using hc1
        have hchild1 : ∀ c nc, (m.set_node a (node_clear_tag n o t).2).nodes c = some nc →
            nc.parent = xa_parent_locked n → (xa_parent_locked n ≠ 0 → nc.offset = n.offset) →
            ¬ xa_node_tagged nc t := by
          intro c nc hc hp ho htg
          obtain ⟨nc0, hc0, _, _, hpar, hoff, _⟩ := hfwd c nc hc
          have hca : c = a := linked_same_slot hl hc0 hn (hpar.symm.trans hp)
            (fun h => hoff.symm.trans (ho h))
          subst hca
          rw [set_node_same] at hc
          cases hc
          exact hc2 ((node_any_tag_iff _ t).2 htg)
        obtain ⟨i1, i2⟩ := ih _ _ _ m1 hl1 hinv1 hchild1 h
        refine ⟨i1, fun ho ht _ hfl1 => ?_⟩
        by_cases hp0 : n.parent = 0
        · exfalso
          obtain ⟨_, _, _, _, hz, _⟩ := xas_clear_tag_loop_frame t f _ _ _ m1 h
          rw [hz hp0 ht] at hfl1
          cases hfl1
        · apply i2 (hl.offset_ok a n hn) ht ?_ hfl1
          intro _
          obtain ⟨p, hpn, _, _⟩ := hl.child a n hn hp0
          have hbit : p.tags t n.offset = true :=
            hinv.parent_tagged a n p hn hp0 hpn ⟨o, ho, hold⟩
          obtain ⟨p1, hp1, _, _, _, _, hptg⟩ := hbwd _ p hpn
          refine ⟨n.parent, p1, n.offset, hp1, hl.offset_ok a n hn, ?_⟩
          rw [hptg, if_neg (fun hh => linked_parent_ne hl hn hh.1), hbit]

/-! ## Tags: a tag climbs to the array flag -/

/-- Under the propagation invariant of a linked array a tagged node has the tag on every
level above it, up to the array flag. -/
theorem tag_inv_climb {m : Mem} (hl : xa_linked m) {t : Nat} (hinv : xa_tag_inv m t) :
    ∀ (k a : Nat) (n : xa_node), m.nodes a = some n → 66 ≤ n.shift + 6 * k →
      xa_node_tagged n t → xa_tagged m.xa t = true := by
  intro k
  induction k with
  | zero =>
    intro a n hn hk _
    have := hl.shift_ok a n hn
    rw [show XA_CHUNK_SHIFT = 6 from rfl, show BITS_PER_LONG = 64 from rfl] at this
    omega
  | succ k ih =>
    intro a n hn hk htg
    by_cases hp : n.parent = 0
    · exact hinv.flag_set a n hn hp htg
    · obtain ⟨p, hpn, hps, _⟩ := hl.child a n hn hp
      exact ih _ p hpn (by rw [hps, show XA_CHUNK_SHIFT = 6 from rfl]; omega)
        ⟨n.offset, hl.offset_ok a n hn, hinv.parent_tagged a n p hn hp hpn htg⟩

/-- Under the propagation invariant of a linked array the flag of the array is set when
a slot of a node carries the tag. -/
theorem tag_inv_flag {m : Mem} (hl : xa_linked m) {t : Nat} (hinv : xa_tag_inv m t)
    {a : Nat} {n : xa_node} (hn : m.nodes a = some n) (htg : xa_node_tagged n t) :
    xa_tagged m.xa t = true :=
  tag_inv_climb hl hinv 11 a n hn (by omega) htg

/-! ## Tags: `xa_get_tag()` reads the bits of one tag only -/

/-- With a fresh cursor `xas_start()` faults when the head points to no node. -/
theorem xas_start_dangling (m : Mem) (xas : xa_state) (hstart : xas.xa_node = XAS_RESTART)
    (hnode : xa_is_node m.xa.xa_head = true)
    (hhead : m.nodes (xa_to_node m.xa.xa_head) = none) : xas_start m xas = none := by
  unfold xas_start
  rw [xas_valid_restart hstart]
  simp [xas_error_restart hstart, xa_head, hnode, hhead]

/-- `xas_get_tag()` reads the flag and the bits of its tag only. -/
theorem xas_get_tag_congr {m m1 : Mem} (hs : xa_same_shape m m1) (s : Nat)
    (hfl : xa_tagged m1.xa s = xa_tagged m.xa s)
    (htg : ∀ b n n1, m.nodes b = some n → m1.nodes b = some n1 → ∀ q,
      n1.tags s q = n.tags s q) (xas : xa_state) :
    xas_get_tag m1 xas s = xas_get_tag m xas s := by
  unfold xas_get_tag
  split_ifs
  · rfl
  · rw [hfl]
  · cases hn : m.nodes xas.xa_node with
    | none => rw [(hs.2 _).1 hn]
    | some n =>
      obtain ⟨n1, hn1, _⟩ := (hs.2 _).2 n hn
      rw [hn1]
      simp only [node_get_tag]
      rw [htg _ n n1 hn hn1]

/-- A step of `xas_descend()` on two arrays of the same shape. -/
theorem xas_descend_congr_map {m m1 : Mem} (hs : xa_same_shape m m1) (xas : xa_state)
    (a : Nat) :
    (xas_descend m xas a = none ∧ xas_descend m1 xas a = none) ∨
    ∃ e x1, xas_descend m xas a = some (e, m, x1) ∧
      xas_descend m1 xas a = some (e, m1, x1) := by
  cases hn : m.nodes a with
  | none =>
    left
    unfold xas_descend
    rw [hn, (hs.2 _).1 hn]
    exact ⟨rfl, rfl⟩
  | some n =>
    right
    obtain ⟨e, x1, hd, _⟩ := xas_descend_slot m xas a n hn
    exact ⟨e, x1, hd, xas_descend_congr hs xas a e x1 hd⟩

/-- The loop of `xa_get_tag()` reads the entries, the flag and the bits of its tag
only. -/
theorem xa_get_tag_loop_congr {m m1 : Mem} (hs : xa_same_shape m m1) (s : Nat)
    (hfl : xa_tagged m1.xa s = xa_tagged m.xa s)
    (htg : ∀ b n n1, m.nodes b = some n → m1.nodes b = some n1 → ∀ q,
      n1.tags s q = n.tags s q) :
    ∀ (f e : Nat) (xas : xa_state),
      (xa_get_tag_loop f e m1 xas s).map Prod.fst =
        (xa_get_tag_loop f e m xas s).map Prod.fst := by
  intro f
  induction f with
  | zero =>
    intro e xas
    unfold xa_get_tag_loop
    rw [xas_get_tag_congr hs s hfl htg xas]
    cases hg : xas_get_tag m xas s with
    | none => simp
    | some b =>
      cases b with
      | false => simp
      | true =>
        cases he : xa_is_node e <;> simp
  | succ f ih =>
    intro e xas
    cases hg : xas_get_tag m xas s with
    | none =>
      unfold xa_get_tag_loop
      rw [xas_get_tag_congr hs s hfl htg xas, hg]
      simp
    | some b =>
      cases b with
      | false =>
        rw [xa_get_tag_loop_false _ _ _ _ _ hg,
          xa_get_tag_loop_false _ _ _ _ _ ((xas_get_tag_congr hs s hfl htg xas).trans hg)]
        rfl
      | true =>
        have hg1 := (xas_get_tag_congr hs s hfl htg xas).trans hg
        cases he : xa_is_node e with
        | false =>
          rw [xa_get_tag_loop_found _ _ _ _ _ hg he, xa_get_tag_loop_found _ _ _ _ _ hg1 he]
          rfl
        | true =>
          rcases xas_descend_congr_map hs xas (xa_to_node e) with ⟨h1, h2⟩ | ⟨e1, x1, h1, h2⟩
          · unfold xa_get_tag_loop
            rw [hg, hg1, he, h1, h2]
            simp
          · rw [xa_get_tag_loop_step f e m xas s e1 m x1 hg he h1,
              xa_get_tag_loop_step f e m1 xas s e1 m1 x1 hg1 he h2]
            exact ih e1 x1

/-- `xa_get_tag()` reads the entries, the flag and the bits of its tag only: on two arrays
of the same shape that agree on them it gives the same answer. -/
theorem xa_get_tag_congr {m m1 : Mem} (hs : xa_same_shape m m1) (s : Nat)
    (hfl : xa_tagged m1.xa s = xa_tagged m.xa s)
    (htg : ∀ b n n1, m.nodes b = some n → m1.nodes b = some n1 → ∀ q,
      n1.tags s q = n.tags s q) (f j : Nat) :
    (xa_get_tag f m1 j s).map Prod.fst = (xa_get_tag f m j s).map Prod.fst := by
  unfold xa_get_tag
  cases hnode : xa_is_node m.xa.xa_head with
  | false =>
    rw [xas_start_bare m (XA_STATE j) rfl hnode,
      xas_start_bare m1 (XA_STATE j) rfl (by rw [hs.1]; exact hnode), hs.1]
    split_ifs
    · exact xa_get_tag_loop_congr hs s hfl htg _ _ _
    · exact xa_get_tag_loop_congr hs s hfl htg _ _ _
  | true =>
    cases hh : m.nodes (xa_to_node m.xa.xa_head) with
    | none =>
      rw [xas_start_dangling m (XA_STATE j) rfl hnode hh,
        xas_start_dangling m1 (XA_STATE j) rfl (by rw [hs.1]; exact hnode)
          (by rw [hs.1]; exact (hs.2 _).1 hh)]
    | some hn =>
      obtain ⟨hn1, hh1, hsh, _⟩ := (hs.2 _).2 hn hh
      rw [xas_start_node m (XA_STATE j) hn rfl hnode hh,
        xas_start_node m1 (XA_STATE j) hn1 rfl (by rw [hs.1]; exact hnode)
          (by rw [hs.1]; exact hh1), hs.1, hsh]
      split_ifs
      · exact xa_get_tag_loop_congr hs s hfl htg _ _ _
      · exact xa_get_tag_loop_congr hs s hfl htg _ _ _

/-! ## Tags: the example array `tagged_tree` -/

theorem tagged_tree_nodes {a : Nat} {n : xa_node} (h : tagged_tree.nodes a = some n) :
    (a = 8192 ∧ n = tagged_tree_head) ∨ (a = 8448 ∧ n = tagged_tree_leaf) := by
  unfold tagged_tree at h
  simp only [] at h
  by_cases h1 : a = 8192
  · rw [if_pos h1] at h
    cases h
    exact Or.inl ⟨h1, rfl⟩
  · rw [if_neg h1] at h
    by_cases h2 : a = 8448
    · rw [if_pos h2] at h
      cases h
      exact Or.inr ⟨h2, rfl⟩
    · rw [if_neg h2] at h
      cases h

theorem tagged_tree_head_slot (o : Nat) (h : xa_is_node (tagged_tree_head.slots o) = true) :
    o = 1 := by
  by_contra ho
  have : tagged_tree_head.slots o = 0 := if_neg ho
  rw [this] at h
  revert h
  decide

theorem tagged_tree_leaf_slot (o : Nat) : xa_is_node (tagged_tree_leaf.slots o) = false := by
  have h : tagged_tree_leaf.slots o =
      if o = 3 then xa_mk_value 7 else if o = 5 then xa_mk_value 9 else 0 := rfl
  rw [h]
  split_ifs <;> decide

/-- The array `tagged_tree` is linked up. -/
theorem tagged_tree_linked : xa_linked tagged_tree where
  head_node := fun _ => ⟨tagged_tree_head, rfl, rfl⟩
  aligned := fun a n h => by
    rcases tagged_tree_nodes h with ⟨rfl, rfl⟩ | ⟨rfl, rfl⟩ <;> decide
  shift_ok := fun a n h => by
    rcases tagged_tree_nodes h with ⟨rfl, rfl⟩ | ⟨rfl, rfl⟩ <;> decide
  offset_ok := fun a n h => by
    rcases tagged_tree_nodes h with ⟨rfl, rfl⟩ | ⟨rfl, rfl⟩ <;> decide
  root := fun a n h hp => by
    rcases tagged_tree_nodes h with ⟨rfl, rfl⟩ | ⟨rfl, rfl⟩
    · rfl
    · revert hp
      decide
  child := fun a n h hp => by
    rcases tagged_tree_nodes h with ⟨rfl, rfl⟩ | ⟨rfl, rfl⟩
    · exact absurd rfl hp
    · exact ⟨tagged_tree_head, rfl, rfl, rfl⟩
  slot_node := fun a n o h ho hs => by
    rcases tagged_tree_nodes h with ⟨rfl, rfl⟩ | ⟨rfl, rfl⟩
    · have ho1 := tagged_tree_head_slot o hs
      subst ho1
      exact ⟨tagged_tree_leaf, rfl, rfl, rfl⟩
    · rw [tagged_tree_leaf_slot o] at hs
      cases hs

/-- The array `tagged_tree` satisfies the propagation invariant, for every tag. -/
theorem tagged_tree_inv (t : Nat) : xa_tag_inv tagged_tree t where
  parent_tagged := fun c nc p hc hp hpn htg => by
    rcases tagged_tree_nodes hc with ⟨rfl, rfl⟩ | ⟨rfl, rfl⟩
    · exact absurd rfl hp
    · rcases tagged_tree_nodes hpn with ⟨_, rfl⟩ | ⟨h1, _⟩
      · obtain ⟨o, _, hb⟩ := htg
        have hb1 : decide (t = 0 ∧ o = 3) = true := hb
        have ht : t = 0 := (of_decide_eq_true hb1).1
        subst ht
        rfl
      · exact absurd h1 (by decide)
  flag_set := fun c nc hc hp htg => by
    rcases tagged_tree_nodes hc with ⟨rfl, rfl⟩ | ⟨rfl, rfl⟩
    · obtain ⟨o, _, hb⟩ := htg
      have hb1 : decide (t = 0 ∧ o = 1) = true := hb
      have ht : t = 0 := (of_decide_eq_true hb1).1
      subst ht
      decide
    · exact absurd hp (by decide)

/-- In `tagged_tree` no empty slot carries a tag, and the head is not NULL. -/
theorem tagged_tree_empty_clear (t : Nat) :
    (∀ a n o, tagged_tree.nodes a = some n → o < XA_CHUNK_SIZE → n.slots o = 0 →
      n.tags t o = false) ∧
    (tagged_tree.xa.xa_head = 0 → xa_tagged tagged_tree.xa t = false) := by
  constructor
  · intro a n o h _ hs
    rcases tagged_tree_nodes h with ⟨rfl, rfl⟩ | ⟨rfl, rfl⟩
    · have ho : o ≠ 1 := by
        intro ho
        subst ho
        revert hs
        decide
      show decide (t = 0 ∧ o = 1) = false
      simp [ho]
    · have ho : o ≠ 3 := by
        intro ho
        subst ho
        revert hs
        decide
      show decide (t = 0 ∧ o = 3) = false
      simp [ho]
  · intro h
    exact absurd h (by decide)

/-- The flag of `tagged_tree` for tag 0 is exact. -/
theorem tagged_tree_exact : xa_tag_exact tagged_tree 0 :=
  ⟨fun _ => ⟨8448, tagged_tree_leaf, 3, rfl, by decide, rfl⟩, fun _ => by decide⟩

/-! ## Tags: `xas_set_tag()` and `xas_clear_tag()` with the cursor on a slot -/

/-- An array flag that is set only where a slot carries the tag is exact, under the
propagation invariant of a linked array. -/
theorem tag_exact_of {m : Mem} (hl : xa_linked m) {t : Nat} (hinv : xa_tag_inv m t)
    (h : xa_tagged m.xa t = true →
      ∃ a n o, m.nodes a = some n ∧ o < XA_CHUNK_SIZE ∧ n.tags t o = true) :
    xa_tag_exact m t :=
  ⟨h, fun ⟨_, _, q, hb, hq, hbit⟩ => tag_inv_flag hl hinv hb ⟨q, hq, hbit⟩⟩

/-- A linked array that has a node has a node for its head. -/
theorem linked_has_root {m : Mem} (hl : xa_linked m) :
    ∀ (k a : Nat) (n : xa_node), m.nodes a = some n → 66 ≤ n.shift + 6 * k →
      xa_is_node m.xa.xa_head = true := by
  intro k
  induction k with
  | zero =>
    intro a n hn hk
    have := hl.shift_ok a n hn
    rw [show XA_CHUNK_SHIFT = 6 from rfl, show BITS_PER_LONG = 64 from rfl] at this
    omega
  | succ k ih =>
    intro a n hn hk
    by_cases hp : n.parent = 0
    · have ha := hl.aligned a n hn
      rw [hl.root a n hn hp]
      exact xa_is_node_mk ha.1 ha.2
    · obtain ⟨p, hpn, hps, _⟩ := hl.child a n hn hp
      exact ih _ p hpn (by rw [hps, show XA_CHUNK_SHIFT = 6 from rfl]; omega)

/-- `xas_set_tag()` with a valid cursor on a slot of a linked array that satisfies the
propagation invariant: it returns, changes no entry and no link, keeps the invariant,
and leaves the tag on the slot of the cursor; it clears no bit, touches no other tag,
and sets bits only on the slot of the cursor and on slots nodes hang from. -/
theorem xas_set_tag_spec {m : Mem} (hl : xa_linked m) {t : Nat} (hinv : xa_tag_inv m t)
    {xas : xa_state} (hv : xas_invalid xas = false)
    (hon : xas.xa_node = 0 ∨ ∃ n, m.nodes xas.xa_node = some n) {fuel : Nat}
    (hfuel : 11 ≤ fuel) :
    ∃ m1, xas_set_tag fuel m xas t = some m1 ∧ xa_same_shape m m1 ∧ xa_tag_inv m1 t ∧
      xas_get_tag m1 xas t = some true ∧
      (∀ b n n1, m.nodes b = some n → m1.nodes b = some n1 → ∀ q,
        n1.tags t q = n.tags t q ∨ (b = xas.xa_node ∧ q = xas.xa_offset) ∨
          ∃ c nc, m.nodes c = some nc ∧ nc.parent = b ∧ nc.offset = q) := by
  have htot : ∃ m1, xas_set_tag_loop fuel m xas.xa_node xas.xa_offset t = some m1 := by
    apply xas_set_tag_loop_total t fuel m _ _ hl
    intro h0
    rcases hon with h | ⟨n, hn⟩
    · exact absurd h h0
    · exact ⟨n, hn, by omega⟩
  obtain ⟨m1, h1⟩ := htot
  obtain ⟨hsh, _, _, hch⟩ := xas_set_tag_loop_frame t fuel m _ _ m1 h1
  obtain ⟨hinv1, hroot, hnode⟩ :=
    xas_set_tag_loop_inv t fuel m _ _ m1 h1 (tag_inv_to_but hinv _ _)
  refine ⟨m1, ?_, hsh, hinv1, ?_, ?_⟩
  · unfold xas_set_tag
    rw [hv]
    exact h1
  · by_cases h0 : xas.xa_node = 0
    · rw [xas_get_tag_root m1 xas t h0, hroot h0]
    · obtain ⟨n1, hn1, hb⟩ := hnode h0
      have hl1 := linked_same_shape hsh hl
      rw [xas_get_tag_node m1 xas t _ n1 rfl hn1 (hl1.aligned _ n1 hn1), hb]
  · intro b n n1 hb hb1 q
    rcases hch b n n1 hb hb1 t q with h | ⟨_, h⟩
    · exact Or.inl h
    · exact Or.inr h

/-- `xas_clear_tag()` with a valid cursor on a slot of a linked array: it returns,
changes no entry and no link, and leaves the slot of the cursor without the tag. -/
theorem xas_clear_tag_spec {m : Mem} (hl : xa_linked m) {t : Nat} (ht : t < XA_MAX_TAGS)
    {xas : xa_state} (hv : xas_invalid xas = false)
    (hon : xas.xa_node = 0 ∨ ∃ n, m.nodes xas.xa_node = some n) {fuel : Nat}
    (hfuel : 11 ≤ fuel) :
    ∃ m1, xas_clear_tag fuel m xas t = some m1 ∧ xa_same_shape m m1 ∧
      xas_get_tag m1 xas t = some false := by
  have htot : ∃ m1, xas_clear_tag_loop fuel m xas.xa_node xas.xa_offset t = some m1 := by
    apply xas_clear_tag_loop_total t fuel m _ _ hl
    intro h0
    rcases hon with h | ⟨n, hn⟩
    · exact absurd h h0
    · exact ⟨n, hn, by omega⟩
  obtain ⟨m1, h1⟩ := htot
  obtain ⟨hsh, _, _, _, hroot, hnode⟩ := xas_clear_tag_loop_frame t fuel m _ _ m1 h1
  refine ⟨m1, ?_, hsh, ?_⟩
  · unfold xas_clear_tag
    rw [hv]
    exact h1
  · by_cases h0 : xas.xa_node = 0
    · rw [xas_get_tag_root m1 xas t h0, hroot h0 ht]
    · obtain ⟨n1, hn1, hb⟩ := hnode h0
      have hl1 := linked_same_shape hsh hl
      rw [xas_get_tag_node m1 xas t _ n1 rfl hn1 (hl1.aligned _ n1 hn1), hb]

/-- `xas_clear_tag()` with a valid cursor on a slot that holds no node, on a linked array
that satisfies the propagation invariant: it returns, changes no entry and no link, and
keeps the invariant; an array flag that is set only where a slot carries the tag stays
so. -/
theorem xas_clear_tag_inv_spec {m : Mem} (hl : xa_linked m) {t : Nat} (hinv : xa_tag_inv m t)
    {xas : xa_state} {e : Nat} (he : xa_is_node e = false) (hv : xas_invalid xas = false)
    (hcur : (xas.xa_node = 0 ∧ e = m.xa.xa_head) ∨
      ∃ n, m.nodes xas.xa_node = some n ∧ e = n.slots xas.xa_offset)
    {fuel : Nat} (hfuel : 11 ≤ fuel) :
    ∃ m1, xas_clear_tag fuel m xas t = some m1 ∧ xa_same_shape m m1 ∧ xa_tag_inv m1 t ∧
      (xas.xa_offset < XA_CHUNK_SIZE → t < XA_MAX_TAGS →
        (xa_tagged m.xa t = true →
          ∃ b n q, m.nodes b = some n ∧ q < XA_CHUNK_SIZE ∧ n.tags t q = true) →
        xa_tagged m1.xa t = true →
          ∃ b n q, m1.nodes b = some n ∧ q < XA_CHUNK_SIZE ∧ n.tags t q = true) := by
  have htot : ∃ m1, xas_clear_tag_loop fuel m xas.xa_node xas.xa_offset t = some m1 := by
    apply xas_clear_tag_loop_total t fuel m _ _ hl
    intro h0
    rcases hcur with ⟨h, _⟩ | ⟨n, hn, _⟩
    · exact absurd h h0
    · exact ⟨n, hn, by omega⟩
  obtain ⟨m1, h1⟩ := htot
  obtain ⟨hsh, _⟩ := xas_clear_tag_loop_frame t fuel m _ _ m1 h1
  have hchild : ∀ c nc, m.nodes c = some nc → nc.parent = xas.xa_node →
      (xas.xa_node ≠ 0 → nc.offset = xas.xa_offset) → ¬ xa_node_tagged nc t := by
    intro c nc hc hp ho _
    have hca := hl.aligned c nc hc
    rcases hcur with ⟨h0, hh⟩ | ⟨n, hn, hh⟩
    · have := hl.root c nc hc (hp.trans h0)
      rw [hh, this, xa_is_node_mk hca.1 hca.2] at he
      cases he
    · have hna := hl.aligned _ n hn
      have hsl := (linked_child_slot hl hc hn hp).2
      rw [ho (by omega), ← hh, he] at hsl
      cases hsl
  obtain ⟨hinv1, hx⟩ := xas_clear_tag_loop_inv t fuel m _ _ m1 hl hinv hchild h1
  refine ⟨m1, ?_, hsh, hinv1, hx⟩
  unfold xas_clear_tag
  rw [hv]
  exact h1

/-! ## C11: load in an error state -/

theorem xas_error_invalid {xas : xa_state} (h : xas_error xas ≠ 0) :
    xas_valid xas = false := by
  unfold xas_error xa_err xa_is_err at h
  cases hi : xa_is_internal xas.xa_node with
  | false =>
    rw [hi] at h
    exact absurd rfl h
  | true =>
    have h4 := (xa_is_internal_iff _).1 hi
    unfold xas_valid xas_invalid
    rw [and3_eq_mod4, h4]
    rfl

/-- C11: load in an error state does nothing. For every cursor whose node word carries an
error code, every array and every fuel, `xas_load()` returns NULL and leaves the cursor
(node word, offset, index and the rest) and the array as they were. -/
theorem C11_load_in_error_state (fuel : Nat) (m : Mem) (xas : xa_state)
    (herr : xas_error xas ≠ 0) : xas_load fuel m xas = some (0, m, xas) := by
  unfold xas_load xas_start
  rw [xas_error_invalid herr]
  simp only [Bool.false_eq_true, if_false, if_pos herr]
  exact xas_load_loop_non_node _ _ _ _ (by decide)

theorem C11_load_in_error_state_witness :
    xas_error enomem_xas = -12 ∧
    xas_load 3 two_level_mem enomem_xas = some (0, two_level_mem, enomem_xas) :=
  ⟨by decide, C11_load_in_error_state 3 two_level_mem enomem_xas (by decide)⟩

/-! ## C12: set then get -/

/-- C12: set then get. On a linked array that satisfies the tag propagation invariant
for tag `t` (a tagged node has the bit of its slot set in its parent, and the array flag
is set when the root node is tagged; along a path this is the bit in every ancestor and
the array flag), for every index `i` whose loaded entry is not NULL (a bare head at
index 0 included), `xa_set_tag(xa, i, t)` returns, and on the array it leaves
`xa_get_tag(xa, i, t)` returns true. -/
theorem C12_set_then_get (m : Mem) (i t fuel e : Nat) (m0 : Mem) (xas : xa_state)
    (hl : xa_linked m) (hinv : xa_tag_inv m t) (hfuel : 11 ≤ fuel)
    (hload : xas_load fuel m (XA_STATE i) = some (e, m0, xas)) (he : e ≠ 0) :
    ∃ m1, xa_set_tag fuel m i t = some m1 ∧ xa_get_tag fuel m1 i t = some (true, m1) := by
  obtain ⟨hm0, _, _, hcur⟩ := xas_load_on_slot fuel m i e m0 xas hload
  subst hm0
  have hvon : xas_invalid xas = false ∧
      (xas.xa_node = 0 ∨ ∃ n, m0.nodes xas.xa_node = some n) := by
    rcases hcur with ⟨_, h0⟩ | ⟨hx, _⟩ | ⟨n, hn, _⟩
    · exact absurd h0 he
    · rw [hx]
      exact ⟨xas_invalid_node _ 0 (by decide), Or.inl rfl⟩
    · exact ⟨(linked_node_valid hl hn xas rfl).1, Or.inr ⟨n, hn⟩⟩
  obtain ⟨m1, hset, hsh, hinv1, hget, _⟩ := xas_set_tag_spec hl hinv hvon.1 hvon.2 hfuel
  refine ⟨m1, ?_, ?_⟩
  · unfold xa_set_tag __xa_set_tag
    rw [hload]
    simp only []
    rw [if_pos he]
    exact hset
  · exact (xa_get_tag_of_load (linked_same_shape hsh hl) t fuel i e xas
      (xas_load_congr hl hsh fuel i e xas hload)).2.1 hinv1 hget

theorem C12_set_then_get_witness :
    ∃ m1, xa_set_tag 11 tagged_tree 69 0 = some m1 ∧
      xa_get_tag 11 m1 69 0 = some (true, m1) :=
  C12_set_then_get tagged_tree 69 0 11 (xa_mk_value 9) tagged_tree (tagged_tree_xas 69 5)
    tagged_tree_linked (tagged_tree_inv 0) (le_refl _) rfl (by decide)

/-! ## C13: clearing a tag always succeeds -/

/-- C13: clearing a tag always succeeds. On a linked array in which no empty (NULL) slot
carries tag `t` (no empty slot of a node has the bit, and the array flag, the tag of the
root slot, is clear when the head is NULL), for every index `i` and every tag `t` below
`XA_MAX_TAGS`, `xa_clear_tag(xa, i, t)` returns, and on the array it leaves
`xa_get_tag(xa, i, t)` returns false, whether or not the tag was set before. -/
theorem C13_clear_then_get (m : Mem) (i t fuel : Nat) (hl : xa_linked m)
    (hempty : ∀ a n o, m.nodes a = some n → o < XA_CHUNK_SIZE → n.slots o = 0 →
      n.tags t o = false)
    (hhead : m.xa.xa_head = 0 → xa_tagged m.xa t = false)
    (ht : t < XA_MAX_TAGS) (hfuel : 11 ≤ fuel) :
    ∃ m1, xa_clear_tag fuel m i t = some m1 ∧ xa_get_tag fuel m1 i t = some (false, m1) := by
  obtain ⟨e, xas, hload⟩ := xas_load_total hl fuel hfuel i
  obtain ⟨_, _, _, hcur⟩ := xas_load_on_slot fuel m i e m xas hload
  unfold xa_clear_tag __xa_clear_tag
  rw [hload]
  simp only []
  by_cases he : e = 0
  · rw [if_neg (not_not.2 he)]
    refine ⟨m, rfl, (xa_get_tag_of_load hl t fuel i e xas hload).1 ?_⟩
    rcases hcur with ⟨hx, _⟩ | ⟨hx, hh, _⟩ | ⟨n, hn, ho, hh⟩
    · rw [hx]
      exact xas_get_tag_invalid _ _ _ (xas_invalid_bounds _)
    · rw [hx, xas_get_tag_root m _ t rfl, hhead (hh.symm.trans he)]
    · rw [xas_get_tag_node m xas t _ n rfl hn (hl.aligned _ n hn),
        hempty _ n _ hn ho (hh.symm.trans he)]
  · rw [if_pos he]
    have hvon : xas_invalid xas = false ∧
        (xas.xa_node = 0 ∨ ∃ n, m.nodes xas.xa_node = some n) := by
      rcases hcur with ⟨_, h0⟩ | ⟨hx, _⟩ | ⟨n, hn, _⟩
      · exact absurd h0 he
      · rw [hx]
        exact ⟨xas_invalid_node _ 0 (by decide), Or.inl rfl⟩
      · exact ⟨(linked_node_valid hl hn xas rfl).1, Or.inr ⟨n, hn⟩⟩
    obtain ⟨m1, hclear, hsh, hget⟩ := xas_clear_tag_spec hl ht hvon.1 hvon.2 hfuel
    exact ⟨m1, hclear, (xa_get_tag_of_load (linked_same_shape hsh hl) t fuel i e xas
      (xas_load_congr hl hsh fuel i e xas hload)).1 hget⟩

theorem C13_clear_then_get_witness :
    ∃ m1, xa_clear_tag 11 tagged_tree 67 0 = some m1 ∧
      xa_get_tag 11 m1 67 0 = some (false, m1) :=
  C13_clear_then_get tagged_tree 67 0 11 tagged_tree_linked (tagged_tree_empty_clear 0).1
    (tagged_tree_empty_clear 0).2 (by decide) (le_refl _)

/-! ## C14: setting a tag on an empty slot -/

/-- C14, counterexample: the array `xa_init_flags(xa, XA_FLAGS_TAG(1))` leaves is empty
and loading index 0 yields NULL; `xa_set_tag(xa, 0, 1)` leaves it as it is, and
`xa_get_tag(xa, 0, 1)` returns true on it, before the call and after: the value is not
false on this empty array. -/
theorem C14_counterexample :
    (xa_init_flags bare_mem (XA_FLAGS_TAG 1)).xa.xa_head = 0 ∧
    xa_load 1 (xa_init_flags bare_mem (XA_FLAGS_TAG 1)) 0
      = some (0, xa_init_flags bare_mem (XA_FLAGS_TAG 1)) ∧
    xa_set_tag 1 (xa_init_flags bare_mem (XA_FLAGS_TAG 1)) 0 1
      = some (xa_init_flags bare_mem (XA_FLAGS_TAG 1)) ∧
    xa_get_tag 1 (xa_init_flags bare_mem (XA_FLAGS_TAG 1)) 0 1
      = some (true, xa_init_flags bare_mem (XA_FLAGS_TAG 1)) :=
  ⟨rfl, rfl, rfl, rfl⟩

/-- C14, amended: setting a tag on an empty slot has no effect. For every array, index
`i` and tag `t` such that loading `i` yields NULL (empty slot, or index outside the
current range of the array), `xa_set_tag(xa, i, t)` returns and leaves the array as it
was: the flags and the tag bitmaps of every node are unchanged, so `xa_get_tag(xa, i, t)`
returns the same value as before; that value is false on an empty array whose flag for
`t` is clear. -/
theorem C14_set_on_empty_slot (m : Mem) (i t fuel : Nat) (m0 : Mem) (xas : xa_state)
    (hload : xas_load fuel m (XA_STATE i) = some (0, m0, xas)) :
    xa_set_tag fuel m i t = some m ∧
    (∀ m1, xa_set_tag fuel m i t = some m1 →
      m1.xa.xa_flags = m.xa.xa_flags ∧
      (∀ a n1, m1.nodes a = some n1 → ∃ n, m.nodes a = some n ∧ n1.tags = n.tags) ∧
      xa_get_tag fuel m1 i t = xa_get_tag fuel m i t) ∧
    (m.xa.xa_head = 0 → xa_tagged m.xa t = false →
      xa_get_tag fuel m i t = some (false, m)) := by
  obtain ⟨hm0, _⟩ := xas_load_frame fuel m (XA_STATE i) 0 m0 xas hload
  subst hm0
  have hset : xa_set_tag fuel m0 i t = some m0 := by
    unfold xa_set_tag __xa_set_tag
    rw [hload]
    simp
  refine ⟨hset, ?_, ?_⟩
  · intro m1 h1
    rw [hset] at h1
    cases h1
    exact ⟨rfl, fun a n1 hn => ⟨n1, hn, rfl⟩, rfl⟩
  · intro hh hfl
    have hb : xa_is_node m0.xa.xa_head = false := by
      rw [hh]
      decide
    rw [xa_get_tag_bare m0 hb, hfl]
    simp

theorem C14_set_on_empty_slot_witness :
    xa_set_tag 11 tagged_tree 66 0 = some tagged_tree ∧
    (∀ m1, xa_set_tag 11 tagged_tree 66 0 = some m1 →
      m1.xa.xa_flags = tagged_tree.xa.xa_flags ∧
      (∀ a n1, m1.nodes a = some n1 → ∃ n, tagged_tree.nodes a = some n ∧ n1.tags = n.tags) ∧
      xa_get_tag 11 m1 66 0 = xa_get_tag 11 tagged_tree 66 0) ∧
    (tagged_tree.xa.xa_head = 0 → xa_tagged tagged_tree.xa 0 = false →
      xa_get_tag 11 tagged_tree 66 0 = some (false, tagged_tree)) :=
  C14_set_on_empty_slot tagged_tree 66 0 11 tagged_tree (tagged_tree_xas 66 2) rfl

/-! ## C15: `xas_set_tag()` keeps the propagation invariant -/

/-- C15: xas_set_tag preserves the tag propagation invariant. On a linked array that
satisfies the propagation invariant for tag `t` (a tagged node has the bit of its slot
set in its parent, and the array flag is set when the root node is tagged: so every
ancestor of a tagged slot has the bit of the subtree that contains it, and the array
flag is set), with a valid cursor positioned on a slot of the tree (the root slot or a
slot of a node), `xas_set_tag(xas, t)` returns; on the array it leaves the invariant
holds again, the array flag is set whenever a slot of a node carries the tag, and the
slot of the cursor has the tag. -/
theorem C15_set_tag_keeps_invariant (m : Mem) (xas : xa_state) (t fuel : Nat)
    (hl : xa_linked m) (hinv : xa_tag_inv m t) (hv : xas_invalid xas = false)
    (hon : xas.xa_node = 0 ∨ ∃ n, m.nodes xas.xa_node = some n) (hfuel : 11 ≤ fuel) :
    ∃ m1, xas_set_tag fuel m xas t = some m1 ∧ xa_tag_inv m1 t ∧
      (∀ a n, m1.nodes a = some n → xa_node_tagged n t → xa_tagged m1.xa t = true) ∧
      xas_get_tag m1 xas t = some true := by
  obtain ⟨m1, hset, hsh, hinv1, hget, _⟩ := xas_set_tag_spec hl hinv hv hon hfuel
  exact ⟨m1, hset, hinv1,
    fun a n hn htg => tag_inv_flag (linked_same_shape hsh hl) hinv1 hn htg, hget⟩

theorem C15_set_tag_keeps_invariant_witness :
    ∃ m1, xas_set_tag 11 tagged_tree (tagged_tree_xas 69 5) 0 = some m1 ∧ xa_tag_inv m1 0 ∧
      (∀ a n, m1.nodes a = some n → xa_node_tagged n 0 → xa_tagged m1.xa 0 = true) ∧
      xas_get_tag m1 (tagged_tree_xas 69 5) 0 = some true :=
  C15_set_tag_keeps_invariant tagged_tree (tagged_tree_xas 69 5) 0 11 tagged_tree_linked
    (tagged_tree_inv 0) (by decide) (Or.inr ⟨tagged_tree_leaf, rfl⟩) (le_refl _)

/-! ## C16: `xas_clear_tag()` keeps the propagation invariant -/

/-- C16: xas_clear_tag preserves the tag propagation invariant. On a linked array that
satisfies the propagation invariant for tag `t` (a tagged node has the bit of its slot
set in its parent, and the array flag is set when the root node is tagged), with the
cursor positioned by `xas_load()` from a cursor of `xa_shift == 0`, the slot of the
cursor holds no node entry, `xas_clear_tag(xas, t)` returns, and the invariant holds on
the array it leaves: the bit of a slot a node hangs from is clear only when that node
has no bit of `t` left. -/
theorem C16_clear_tag_keeps_invariant (m : Mem) (xas0 xas : xa_state) (e t fuel0 fuel : Nat)
    (m0 : Mem) (hl : xa_linked m) (hinv : xa_tag_inv m t) (hs : xas0.xa_shift = 0)
    (hload : xas_load fuel0 m xas0 = some (e, m0, xas)) (hfuel : 11 ≤ fuel) :
    xa_is_node e = false ∧
    ∃ m1, xas_clear_tag fuel m xas t = some m1 ∧ xa_tag_inv m1 t ∧
      ∀ c nc p, m1.nodes c = some nc → nc.parent ≠ 0 → m1.nodes nc.parent = some p →
        p.tags t nc.offset = false → ¬ xa_node_tagged nc t := by
  obtain ⟨_, he, hcur⟩ := xas_load_slot fuel0 m xas0 e m0 xas hs hload
  refine ⟨he, ?_⟩
  have hfin : ∀ m1, xa_tag_inv m1 t →
      ∀ c nc p, m1.nodes c = some nc → nc.parent ≠ 0 → m1.nodes nc.parent = some p →
        p.tags t nc.offset = false → ¬ xa_node_tagged nc t := by
    intro m1 hinv1 c nc p hc hp hpn hb htg
    rw [hinv1.parent_tagged c nc p hc hp hpn htg] at hb
    cases hb
  cases hv : xas_invalid xas with
  | true =>
    refine ⟨m, ?_, hinv, hfin m hinv⟩
    unfold xas_clear_tag
    rw [hv]
    rfl
  | false =>
    have hcur1 : (xas.xa_node = 0 ∧ e = m.xa.xa_head) ∨
        ∃ n, m.nodes xas.xa_node = some n ∧ e = n.slots xas.xa_offset := by
      rcases hcur with ⟨h, _⟩ | h | h
      · rw [hv] at h
        cases h
      · exact Or.inl h
      · exact Or.inr h
    obtain ⟨m1, hclear, _, hinv1, _⟩ := xas_clear_tag_inv_spec hl hinv he hv hcur1 hfuel
    exact ⟨m1, hclear, hinv1, hfin m1 hinv1⟩

theorem C16_clear_tag_keeps_invariant_witness :
    xa_is_node (xa_mk_value 7) = false ∧
    ∃ m1, xas_clear_tag 11 tagged_tree (tagged_tree_xas 67 3) 0 = some m1 ∧ xa_tag_inv m1 0 ∧
      ∀ c nc p, m1.nodes c = some nc → nc.parent ≠ 0 → m1.nodes nc.parent = some p →
        p.tags 0 nc.offset = false → ¬ xa_node_tagged nc 0 :=
  C16_clear_tag_keeps_invariant tagged_tree (XA_STATE 67) (tagged_tree_xas 67 3)
    (xa_mk_value 7) 0 11 11 tagged_tree tagged_tree_linked (tagged_tree_inv 0) rfl rfl
    (le_refl _)

/-! ## C17: the array flag of a tag stays exact -/

/-- C17: array-level tag presence stays exact. On a linked array whose head is a node,
that satisfies the propagation invariant for tag `t` and whose flag for `t` is exact
(set if and only if some slot of some node has the tag), for every index `i` and every
tag `t` below `XA_MAX_TAGS`, `xa_set_tag(xa, i, t)` and `xa_clear_tag(xa, i, t)` return,
and on the array each of them leaves the flag for `t` is exact again (and the
propagation invariant holds again). -/
theorem C17_tag_presence_exact (m : Mem) (i t fuel : Nat) (hl : xa_linked m)
    (hhead : xa_is_node m.xa.xa_head = true) (hinv : xa_tag_inv m t)
    (hex : xa_tag_exact m t) (ht : t < XA_MAX_TAGS) (hfuel : 11 ≤ fuel) :
    (∃ m1, xa_set_tag fuel m i t = some m1 ∧ xa_tag_exact m1 t ∧ xa_tag_inv m1 t) ∧
    (∃ m2, xa_clear_tag fuel m i t = some m2 ∧ xa_tag_exact m2 t ∧ xa_tag_inv m2 t) := by
  obtain ⟨e, xas, hload⟩ := xas_load_total hl fuel hfuel i
  obtain ⟨_, hnn, _, hcur⟩ := xas_load_on_slot fuel m i e m xas hload
  unfold xa_set_tag __xa_set_tag xa_clear_tag __xa_clear_tag
  rw [hload]
  simp only []
  by_cases he : e = 0
  · rw [if_neg (not_not.2 he), if_neg (not_not.2 he)]
    exact ⟨⟨m, rfl, hex, hinv⟩, ⟨m, rfl, hex, hinv⟩⟩
  · rw [if_pos he, if_pos he]
    -- the cursor is on a slot of a node: the head is a node
    have hnode : ∃ n, m.nodes xas.xa_node = some n ∧ xas.xa_offset < XA_CHUNK_SIZE ∧
        e = n.slots xas.xa_offset := by
      rcases hcur with ⟨_, h0⟩ | ⟨_, hh, _⟩ | h
      · exact absurd h0 he
      · rw [hh, hhead] at hnn
        cases hnn
      · exact h
    obtain ⟨n, hn, ho, hen⟩ := hnode
    have hv := (linked_node_valid hl hn xas rfl).1
    constructor
    · obtain ⟨m1, hset, hsh, hinv1, hget, _⟩ :=
        xas_set_tag_spec hl hinv hv (Or.inr ⟨n, hn⟩) hfuel
      have hl1 := linked_same_shape hsh hl
      obtain ⟨n1, hn1, _⟩ := (hsh.2 _).2 n hn
      rw [xas_get_tag_node m1 xas t _ n1 rfl hn1 (hl1.aligned _ n1 hn1)] at hget
      have hbit : n1.tags t xas.xa_offset = true := by simpa using hget
      exact ⟨m1, hset, tag_exact_of hl1 hinv1 (fun _ => ⟨_, n1, _, hn1, ho, hbit⟩), hinv1⟩
    · obtain ⟨m2, hclear, hsh, hinv2, hx⟩ :=
        xas_clear_tag_inv_spec hl hinv hnn hv (Or.inr ⟨n, hn, hen⟩) hfuel
      exact ⟨m2, hclear, tag_exact_of (linked_same_shape hsh hl) hinv2 (hx ho ht hex.1),
        hinv2⟩

theorem C17_tag_presence_exact_witness :
    (∃ m1, xa_set_tag 11 tagged_tree 69 0 = some m1 ∧ xa_tag_exact m1 0 ∧ xa_tag_inv m1 0) ∧
    (∃ m2, xa_clear_tag 11 tagged_tree 69 0 = some m2 ∧ xa_tag_exact m2 0 ∧
      xa_tag_inv m2 0) :=
  C17_tag_presence_exact tagged_tree 69 0 11 tagged_tree_linked (by decide)
    (tagged_tree_inv 0) tagged_tree_exact (by decide) (le_refl _)

/-! ## C18: the tags of two indices are independent -/

/-- C18: tag independence across indices. On a linked array that satisfies the
propagation invariant for tag `t`, for all indices `i` and `j` whose loads end on
different slots (the cursors the two loads leave differ in the node or in the offset,
when both are on a slot), `xa_set_tag(xa, i, t)` returns, `xa_get_tag(xa, j, t)` returns
before it and after it, and the answer is the same. -/
theorem C18_tag_independence (m : Mem) (i j t fuel ei ej : Nat) (mi mj : Mem)
    (xi xj : xa_state) (hl : xa_linked m) (hinv : xa_tag_inv m t) (hfuel : 11 ≤ fuel)
    (hi : xas_load fuel m (XA_STATE i) = some (ei, mi, xi))
    (hj : xas_load fuel m (XA_STATE j) = some (ej, mj, xj))
    (hne : xas_invalid xi = false → xas_invalid xj = false →
      ¬ (xi.xa_node = xj.xa_node ∧ xi.xa_offset = xj.xa_offset)) :
    ∃ m1 b, xa_set_tag fuel m i t = some m1 ∧ xa_get_tag fuel m j t = some (b, m) ∧
      xa_get_tag fuel m1 j t = some (b, m1) := by
  obtain ⟨hmi, _, _, hci⟩ := xas_load_on_slot fuel m i ei mi xi hi
  obtain ⟨hmj, hnj, _, hcj⟩ := xas_load_on_slot fuel m j ej mj xj hj
  subst hmj
  subst hmi
  -- the answer of `xa_get_tag()` is the bit of the slot the load of `j` ends on
  have hans : ∀ m1 : Mem, xa_linked m1 → xa_tag_inv m1 t →
      xas_load fuel m1 (XA_STATE j) = some (ej, m1, xj) → ∀ b,
      xas_get_tag m1 xj t = some b → xa_get_tag fuel m1 j t = some (b, m1) := by
    intro m1 hl1 hinv1 hj1 b hb
    obtain ⟨hA, hB, _⟩ := xa_get_tag_of_load hl1 t fuel j ej xj hj1
    cases b with
    | false => exact hA hb
    | true => exact hB hinv1 hb
  obtain ⟨_, _, b, hb⟩ := xa_get_tag_of_load hl t fuel j ej xj hj
  unfold xa_set_tag __xa_set_tag
  rw [hi]
  simp only []
  by_cases he : ei = 0
  · rw [if_neg (not_not.2 he)]
    exact ⟨mi, b, rfl, hans mi hl hinv hj b hb, hans mi hl hinv hj b hb⟩
  · rw [if_pos he]
    have hvon : xas_invalid xi = false ∧
        (xi.xa_node = 0 ∨ ∃ n, mi.nodes xi.xa_node = some n) := by
      rcases hci with ⟨_, h0⟩ | ⟨hx, _⟩ | ⟨n, hn, _⟩
      · exact absurd h0 he
      · rw [hx]
        exact ⟨xas_invalid_node _ 0 (by decide), Or.inl rfl⟩
      · exact ⟨(linked_node_valid hl hn xi rfl).1, Or.inr ⟨n, hn⟩⟩
    obtain ⟨m1, hset, hsh, hinv1, _, hch⟩ := xas_set_tag_spec hl hinv hvon.1 hvon.2 hfuel
    have hl1 := linked_same_shape hsh hl
    refine ⟨m1, b, hset, hans mi hl hinv hj b hb,
      hans m1 hl1 hinv1 (xas_load_congr hl hsh fuel j ej xj hj) b ?_⟩
    rw [← hb]
    rcases hcj with ⟨hx, _⟩ | ⟨hx, hh, hj0⟩ | ⟨n, hn, ho, hh⟩
    · rw [hx, xas_get_tag_invalid _ _ _ (xas_invalid_bounds _),
        xas_get_tag_invalid _ _ _ (xas_invalid_bounds _)]
    · -- `j` is index 0 of an array whose head is no node: so is `i`
      exfalso
      have hbare : xa_is_node mi.xa.xa_head = false := by
        rw [← hh]
        exact hnj
      have hvj : xas_invalid xj = false := by
        rw [hx]
        exact xas_invalid_node _ 0 (by decide)
      rcases hci with ⟨_, h0⟩ | ⟨hxi, _, _⟩ | ⟨n, hn, _⟩
      · exact he h0
      · apply hne hvon.1 hvj
        rw [hx, hxi]
        exact ⟨rfl, rfl⟩
      · have := linked_has_root hl 11 _ n hn (by omega)
        rw [hbare] at this
        cases this
    · obtain ⟨n1, hn1, _⟩ := (hsh.2 _).2 n hn
      have hvj := (linked_node_valid hl hn xj rfl).1
      rw [xas_get_tag_node m1 xj t _ n1 rfl hn1 (hl1.aligned _ n1 hn1),
        xas_get_tag_node mi xj t _ n rfl hn (hl.aligned _ n hn)]
      rcases hch _ n n1 hn hn1 xj.xa_offset with h | ⟨h1, h2⟩ | ⟨c, nc, hc, hcp, hco⟩
      · rw [h]
      · exact absurd ⟨h1.symm, h2.symm⟩ (hne hvon.1 hvj)
      · exfalso
        have hsl := (linked_child_slot hl hc hn hcp).2
        rw [hco, ← hh, hnj] at hsl
        cases hsl

theorem C18_tag_independence_witness :
    ∃ m1 b, xa_set_tag 11 tagged_tree 69 0 = some m1 ∧
      xa_get_tag 11 tagged_tree 67 0 = some (b, tagged_tree) ∧
      xa_get_tag 11 m1 67 0 = some (b, m1) :=
  C18_tag_independence tagged_tree 69 67 0 11 (xa_mk_value 9) (xa_mk_value 7) tagged_tree
    tagged_tree (tagged_tree_xas 69 5) (tagged_tree_xas 67 3) tagged_tree_linked
    (tagged_tree_inv 0) (le_refl _) rfl rfl (fun _ _ => by decide)

/-! ## C19: setting one tag does not set another -/

/-- C19: setting one tag will not set another tag. For every array, every cursor and all
distinct tags `s` and `t` below `XA_MAX_TAGS`, the array `xas_set_tag(xas, t)` leaves and
the array `xas_clear_tag(xas, t)` leaves have the array flag for `s` and the bitmap for
`s` of every node as before (and the same nodes), so `xa_get_tag(xa, j, s)` gives the same
answer as before for every index `j`; both calls return when the array is linked and the
cursor is invalid or on a slot. -/
theorem C19_other_tag_unchanged (m : Mem) (xas : xa_state) (s t fuel : Nat) (hst : s ≠ t)
    (hs : s < XA_MAX_TAGS) (ht : t < XA_MAX_TAGS) :
    (∀ m1, xas_set_tag fuel m xas t = some m1 ∨ xas_clear_tag fuel m xas t = some m1 →
      xa_tagged m1.xa s = xa_tagged m.xa s ∧
      (∀ b n n1, m.nodes b = some n → m1.nodes b = some n1 → n1.tags s = n.tags s) ∧
      (∀ b, (m1.nodes b).isSome = (m.nodes b).isSome) ∧
      ∀ f j, (xa_get_tag f m1 j s).map Prod.fst = (xa_get_tag f m j s).map Prod.fst) ∧
    (xa_linked m → 11 ≤ fuel →
      (xas_invalid xas = true ∨ xas.xa_node = 0 ∨ ∃ n, m.nodes xas.xa_node = some n) →
      (∃ m1, xas_set_tag fuel m xas t = some m1) ∧
        ∃ m1, xas_clear_tag fuel m xas t = some m1) := by
  have hfin : ∀ m1, xa_same_shape m m1 → xa_tagged m1.xa s = xa_tagged m.xa s →
      (∀ b n n1, m.nodes b = some n → m1.nodes b = some n1 → ∀ q,
        n1.tags s q = n.tags s q) →
      xa_tagged m1.xa s = xa_tagged m.xa s ∧
      (∀ b n n1, m.nodes b = some n → m1.nodes b = some n1 → n1.tags s = n.tags s) ∧
      (∀ b, (m1.nodes b).isSome = (m.nodes b).isSome) ∧
      ∀ f j, (xa_get_tag f m1 j s).map Prod.fst = (xa_get_tag f m j s).map Prod.fst := by
    intro m1 hsh hfl htg
    refine ⟨hfl, fun b n n1 hb hb1 => funext (htg b n n1 hb hb1), fun b => ?_,
      fun f j => xa_get_tag_congr hsh s hfl htg f j⟩
    cases hb : m.nodes b with
    | none => rw [(hsh.2 b).1 hb]
    | some n =>
      obtain ⟨n1, hn1, _⟩ := (hsh.2 b).2 n hb
      rw [hn1]
      rfl
  constructor
  · intro m1 h
    rcases h with h | h
    · unfold xas_set_tag at h
      split_ifs at h
      · cases h
        exact hfin m (same_shape_refl m) rfl (fun b n n1 hb hb1 q => by
          rw [hb] at hb1
          cases hb1
          rfl)
      · obtain ⟨hsh, _, hfl, hch⟩ := xas_set_tag_loop_frame t fuel m _ _ m1 h
        refine hfin m1 hsh (hfl s hst) (fun b n n1 hb hb1 q => ?_)
        rcases hch b n n1 hb hb1 s q with h1 | ⟨h1, _⟩
        · exact h1
        · exact absurd h1 hst
    · unfold xas_clear_tag at h
      split_ifs at h
      · cases h
        exact hfin m (same_shape_refl m) rfl (fun b n n1 hb hb1 q => by
          rw [hb] at hb1
          cases hb1
          rfl)
      · obtain ⟨hsh, _, hfl, hch, _⟩ := xas_clear_tag_loop_frame t fuel m _ _ m1 h
        exact hfin m1 hsh (hfl s hst hs ht) (fun b n n1 hb hb1 q => hch b n n1 hb hb1 s hst q)
  · intro hl hfuel hon
    have hup : xas.xa_node ≠ 0 → xas_invalid xas = false →
        ∃ n, m.nodes xas.xa_node = some n ∧ 66 ≤ n.shift + 6 * fuel := by
      intro h0 hv
      rcases hon with h | h | ⟨n, hn⟩
      · rw [hv] at h
        cases h
      · exact absurd h h0
      · exact ⟨n, hn, by omega⟩
    unfold xas_set_tag xas_clear_tag
    cases hv : xas_invalid xas with
    | true => exact ⟨⟨m, rfl⟩, ⟨m, rfl⟩⟩
    | false =>
      exact ⟨xas_set_tag_loop_total t fuel m _ _ hl (fun h0 => hup h0 hv),
        xas_clear_tag_loop_total t fuel m _ _ hl (fun h0 => hup h0 hv)⟩

theorem C19_other_tag_unchanged_witness :
    (∀ m1, xas_set_tag 11 tagged_tree (tagged_tree_xas 69 5) 0 = some m1 ∨
        xas_clear_tag 11 tagged_tree (tagged_tree_xas 69 5) 0 = some m1 →
      xa_tagged m1.xa 1 = xa_tagged tagged_tree.xa 1 ∧
      (∀ b n n1, tagged_tree.nodes b = some n → m1.nodes b = some n1 →
        n1.tags 1 = n.tags 1) ∧
      (∀ b, (m1.nodes b).isSome = (tagged_tree.nodes b).isSome) ∧
      ∀ f j, (xa_get_tag f m1 j 1).map Prod.fst =
        (xa_get_tag f tagged_tree j 1).map Prod.fst) ∧
    (xa_linked tagged_tree → 11 ≤ 11 →
      (xas_invalid (tagged_tree_xas 69 5) = true ∨ (tagged_tree_xas 69 5).xa_node = 0 ∨
        ∃ n, tagged_tree.nodes (tagged_tree_xas 69 5).xa_node = some n) →
      (∃ m1, xas_set_tag 11 tagged_tree (tagged_tree_xas 69 5) 0 = some m1) ∧
        ∃ m1, xas_clear_tag 11 tagged_tree (tagged_tree_xas 69 5) 0 = some m1) :=
  C19_other_tag_unchanged tagged_tree (tagged_tree_xas 69 5) 1 0 11 (by decide) (by decide)
    (by decide)

/-! ## C20: initialisation -/

theorem C20_counterexample :
    (xa_init_flags bare_mem (XA_FLAGS_TAG 0)).xa.xa_head = 0 ∧
    xa_tagged (xa_init_flags bare_mem (XA_FLAGS_TAG 0)).xa 0 = true ∧
    xa_get_tag 1 (xa_init_flags bare_mem (XA_FLAGS_TAG 0)) 0 0
      = some (true, xa_init_flags bare_mem (XA_FLAGS_TAG 0)) := by
  refine ⟨rfl, by decide, ?_⟩
  rw [xa_get_tag_bare _ (by decide)]
  rfl

/-- C20, amended: `xa_init_flags(xa, flags)` sets the head to NULL and stores `flags` as
they are. After it `xa_load` returns NULL for every index; the array-level presence of tag
`tag` is the bit `XA_FLAGS_TAG(tag)` of `flags`; `xa_get_tag` is false for every index
other than 0 and is that bit for index 0, so it is false for every index and tag when
`flags` has no tag bit. -/
theorem C20_init_stores_flags (m : Mem) (flags index tag fuel : Nat) :
    (xa_init_flags m flags).xa.xa_head = 0 ∧
    (xa_init_flags m flags).xa.xa_flags = flags ∧
    xa_load (fuel + 1) (xa_init_flags m flags) index = some (0, xa_init_flags m flags) ∧
    xa_tagged (xa_init_flags m flags).xa tag = ((flags &&& XA_FLAGS_TAG tag) != 0) ∧
    xa_get_tag fuel (xa_init_flags m flags) index tag
      = some (decide (index = 0) && ((flags &&& XA_FLAGS_TAG tag) != 0),
          xa_init_flags m flags) ∧
    ((flags &&& XA_FLAGS_TAG tag) = 0 →
      xa_get_tag fuel (xa_init_flags m flags) index tag = some (false, xa_init_flags m flags)) := by
  have hb : xa_is_node (xa_init_flags m flags).xa.xa_head = false := by
    change xa_is_node 0 = false
    decide
  have hg := xa_get_tag_bare (xa_init_flags m flags) hb fuel index tag
  refine ⟨rfl, rfl, xa_load_empty _ rfl fuel index, rfl, hg, fun h0 => ?_⟩
  rw [hg]
  have : xa_tagged (xa_init_flags m flags).xa tag = false := by
    change ((flags &&& XA_FLAGS_TAG tag) != 0) = false
    rw [h0]
    rfl
  rw [this, Bool.and_false]

/-! ## The entry a load returns, and a second load -/

/-- The word of a node entry, less its tag bits, is a valid cursor position: it is not
NULL and its lowest two bits are clear. -/
theorem xa_to_node_valid {e : Nat} (h : xa_is_node e = true) (xas : xa_state) :
    xas_invalid { xas with xa_node := xa_to_node e } = false ∧ xa_to_node e ≠ 0 := by
  have h4 := (xa_is_internal_iff e).1 (xa_is_node_internal h)
  have hgt : e > 4096 := by
    unfold xa_is_node at h
    simp only [Bool.and_eq_true, decide_eq_true_eq] at h
    exact h.2
  have hm : xa_to_node e % 4 = 0 := by
    unfold xa_to_node
    omega
  refine ⟨xas_invalid_node _ _ hm, ?_⟩
  unfold xa_to_node
  omega

/-- The loop of `xas_load()` returns a node entry only when the shift of the cursor is
above the shift of that node. -/
theorem xas_load_loop_node : ∀ (f e : Nat) (m : Mem) (xas : xa_state) (e1 : Nat) (m1 : Mem)
    (x1 : xa_state), xas_load_loop f e m xas = some (e1, m1, x1) → xa_is_node e1 = true →
    ∃ n, m.nodes (xa_to_node e1) = some n ∧ n.shift < x1.xa_shift := by
  intro f
  induction f with
  | zero =>
    intro e m xas e1 m1 x1 h hn1
    unfold xas_load_loop at h
    split_ifs at h with hn
    simp only [Option.some.injEq, Prod.mk.injEq] at h
    rw [h.1] at hn
    exact absurd hn1 hn
  | succ f ih =>
    intro e m xas e1 m1 x1 h hn1
    unfold xas_load_loop at h
    split_ifs at h with hn
    · cases hm : m.nodes (xa_to_node e) with
      | none => simp [hm] at h
      | some node =>
        simp only [hm] at h
        split_ifs at h with hsh
        · simp only [Option.some.injEq, Prod.mk.injEq] at h
          obtain ⟨he, _, hx⟩ := h
          subst he hx
          exact ⟨node, hm, hsh⟩
        · cases hd : xas_descend m xas (xa_to_node e) with
          | none => simp [hd] at h
          | some r =>
            obtain ⟨e2, m2, x2⟩ := r
            simp only [hd] at h
            obtain ⟨hm2, _⟩ := xas_descend_frame m xas _ e2 m2 x2 hd
            subst hm2
            exact ih e2 m2 x2 e1 m1 x1 h hn1
    · simp only [Option.some.injEq, Prod.mk.injEq] at h
      rw [h.1] at hn
      exact absurd hn1 hn

/-- The loop of `xas_load()` is at rest on its result: started again from the entry it
returned and the cursor it left, with as much fuel, it returns them as they are. -/
theorem xas_load_loop_rest : ∀ (f e : Nat) (m : Mem) (xas : xa_state) (e1 : Nat) (m1 : Mem)
    (x1 : xa_state), xas_load_loop f e m xas = some (e1, m1, x1) →
    ∀ g, f ≤ g → xas_load_loop g e1 m x1 = some (e1, m, x1) := by
  intro f
  induction f with
  | zero =>
    intro e m xas e1 m1 x1 h g _
    unfold xas_load_loop at h
    split_ifs at h with hn
    simp only [Option.some.injEq, Prod.mk.injEq] at h
    obtain ⟨he, _, hx⟩ := h
    subst he hx
    exact xas_load_loop_non_node _ _ _ _ (by simpa using hn)
  | succ f ih =>
    intro e m xas e1 m1 x1 h g hg
    have h0 := h
    unfold xas_load_loop at h
    split_ifs at h with hn
    · cases hm : m.nodes (xa_to_node e) with
      | none => simp [hm] at h
      | some node =>
        simp only [hm] at h
        split_ifs at h with hsh
        · simp only [Option.some.injEq, Prod.mk.injEq] at h
          obtain ⟨he, hm1, hx⟩ := h
          subst he hm1 hx
          exact xas_load_loop_mono _ _ _ _ _ h0 g hg
        · cases hd : xas_descend m xas (xa_to_node e) with
          | none => simp [hd] at h
          | some r =>
            obtain ⟨e2, m2, x2⟩ := r
            simp only [hd] at h
            obtain ⟨hm2, _⟩ := xas_descend_frame m xas _ e2 m2 x2 hd
            subst hm2
            exact ih e2 m2 x2 e1 m1 x1 h g (by omega)
    · simp only [Option.some.injEq, Prod.mk.injEq] at h
      obtain ⟨he, _, hx⟩ := h
      subst he hx
      exact xas_load_loop_non_node _ _ _ _ (by simpa using hn)

/-- A step of `xas_descend()` into the node of a node entry leaves a valid cursor on a
slot, whose entry it returns. -/
theorem xas_descend_reload (m : Mem) (xas : xa_state) (e e1 : Nat) (m1 : Mem)
    (x1 : xa_state) (hn : xa_is_node e = true)
    (h : xas_descend m xas (xa_to_node e) = some (e1, m1, x1)) :
    xas_valid x1 = true ∧ xas_reload m x1 = some e1 := by
  cases hm : m.nodes (xa_to_node e) with
  | none =>
    unfold xas_descend at h
    simp [hm] at h
  | some n =>
    obtain ⟨e2, x2, hd, hx2n, _, he2, _⟩ := xas_descend_slot m xas _ n hm
    rw [hd] at h
    simp only [Option.some.injEq, Prod.mk.injEq] at h
    obtain ⟨he, _, hx⟩ := h
    subst he hx
    obtain ⟨hv, h0⟩ := xa_to_node_valid hn x2
    have hx2 : x2 = { x2 with xa_node := xa_to_node e } := by
      cases x2
      simp only [xa_state.mk.injEq, true_and]
      exact hx2n
    rw [← hx2] at hv
    constructor
    · unfold xas_valid
      rw [hv]
      rfl
    · unfold xas_reload xa_entry
      have hb : (x2.xa_node != 0) = true := by
        rw [hx2n]
        simpa using h0
      rw [if_pos hb, hx2n, hm, he2]

/-- The loop of `xas_load()` keeps the cursor on the entry: it returns at once, with the
entry and the cursor it was given, or it ends with a valid cursor on the slot of the
entry it returns. -/
theorem xas_load_loop_reload : ∀ (f e : Nat) (m : Mem) (xas : xa_state) (e1 : Nat) (m1 : Mem)
    (x1 : xa_state), xas_load_loop f e m xas = some (e1, m1, x1) →
    (xas_valid x1 = true ∧ xas_reload m x1 = some e1) ∨ (x1 = xas ∧ e1 = e) := by
  intro f
  induction f with
  | zero =>
    intro e m xas e1 m1 x1 h
    unfold xas_load_loop at h
    split_ifs at h with hn
    simp only [Option.some.injEq, Prod.mk.injEq] at h
    exact Or.inr ⟨h.2.2.symm, h.1.symm⟩
  | succ f ih =>
    intro e m xas e1 m1 x1 h
    unfold xas_load_loop at h
    split_ifs at h with hn
    · cases hm : m.nodes (xa_to_node e) with
      | none => simp [hm] at h
      | some node =>
        simp only [hm] at h
        split_ifs at h with hsh
        · simp only [Option.some.injEq, Prod.mk.injEq] at h
          exact Or.inr ⟨h.2.2.symm, h.1.symm⟩
        · cases hd : xas_descend m xas (xa_to_node e) with
          | none => simp [hd] at h
          | some r =>
            obtain ⟨e2, m2, x2⟩ := r
            simp only [hd] at h
            obtain ⟨hm2, _⟩ := xas_descend_frame m xas _ e2 m2 x2 hd
            subst hm2
            have h2 := xas_descend_reload m2 xas e e2 m2 x2 hn hd
            rcases ih e2 m2 x2 e1 m1 x1 h with h3 | ⟨hx, he⟩
            · exact Or.inl h3
            · subst hx he
              exact Or.inl h2
    · simp only [Option.some.injEq, Prod.mk.injEq] at h
      exact Or.inr ⟨h.2.2.symm, h.1.symm⟩

/-! ## A second `xas_start()`, a second `xas_load()` -/

theorem xas_start_valid (m : Mem) (x : xa_state) (e : Nat) (hv : xas_valid x = true)
    (hr : xas_reload m x = some e) : xas_start m x = some (e, m, x) := by
  unfold xas_start
  rw [if_pos hv, hr]

/-- `xas_start()` with a cursor that is neither valid nor in an error state and an index
out of the scope of the array: NULL, and the cursor in the bounds state. -/
theorem xas_start_out (m : Mem) (xas : xa_state) (hv : xas_valid xas = false)
    (herr : xas_error xas = 0)
    (hout : (xa_is_node m.xa.xa_head = false ∧ xas.xa_index ≠ 0) ∨
      (xa_is_node m.xa.xa_head = true ∧ ∃ hn, m.nodes (xa_to_node m.xa.xa_head) = some hn ∧
        xas.xa_index >>> hn.shift > XA_CHUNK_MASK)) :
    xas_start m xas = some (0, m, { xas with xa_node := XAS_BOUNDS }) := by
  unfold xas_start
  rw [hv]
  simp only [Bool.false_eq_true, if_false, herr, ne_eq, not_true_eq_false, xa_head,
    set_bounds]
  rcases hout with ⟨hb, hi⟩ | ⟨hb, hn, hh, hi⟩
  · simp [hb, hi]
  · simp [hb, hh, hi]

/-- `xas_start()` is at rest on its result: called again with the cursor it left, it
returns the same entry and leaves the cursor as it is; a valid cursor it leaves is on the
slot of the entry, and a cursor it leaves invalid, when not in an error state, is in the
bounds state. -/
theorem xas_start_again (m : Mem) (xas : xa_state) (e0 : Nat) (m0 : Mem) (x0 : xa_state)
    (h : xas_start m xas = some (e0, m0, x0)) :
    m0 = m ∧ xas_start m x0 = some (e0, m, x0) ∧
    (xas_valid x0 = true → xas_reload m x0 = some e0) ∧
    (xas_error xas = 0 → xas_valid x0 = true ∨ (x0.xa_node = XAS_BOUNDS ∧ e0 = 0)) := by
  have hroot : ∀ x : xa_state, xas_valid { x with xa_node := 0 } = true ∧
      xas_reload m { x with xa_node := 0 } = some m.xa.xa_head := by
    intro x
    exact ⟨by unfold xas_valid; rw [xas_invalid_node _ 0 (by decide)]; rfl, rfl⟩
  have hbounds : ∀ x : xa_state, xas_valid { x with xa_node := XAS_BOUNDS } = false ∧
      xas_error { x with xa_node := XAS_BOUNDS } = 0 := by
    intro x
    refine ⟨by unfold xas_valid; rw [xas_invalid_bounds]; rfl, ?_⟩
    show xa_err XAS_BOUNDS = 0
    decide
  cases hv : xas_valid xas with
  | true =>
    unfold xas_start at h
    rw [if_pos hv] at h
    cases hr : xas_reload m xas with
    | none => simp [hr] at h
    | some e =>
      simp only [hr, Option.some.injEq, Prod.mk.injEq] at h
      obtain ⟨he, hm, hx⟩ := h
      subst he hm hx
      exact ⟨rfl, xas_start_valid _ _ _ hv hr, fun _ => hr, fun _ => Or.inl hv⟩
  | false =>
    by_cases herr : xas_error xas ≠ 0
    · have h0 := h
      unfold xas_start at h
      rw [hv] at h
      simp only [Bool.false_eq_true, if_false, if_pos herr, Option.some.injEq,
        Prod.mk.injEq] at h
      obtain ⟨he, hm, hx⟩ := h
      subst he hm hx
      refine ⟨rfl, h0, fun hv1 => ?_, fun h1 => absurd h1 herr⟩
      rw [hv] at hv1
      cases hv1
    · have herr0 : xas_error xas = 0 := not_not.1 herr
      have h0 := h
      unfold xas_start at h
      rw [hv] at h
      simp only [Bool.false_eq_true, if_false, if_neg herr, xa_head, set_bounds] at h
      -- out of scope, or on the root
      have hcases : (e0 = 0 ∧ m0 = m ∧ x0 = { xas with xa_node := XAS_BOUNDS } ∧
            ((xa_is_node m.xa.xa_head = false ∧ xas.xa_index ≠ 0) ∨
              (xa_is_node m.xa.xa_head = true ∧
                ∃ hn, m.nodes (xa_to_node m.xa.xa_head) = some hn ∧
                  xas.xa_index >>> hn.shift > XA_CHUNK_MASK))) ∨
          (e0 = m.xa.xa_head ∧ m0 = m ∧ x0 = { xas with xa_node := 0 }) := by
        cases hnode : xa_is_node m.xa.xa_head with
        | false =>
          simp only [hnode, Bool.not_false, if_true] at h
          by_cases hi : xas.xa_index ≠ 0
          · rw [if_pos hi] at h
            simp only [Option.some.injEq, Prod.mk.injEq] at h
            exact Or.inl ⟨h.1.symm, h.2.1.symm, h.2.2.symm, Or.inl ⟨rfl, hi⟩⟩
          · rw [if_neg hi] at h
            simp only [Option.some.injEq, Prod.mk.injEq] at h
            exact Or.inr ⟨h.1.symm, h.2.1.symm, h.2.2.symm⟩
        | true =>
          simp only [hnode, Bool.not_true, Bool.false_eq_true, if_false] at h
          cases hh : m.nodes (xa_to_node m.xa.xa_head) with
          | none => simp [hh] at h
          | some head =>
            simp only [hh] at h
            split_ifs at h with hi
            · simp only [Option.some.injEq, Prod.mk.injEq] at h
              exact Or.inl ⟨h.1.symm, h.2.1.symm, h.2.2.symm, Or.inr ⟨rfl, head, rfl, hi⟩⟩
            · simp only [Option.some.injEq, Prod.mk.injEq] at h
              exact Or.inr ⟨h.1.symm, h.2.1.symm, h.2.2.symm⟩
      rcases hcases with ⟨he, hm, hx, hout⟩ | ⟨he, hm, hx⟩
      · subst he hm hx
        refine ⟨rfl, ?_, ?_, fun _ => Or.inr ⟨rfl, rfl⟩⟩
        · exact xas_start_out m0 _ (hbounds xas).1 (hbounds xas).2 hout
        · intro hv1
          rw [(hbounds xas).1] at hv1
          cases hv1
      · subst he hm hx
        exact ⟨rfl, xas_start_valid _ _ _ (hroot xas).1 (hroot xas).2,
          fun _ => (hroot xas).2, fun _ => Or.inl (hroot xas).1⟩

/-! ## The calls of `xas_descend()` a load makes -/

/-- The loop of `xas_load()` on an array whose shifts drop by `d` or more from a node to
the nodes in its slots: with fuel for the levels at and below the entry it starts from,
it returns, and calls `xas_descend()` at most once for each of those levels. -/
theorem xas_load_loop_steps_spec {m : Mem} {d : Nat} (hd : 0 < d) (hdrop : xa_shifts_drop m d) :
    ∀ (f e : Nat) (xas : xa_state) (B : Nat),
      (xa_is_node e = true → ∃ c, m.nodes (xa_to_node e) = some c ∧ c.shift / d + 1 ≤ B) →
      B ≤ f →
      ∃ r k, xas_load_loop_steps f e m xas = some (r, k) ∧
        xas_load_loop f e m xas = some r ∧ k ≤ B := by
  intro f
  induction f with
  | zero =>
    intro e xas B hc hB
    cases hn : xa_is_node e with
    | true =>
      obtain ⟨c, _, h⟩ := hc hn
      have h1 : 1 ≤ B := le_trans (Nat.le_add_left 1 _) h
      omega
    | false =>
      refine ⟨(e, m, xas), 0, ?_, xas_load_loop_non_node _ _ _ _ hn, Nat.zero_le _⟩
      unfold xas_load_loop_steps
      rw [hn]
      rfl
  | succ f ih =>
    intro e xas B hc hB
    cases hn : xa_is_node e with
    | false =>
      refine ⟨(e, m, xas), 0, ?_, xas_load_loop_non_node _ _ _ _ hn, Nat.zero_le _⟩
      unfold xas_load_loop_steps
      rw [hn]
      rfl
    | true =>
      obtain ⟨c, hcn, hcB⟩ := hc hn
      have hB1 : 1 ≤ B := le_trans (Nat.le_add_left 1 _) hcB
      unfold xas_load_loop_steps xas_load_loop
      rw [if_pos hn, if_pos hn]
      simp only [hcn]
      by_cases hsh : xas.xa_shift > c.shift
      · rw [if_pos hsh, if_pos hsh]
        exact ⟨_, 0, rfl, rfl, Nat.zero_le _⟩
      · rw [if_neg hsh, if_neg hsh]
        obtain ⟨e2, x2, hd2, _, hx2o, he2, _⟩ := xas_descend_slot m xas _ c hcn
        rw [hd2]
        simp only []
        obtain ⟨r, k, h1, h2, hk⟩ := ih e2 x2 (B - 1) (by
          intro hn2
          rw [he2] at hn2 ⊢
          obtain ⟨c2, hc2, hlt⟩ := hdrop _ c _ hcn hx2o hn2
          refine ⟨c2, hc2, ?_⟩
          have h3 : (c2.shift + d) / d ≤ c.shift / d := Nat.div_le_div_right hlt
          rw [Nat.add_div_right _ hd] at h3
          exact Nat.le_sub_one_of_lt (lt_of_le_of_lt h3 (Nat.lt_of_succ_le hcB))) (by omega)
        rw [h1, h2]
        exact ⟨r, k + 1, rfl, rfl, by omega⟩

/-- In a linked array the shifts drop by `XA_CHUNK_SHIFT` from a node to the nodes in its
slots. -/
theorem linked_shifts_drop {m : Mem} (hl : xa_linked m) : xa_shifts_drop m XA_CHUNK_SHIFT := by
  intro a n o hn ho hs
  obtain ⟨c, hc, _, _, hsh⟩ := linked_slot_child hl hn ho hs
  exact ⟨c, hc, by omega⟩

/-- In `steep_mem` the shift of a node is strictly above the shifts of the nodes in its
slots. -/
theorem steep_mem_drop : xa_shifts_drop steep_mem 1 := by
  intro a n o hn _ hs
  unfold steep_mem at hn
  simp only [] at hn
  have hz : xa_is_node 0 = false := by decide
  by_cases h1 : a = 8192
  · rw [if_pos h1] at hn
    cases hn
    by_cases ho : o = 0
    · subst ho
      exact ⟨_, rfl, by decide⟩
    · simp only [if_neg ho, hz] at hs
      cases hs
  · rw [if_neg h1] at hn
    by_cases h2 : a = 8448
    · rw [if_pos h2] at hn
      cases hn
      by_cases ho : o = 0
      · subst ho
        exact ⟨_, rfl, by decide⟩
      · simp only [if_neg ho, hz] at hs
        cases hs
    · rw [if_neg h2] at hn
      by_cases h3 : a = 8704
      · rw [if_pos h3] at hn
        cases hn
        by_cases ho : o = 0
        · subst ho
          revert hs
          decide
        · simp only [if_neg ho, hz] at hs
          cases hs
      · rw [if_neg h3] at hn
        cases hn

/-! ## Tags: a set undone by a clear -/

theorem mem_ext {m1 m2 : Mem} (hx : m1.xa = m2.xa) (hn : ∀ a, m1.nodes a = m2.nodes a) :
    m1 = m2 := by
  cases m1
  cases m2
  simp only [Mem.mk.injEq]
  exact ⟨hx, funext hn⟩

theorem set_node_self {m : Mem} {a : Nat} {n : xa_node} (h : m.nodes a = some n) :
    m.set_node a n = m := by
  apply mem_ext
  · rfl
  intro b
  by_cases hb : b = a
  · subst hb
    rw [set_node_same, h]
  · rw [set_node_ne _ _ hb]

theorem set_node_twice (m : Mem) (a : Nat) (x y : xa_node) :
    (m.set_node a x).set_node a y = m.set_node a y := by
  apply mem_ext
  · rfl
  intro b
  by_cases hb : b = a
  · subst hb
    rw [set_node_same, set_node_same]
  · rw [set_node_ne _ _ hb, set_node_ne _ _ hb, set_node_ne _ _ hb]

theorem set_node_comm (m : Mem) {a d : Nat} (h : a ≠ d) (x y : xa_node) :
    (m.set_node a x).set_node d y = (m.set_node d y).set_node a x := by
  apply mem_ext
  · rfl
  intro b
  by_cases hb : b = d
  · subst hb
    rw [set_node_same, set_node_ne _ _ (Ne.symm h), set_node_same]
  · rw [set_node_ne _ _ hb]
    by_cases hba : b = a
    · subst hba
      rw [set_node_same, set_node_same]
    · rw [set_node_ne _ _ hba, set_node_ne _ _ hba, set_node_ne _ _ hb]

/-- Setting a bit that is set leaves the node as it is. -/
theorem node_set_tag_same (n : xa_node) (o t : Nat) (h : n.tags t o = true) :
    (node_set_tag n o t).2 = n := by
  cases n with
  | mk shift offset count nr_values parent slots tags =>
    simp only [node_set_tag, xa_node.mk.injEq, true_and]
    funext s q
    by_cases hc : s = t ∧ q = o
    · rw [if_pos hc, hc.1, hc.2]
      exact h.symm
    · rw [if_neg hc]

/-- Clearing a bit that was set on a node where it was clear gives the node back. -/
theorem node_set_clear_tag (n : xa_node) (o t : Nat) (h : n.tags t o = false) :
    (node_clear_tag (node_set_tag n o t).2 o t).2 = n ∧
    (node_clear_tag (node_set_tag n o t).2 o t).1 = true ∧
    (node_set_tag n o t).1 = false := by
  refine ⟨?_, ?_, h⟩
  · cases n with
    | mk shift offset count nr_values parent slots tags =>
      simp only [node_set_tag, node_clear_tag, xa_node.mk.injEq, true_and]
      funext s q
      by_cases hc : s = t ∧ q = o
      · rw [if_pos hc, hc.1, hc.2]
        exact h.symm
      · rw [if_neg hc, if_neg hc]
  · simp [node_set_tag, node_clear_tag]

/-- Clearing the flag of a tag that was set on an array where it was clear gives the
array back, the flags being a word of 32 bits. -/
theorem xa_tag_clear_set (xa : xarray) (t : Nat) (ht : t < XA_MAX_TAGS)
    (hfl : xa.xa_flags < 2 ^ 32) (h : xa_tagged xa t = false) :
    xa_tag_clear (xa_tag_set xa t) t = xa := by
  have hset : xa_tagged (xa_tag_set xa t) t = true := by
    rw [xa_tagged_set]
    simp
  have h0 : (xa.xa_flags &&& XA_FLAGS_TAG t) = 0 := by
    unfold xa_tagged at h
    simpa using h
  have hs : xa_tag_set xa t = { xa with xa_flags := xa.xa_flags ||| XA_FLAGS_TAG t } := by
    unfold xa_tag_set
    rw [h0]
    rfl
  have hc : xa_tag_clear (xa_tag_set xa t) t
      = { xa_tag_set xa t with
          xa_flags := (xa_tag_set xa t).xa_flags &&& gfp_not (XA_FLAGS_TAG t) } := by
    unfold xa_tag_clear
    unfold xa_tagged at hset
    rw [if_pos hset]
  rw [hc, hs]
  cases xa with
  | mk flags head =>
    simp only [xarray.mk.injEq, and_true]
    simp only [] at hfl h0
    apply Nat.eq_of_testBit_eq
    intro i
    have hbit : ∀ j, (XA_FLAGS_TAG t).testBit j = decide (j = 23 + t) := by
      intro j
      rw [XA_FLAGS_TAG_eq, Nat.testBit_two_pow]
      by_cases hj : j = 23 + t
      · simp [hj]
      · have : ¬ (23 + t = j) := fun h1 => hj h1.symm
        simp [hj, this]
    have hnot : ∀ j, (gfp_not (XA_FLAGS_TAG t)).testBit j
        = (decide (j < 32) && !decide (j = 23 + t)) := by
      intro j
      have ht3 : t < 3 := ht
      have hlt : XA_FLAGS_TAG t < 2 ^ 32 := by
        rw [XA_FLAGS_TAG_eq]
        exact Nat.pow_lt_pow_right (by decide) (by omega)
      unfold gfp_not
      rw [Nat.mod_eq_of_lt hlt]
      have := Nat.testBit_two_pow_sub_succ hlt j
      rw [show 2 ^ 32 - 1 - XA_FLAGS_TAG t = 2 ^ 32 - (XA_FLAGS_TAG t + 1) by omega, this,
        hbit]
    rw [Nat.testBit_land, Nat.testBit_lor, hnot, hbit]
    have h0i : (flags &&& XA_FLAGS_TAG t).testBit i = false := by
      rw [h0]
      simp
    rw [Nat.testBit_land, hbit] at h0i
    by_cases hi : i = 23 + t
    · subst hi
      simp only [decide_True, Bool.and_true] at h0i
      simp [h0i]
    · by_cases h32 : i < 32
      · simp [hi, h32]
      · have : flags.testBit i = false := by
          apply Nat.testBit_eq_false_of_lt
          exact lt_of_lt_of_le hfl (Nat.pow_le_pow_right (by decide) (by omega))
        simp [hi, h32, this]

/-- The loop of `xas_set_tag()` leaves the nodes below the node it starts from as they
are. -/
theorem xas_set_tag_loop_low (t : Nat) :
    ∀ (f : Nat) (m : Mem) (a o : Nat) (m1 : Mem), xa_linked m →
      xas_set_tag_loop f m a o t = some m1 →
      ∀ b nb, m.nodes b = some nb →
        (a ≠ 0 → ∃ n, m.nodes a = some n ∧ nb.shift < n.shift) → m1.nodes b = some nb := by
  have hzero : ∀ (m m1 : Mem),
      (if !xa_tagged m.xa t then some { m with xa := xa_tag_set m.xa t } else some m)
        = some m1 → ∀ b, m1.nodes b = m.nodes b := by
    intro m m1 h b
    split_ifs at h <;> cases h <;> rfl
  intro f
  induction f with
  | zero =>
    intro m a o m1 hl h b nb hb hlow
    unfold xas_set_tag_loop at h
    by_cases h0 : a = 0
    · rw [if_neg (not_not.2 h0)] at h
      rw [hzero m m1 h b]
      exact hb
    · rw [if_pos h0] at h
      cases h
  | succ f ih =>
    intro m a o m1 hl h b nb hb hlow
    unfold xas_set_tag_loop at h
    by_cases h0 : a = 0
    · rw [if_neg (not_not.2 h0)] at h
      rw [hzero m m1 h b]
      exact hb
    rw [if_pos h0] at h
    obtain ⟨n, hn, hlt⟩ := hlow h0
    rw [hn] at h
    simp only [] at h
    have hba : b ≠ a := by
      intro hba
      rw [hba, hn] at hb
      cases hb
      omega
    have hb1 : (m.set_node a (node_set_tag n o t).2).nodes b = some nb := by
      rw [set_node_ne _ _ hba]
      exact hb
    split_ifs at h
    · cases h
      exact hb1
    · refine ih _ _ _ m1 (linked_same_shape (set_tag_step_shape m a o t n hn) hl) h b nb hb1
        (fun hp => ?_)
      obtain ⟨p, hpn, hps, _⟩ := hl.child a n hn hp
      refine ⟨p, ?_, by omega⟩
      show (m.set_node a _).nodes n.parent = some p
      rw [set_node_ne _ _ (linked_parent_ne hl hn)]
      exact hpn

/-- The loop of `xas_clear_tag()` does not read the nodes below the node it starts from:
with one of them overwritten it does the same, and leaves that node as overwritten. -/
theorem xas_clear_tag_loop_low (t : Nat) :
    ∀ (f : Nat) (m : Mem) (a o : Nat) (m2 : Mem), xa_linked m →
      xas_clear_tag_loop f m a o t = some m2 →
      ∀ d nd0 nd, m.nodes d = some nd0 →
        (a ≠ 0 → ∃ n, m.nodes a = some n ∧ nd0.shift < n.shift) →
        xas_clear_tag_loop f (m.set_node d nd) a o t = some (m2.set_node d nd) := by
  have hzero : ∀ (m m2 : Mem) (d : Nat) (nd : xa_node),
      (if xa_tagged m.xa t then some { m with xa := xa_tag_clear m.xa t } else some m)
        = some m2 →
      (if xa_tagged (m.set_node d nd).xa t
        then some { m.set_node d nd with xa := xa_tag_clear (m.set_node d nd).xa t }
        else some (m.set_node d nd)) = some (m2.set_node d nd) := by
    intro m m2 d nd h
    rw [set_node_xa]
    split_ifs at h ⊢ <;> cases h <;> rfl
  intro f
  induction f with
  | zero =>
    intro m a o m2 hl h d nd0 nd hd hlow
    unfold xas_clear_tag_loop at h ⊢
    by_cases h0 : a = 0
    · rw [if_neg (not_not.2 h0)] at h ⊢
      exact hzero m m2 d nd h
    · rw [if_pos h0] at h
      cases h
  | succ f ih =>
    intro m a o m2 hl h d nd0 nd hd hlow
    unfold xas_clear_tag_loop at h ⊢
    by_cases h0 : a = 0
    · rw [if_neg (not_not.2 h0)] at h ⊢
      exact hzero m m2 d nd h
    rw [if_pos h0] at h ⊢
    obtain ⟨n, hn, hlt⟩ := hlow h0
    have had : a ≠ d := by
      intro had
      rw [← had, hn] at hd
      cases hd
      omega
    rw [hn] at h
    rw [set_node_ne _ _ had, hn]
    simp only [] at h ⊢
    have hcomm : ({ m.set_node d nd with
          nodes := Function.update (m.set_node d nd).nodes a (some (node_clear_tag n o t).2) } :
          Mem)
        = (m.set_node a (node_clear_tag n o t).2).set_node d nd :=
      (set_node_comm m (Ne.symm had) nd (node_clear_tag n o t).2)
    rw [hcomm]
    split_ifs at h ⊢
    · cases h
      rfl
    · cases h
      rfl
    · refine ih _ _ _ m2 (linked_same_shape (clear_tag_step_shape m a o t n hn) hl) h d nd0 nd
        (by rw [set_node_ne _ _ (Ne.symm had)]; exact hd) (fun hp => ?_)
      obtain ⟨p, hpn, hps, _⟩ := hl.child a n hn hp
      refine ⟨p, ?_, by omega⟩
      show (m.set_node a _).nodes n.parent = some p
      rw [set_node_ne _ _ (linked_parent_ne hl hn)]
      exact hpn

/-- The loop of `xas_set_tag()` followed by the loop of `xas_clear_tag()`, from a slot
without the tag, on a linked array whose tags are tight at and above the node of the
slot: the first returns, and the second returns the array the first was given. -/
theorem xas_set_clear_loop (t : Nat) (ht : t < XA_MAX_TAGS) :
    ∀ (f : Nat) (m : Mem) (a o : Nat), xa_linked m → m.xa.xa_flags < 2 ^ 32 →
      (a = 0 → xa_tagged m.xa t = false) →
      (a ≠ 0 → ∃ n, m.nodes a = some n ∧ n.tags t o = false ∧ 66 ≤ n.shift + 6 * f) →
      (a ≠ 0 → ∀ c nc, m.nodes c = some nc →
        (∀ n, m.nodes a = some n → n.shift ≤ nc.shift) →
        (∀ p, nc.parent ≠ 0 → m.nodes nc.parent = some p →
          (p.tags t nc.offset = true ↔ xa_node_tagged nc t)) ∧
        (nc.parent = 0 → (xa_tagged m.xa t = true ↔ xa_node_tagged nc t))) →
      ∃ m1, xas_set_tag_loop f m a o t = some m1 ∧
        xas_clear_tag_loop f m1 a o t = some m := by
  -- on the root slot: the flag is set, then cleared
  have hzero : ∀ (f : Nat) (m : Mem) (o : Nat), m.xa.xa_flags < 2 ^ 32 →
      xa_tagged m.xa t = false →
      ∃ m1, xas_set_tag_loop f m 0 o t = some m1 ∧
        xas_clear_tag_loop f m1 0 o t = some m := by
    intro f m o hfl hclear
    refine ⟨{ m with xa := xa_tag_set m.xa t }, ?_, ?_⟩
    · unfold xas_set_tag_loop
      rw [if_neg (not_not.2 rfl), hclear]
      rfl
    · unfold xas_clear_tag_loop
      rw [if_neg (not_not.2 rfl)]
      have hset : xa_tagged (xa_tag_set m.xa t) t = true := by
        rw [xa_tagged_set]
        simp
      simp only [hset, if_true]
      rw [xa_tag_clear_set m.xa t ht hfl hclear]
  intro f
  induction f with
  | zero =>
    intro m a o hl hfl h0 hnode _
    by_cases ha : a = 0
    · subst ha
      exact hzero 0 m o hfl (h0 rfl)
    · obtain ⟨n, hn, _, hfuel⟩ := hnode ha
      have := hl.shift_ok a n hn
      rw [show XA_CHUNK_SHIFT = 6 from rfl, show BITS_PER_LONG = 64 from rfl] at this
      omega
  | succ f ih =>
    intro m a o hl hfl h0 hnode htight
    by_cases ha : a = 0
    · subst ha
      exact hzero (f + 1) m o hfl (h0 rfl)
    obtain ⟨n, hn, hbit, hfuel⟩ := hnode ha
    obtain ⟨hback, hwas, hold⟩ := node_set_clear_tag n o t hbit
    obtain ⟨hpar, hflag⟩ := htight ha a n hn (fun n1 hn1 => by
      rw [hn] at hn1
      cases hn1
      exact le_refl _)
    have hsok := hl.shift_ok a n hn
    rw [show XA_CHUNK_SHIFT = 6 from rfl, show BITS_PER_LONG = 64 from rfl] at hsok
    have hl1 : xa_linked (m.set_node a (node_set_tag n o t).2) :=
      linked_same_shape (set_tag_step_shape m a o t n hn) hl
    -- the first pass of the loop of set
    have hset1 : ∀ m1, xas_set_tag_loop f (m.set_node a (node_set_tag n o t).2)
        n.parent n.offset t = some m1 → xas_set_tag_loop (f + 1) m a o t = some m1 := by
      intro m1 h1
      rw [xas_set_tag_loop, if_pos ha]
      simp only [hn]
      rw [hold]
      exact h1
    -- the first pass of the loop of clear, on an array where the node at `a` is the node
    -- the set left there
    have hclear1 : ∀ m1 : Mem, m1.nodes a = some (node_set_tag n o t).2 →
        xas_clear_tag_loop (f + 1) m1 a o t =
          if node_any_tag n t then some (m1.set_node a n)
          else xas_clear_tag_loop f (m1.set_node a n) n.parent n.offset t := by
      intro m1 h1
      rw [xas_clear_tag_loop, if_pos ha]
      simp only [h1]
      rw [hwas, hback]
      rfl
    by_cases htg : xa_node_tagged n t
    · -- the node had the tag: the set stops one level up, the clear at once
      have hstop : xas_set_tag_loop f (m.set_node a (node_set_tag n o t).2)
          n.parent n.offset t = some (m.set_node a (node_set_tag n o t).2) := by
        by_cases hp : n.parent = 0
        · rw [hp]
          unfold xas_set_tag_loop
          rw [if_neg (not_not.2 rfl)]
          have hfl1 : xa_tagged (m.set_node a (node_set_tag n o t).2).xa t = true :=
            (hflag hp).2 htg
          rw [hfl1]
          rfl
        · obtain ⟨p, hpn, hps, _⟩ := hl.child a n hn hp
          rw [show XA_CHUNK_SHIFT = 6 from rfl] at hps
          have hpsok := hl.shift_ok _ p hpn
          rw [show XA_CHUNK_SHIFT = 6 from rfl, show BITS_PER_LONG = 64 from rfl] at hpsok
          have hpbit : p.tags t n.offset = true := (hpar p hp hpn).2 htg
          have hp1 : (m.set_node a (node_set_tag n o t).2).nodes n.parent = some p := by
            rw [set_node_ne _ _ (linked_parent_ne hl hn)]
            exact hpn
          cases f with
          | zero => omega
          | succ g =>
            rw [xas_set_tag_loop, if_pos hp]
            simp only [hp1]
            have hr1 : (node_set_tag p n.offset t).1 = true := hpbit
            rw [hr1, if_pos rfl, node_set_tag_same p _ _ hpbit]
            exact congrArg some (set_node_self hp1)
      refine ⟨_, hset1 _ hstop, ?_⟩
      rw [hclear1 _ (set_node_same _ _ _), if_pos ((node_any_tag_iff n t).2 htg),
        set_node_twice, set_node_self hn]
    · -- the node had no tag: the set goes on one level up, and so does the clear
      have hnone : node_any_tag n t = false := by
        cases hb : node_any_tag n t with
        | false => rfl
        | true => exact absurd ((node_any_tag_iff n t).1 hb) htg
      obtain ⟨m1, hs1, hc1⟩ := ih (m.set_node a (node_set_tag n o t).2) n.parent n.offset
        hl1 hfl
        (fun hp => by
          show xa_tagged m.xa t = false
          cases hb : xa_tagged m.xa t with
          | false => rfl
          | true => exact absurd ((hflag hp).1 hb) htg)
        (fun hp => by
          obtain ⟨p, hpn, hps, _⟩ := hl.child a n hn hp
          rw [show XA_CHUNK_SHIFT = 6 from rfl] at hps
          refine ⟨p, ?_, ?_, by omega⟩
          · rw [set_node_ne _ _ (linked_parent_ne hl hn)]
            exact hpn
          · cases hb : p.tags t n.offset with
            | false => rfl
            | true => exact absurd ((hpar p hp hpn).1 hb) htg)
        (by
          intro hp c nc hc hle
          obtain ⟨p, hpn, hps, _⟩ := hl.child a n hn hp
          rw [show XA_CHUNK_SHIFT = 6 from rfl] at hps
          have hp1 : (m.set_node a (node_set_tag n o t).2).nodes n.parent = some p := by
            rw [set_node_ne _ _ (linked_parent_ne hl hn)]
            exact hpn
          have hpc := hle p hp1
          have hca : c ≠ a := by
            intro hca
            rw [hca, set_node_same] at hc
            cases hc
            have : (node_set_tag n o t).2.shift = n.shift := rfl
            omega
          rw [set_node_ne _ _ hca] at hc
          obtain ⟨hpar_c, hflag_c⟩ := htight ha c nc hc (fun n1 hn1 => by
            rw [hn] at hn1
            cases hn1
            omega)
          refine ⟨fun q hq hqn => ?_, hflag_c⟩
          have hqa : nc.parent ≠ a := by
            intro hqa
            obtain ⟨q0, hq0, hq0s, _⟩ := hl.child c nc hc hq
            rw [hqa, hn] at hq0
            cases hq0
            rw [show XA_CHUNK_SHIFT = 6 from rfl] at hq0s
            omega
          rw [set_node_ne _ _ hqa] at hqn
          exact hpar_c q hq hqn)
      obtain ⟨hsh, _⟩ := xas_set_tag_loop_frame t f _ _ _ m1 hs1
      have hl2 : xa_linked m1 := linked_same_shape hsh hl1
      -- the set above leaves the node at `a` as it is, and the clear does not read it
      have hlow : n.parent ≠ 0 →
          ∃ p, (m.set_node a (node_set_tag n o t).2).nodes n.parent = some p ∧
            (node_set_tag n o t).2.shift < p.shift := by
        intro hp
        obtain ⟨p, hpn, hps, _⟩ := hl.child a n hn hp
        rw [show XA_CHUNK_SHIFT = 6 from rfl] at hps
        refine ⟨p, ?_, ?_⟩
        · rw [set_node_ne _ _ (linked_parent_ne hl hn)]
          exact hpn
        · show n.shift < p.shift
          omega
      have ha1 : m1.nodes a = some (node_set_tag n o t).2 :=
        xas_set_tag_loop_low t f _ _ _ m1 hl1 hs1 a _ (set_node_same _ _ _) hlow
      have hlow1 : n.parent ≠ 0 →
          ∃ p, m1.nodes n.parent = some p ∧ (node_set_tag n o t).2.shift < p.shift := by
        intro hp
        obtain ⟨p, hp1, hlt⟩ := hlow hp
        obtain ⟨p2, hp2, hp2s, _⟩ := (hsh.2 _).2 p hp1
        exact ⟨p2, hp2, by rw [hp2s]; exact hlt⟩
      refine ⟨m1, hset1 m1 hs1, ?_⟩
      rw [hclear1 m1 ha1, hnone]
      simp only [Bool.false_eq_true, if_false]
      rw [xas_clear_tag_loop_low t f m1 _ _ _ hl2 hc1 a _ n ha1 hlow1, set_node_twice,
        set_node_self hn]

/-- The tags of `tagged_tree` for tag 1, which no slot carries, are tight. -/
theorem tagged_tree_tight : xa_tag_tight tagged_tree 1 where
  parent_iff := fun c nc p hc hp hpn => by
    rcases tagged_tree_nodes hc with ⟨rfl, rfl⟩ | ⟨rfl, rfl⟩
    · exact absurd rfl hp
    · rcases tagged_tree_nodes hpn with ⟨_, rfl⟩ | ⟨h1, _⟩
      · constructor
        · intro h
          exact absurd h (by decide)
        · rintro ⟨o, _, hb⟩
          have hb1 : decide (1 = 0 ∧ o = 3) = true := hb
          simp at hb1
      · exact absurd h1 (by decide)
  flag_iff := fun c nc hc hp => by
    rcases tagged_tree_nodes hc with ⟨rfl, rfl⟩ | ⟨rfl, rfl⟩
    · constructor
      · intro h
        exact absurd h (by decide)
      · rintro ⟨o, _, hb⟩
        have hb1 : decide (1 = 0 ∧ o = 1) = true := hb
        simp at hb1
    · exact absurd hp (by decide)

/-! ## C21: the result of `xas_get_tag()` -/

/-- C21: xas_get_tag result. For every array, cursor and tag `t`, `xas_get_tag(xas, t)`
returns false when the cursor is in an error state, in the bounds state or in the restart
state (when it is invalid at all); for a valid cursor with a node it returns the bit of
`t` of that node at `xa_offset`; for a valid cursor with no node (on the root) it returns
the array flag for `t`. -/
theorem C21_get_tag_result (m : Mem) (xas : xa_state) (t : Nat) :
    (xas_error xas ≠ 0 ∨ xas.xa_node = XAS_BOUNDS ∨ xas.xa_node = XAS_RESTART →
      xas_get_tag m xas t = some false) ∧
    (xas_invalid xas = true → xas_get_tag m xas t = some false) ∧
    (∀ n, xas_valid xas = true → xas.xa_node ≠ 0 → m.nodes xas.xa_node = some n →
      xas_get_tag m xas t = some (n.tags t xas.xa_offset)) ∧
    (xas_valid xas = true → xas.xa_node = 0 →
      xas_get_tag m xas t = some (xa_tagged m.xa t)) := by
  have hval : xas_valid xas = true → xas_invalid xas = false := by
    intro h
    unfold xas_valid at h
    simpa using h
  refine ⟨?_, fun h => xas_get_tag_invalid m xas t h, ?_, ?_⟩
  · intro h
    apply xas_get_tag_invalid
    rcases h with h | h | h
    · have := xas_error_invalid h
      unfold xas_valid at this
      simpa using this
    · unfold xas_invalid
      rw [h]
      rfl
    · unfold xas_invalid
      rw [h]
      rfl
  · intro n hv h0 hn
    unfold xas_get_tag
    rw [hval hv]
    have hb : (xas.xa_node == 0) = false := by simpa using h0
    simp only [Bool.false_eq_true, if_false, hb, hn]
    rfl
  · intro hv h0
    unfold xas_get_tag
    rw [hval hv]
    simp [h0]

/-! ## C22: tag writes with an invalid cursor -/

/-- C22: tag writes do nothing on an unwalked or failed cursor. For every array, every tag
and every cursor in the restart state, in the bounds state or in an error state,
`xas_set_tag(xas, t)` and `xas_clear_tag(xas, t)` return and leave the array as it was:
the array flags and the tag bitmaps of every node are unchanged. -/
theorem C22_tag_writes_invalid_cursor (m : Mem) (xas : xa_state) (t fuel : Nat)
    (h : xas.xa_node = XAS_RESTART ∨ xas.xa_node = XAS_BOUNDS ∨ xas_error xas ≠ 0) :
    xas_set_tag fuel m xas t = some m ∧ xas_clear_tag fuel m xas t = some m := by
  have hinv : xas_invalid xas = true := by
    rcases h with h | h | h
    · unfold xas_invalid
      rw [h]
      rfl
    · unfold xas_invalid
      rw [h]
      rfl
    · have := xas_error_invalid h
      unfold xas_valid at this
      simpa using this
  unfold xas_set_tag xas_clear_tag
  rw [hinv]
  exact ⟨rfl, rfl⟩

theorem C22_tag_writes_invalid_cursor_witness :
    xas_set_tag 0 tagged_tree enomem_xas 1 = some tagged_tree ∧
    xas_clear_tag 0 tagged_tree enomem_xas 1 = some tagged_tree :=
  C22_tag_writes_invalid_cursor tagged_tree enomem_xas 1 0 (Or.inr (Or.inr (by decide)))

/-! ## C23: `xas_start()` with the index out of scope -/

/-- C23: `xas_start()` out of scope, evaluated at one input. The head of `bare_mem` is no
node and the fresh cursor of index 1 is neither valid nor in an error state, so the index
is outside the scope of the array; `xas_start()` returns NULL and leaves the array as it
is, and it stores `XAS_BOUNDS` in `xa_node`, which held `XAS_RESTART`: the `xa_node` of
the cursor is changed. -/
theorem C23_start_out_of_scope_at_input :
    xa_is_node bare_mem.xa.xa_head = false ∧ xas_valid (XA_STATE 1) = false ∧
    xas_error (XA_STATE 1) = 0 ∧ (XA_STATE 1).xa_index ≠ 0 ∧
    xas_start bare_mem (XA_STATE 1)
      = some (0, bare_mem, { XA_STATE 1 with xa_node := XAS_BOUNDS }) ∧
    (XA_STATE 1).xa_node = XAS_RESTART ∧
    ({ XA_STATE 1 with xa_node := XAS_BOUNDS } : xa_state).xa_node = XAS_BOUNDS ∧
    ({ XA_STATE 1 with xa_node := XAS_BOUNDS } : xa_state).xa_node ≠ (XA_STATE 1).xa_node :=
  ⟨by decide, by decide, by decide, by decide, rfl, rfl, rfl, by decide⟩

/-! ## C24: the offset of a slot -/

/-- C24: slot offset. For every index and every node (so for every shift below
`BITS_PER_LONG`), `get_offset(index, node)` is `(index >> node.shift) & (XA_CHUNK_SIZE - 1)`,
which is `floor(index / 2^shift) mod XA_CHUNK_SIZE`, and it is below `XA_CHUNK_SIZE`; so
the slot `xas_descend()` reads in a node is a slot of the node: the call returns the entry
of a slot below `XA_CHUNK_SIZE` and leaves the cursor on that slot. -/
theorem C24_slot_offset (index : Nat) (n : xa_node) :
    get_offset index n = (index >>> n.shift) &&& (XA_CHUNK_SIZE - 1) ∧
    get_offset index n = (index / 2 ^ n.shift) % XA_CHUNK_SIZE ∧
    get_offset index n < XA_CHUNK_SIZE ∧
    ∀ (m : Mem) (xas : xa_state) (a : Nat), m.nodes a = some n →
      ∃ e x1, xas_descend m xas a = some (e, m, x1) ∧ x1.xa_offset < XA_CHUNK_SIZE ∧
        e = n.slots x1.xa_offset ∧
        (xa_is_sibling (n.slots (get_offset xas.xa_index n)) = false →
          x1.xa_offset = get_offset xas.xa_index n) := by
  have h1 : XA_CHUNK_SIZE = 64 := rfl
  have h2 : XA_CHUNK_MASK = 63 := rfl
  refine ⟨rfl, ?_, ?_, ?_⟩
  · rw [get_offset_eq, Nat.shiftRight_eq_div_pow, h1]
  · have := get_offset_le index n
    omega
  · intro m xas a hn
    obtain ⟨e, x1, hd, _, ho, he, _⟩ := xas_descend_slot m xas a n hn
    refine ⟨e, x1, hd, ho, he, fun hs => ?_⟩
    rw [xas_descend_plain m xas a n hn hs] at hd
    simp only [Option.some.injEq, Prod.mk.injEq] at hd
    rw [← hd.2.2]

/-! ## C25: a load ends within the height of the tree -/

/-- C25, counterexample: in `steep_mem` the shift of every child node is strictly smaller
than the shift of its parent (2, 1 and 0), and `xas_load()` of index 0 from a fresh
cursor calls `xas_descend()` three times, more than `head.shift / XA_CHUNK_SHIFT + 1`,
which is 1. -/
theorem C25_counterexample :
    xa_shifts_drop steep_mem 1 ∧
    (∃ hn, steep_mem.nodes (xa_to_node steep_mem.xa.xa_head) = some hn ∧
      hn.shift / XA_CHUNK_SHIFT + 1 = 1) ∧
    xas_load_steps 3 steep_mem (XA_STATE 0)
      = some ((xa_mk_value 1, steep_mem, { XA_STATE 0 with xa_node := 8704 }), 3) :=
  ⟨steep_mem_drop, ⟨_, rfl, by decide⟩, rfl⟩

/-- C25, amended: load terminates in height-bounded steps. On every array whose head is
a node and in which the shift of each child node is smaller than the shift of its parent
by `d` or more, with `d > 0`, `xas_load()` from any cursor that is not in an error state
(a valid cursor being on the root slot or on a slot of a node at or below the head)
returns, calling `xas_descend()` at most `head.shift / d + 1` times: at most
`head.shift / XA_CHUNK_SHIFT + 1` times when each child's shift is smaller than its
parent's by `XA_CHUNK_SHIFT` or more, and at most `head.shift + 1` times when it is only
strictly smaller. -/
theorem C25_load_steps_bounded (m : Mem) (xas : xa_state) (d fuel : Nat) (hn : xa_node)
    (hd : 0 < d) (hdrop : xa_shifts_drop m d)
    (hhead : xa_is_node m.xa.xa_head = true)
    (hh : m.nodes (xa_to_node m.xa.xa_head) = some hn) (herr : xas_error xas = 0)
    (hcur : xas_valid xas = true → xas.xa_node ≠ 0 →
      ∃ n, m.nodes xas.xa_node = some n ∧ xas.xa_offset < XA_CHUNK_SIZE ∧
        n.shift ≤ hn.shift)
    (hfuel : hn.shift / d + 1 ≤ fuel) :
    ∃ r k, xas_load_steps fuel m xas = some (r, k) ∧ xas_load fuel m xas = some r ∧
      k ≤ hn.shift / d + 1 := by
  have hfrom_head : ∀ x : xa_state,
      ∃ r k, xas_load_loop_steps fuel m.xa.xa_head m x = some (r, k) ∧
        xas_load_loop fuel m.xa.xa_head m x = some r ∧ k ≤ hn.shift / d + 1 :=
    fun x => xas_load_loop_steps_spec hd hdrop fuel _ x _
      (fun _ => ⟨hn, hh, le_refl _⟩) hfuel
  have hnull : ∀ x : xa_state,
      ∃ r k, xas_load_loop_steps fuel 0 m x = some (r, k) ∧
        xas_load_loop fuel 0 m x = some r ∧ k ≤ hn.shift / d + 1 :=
    fun x => xas_load_loop_steps_spec hd hdrop fuel _ x _
      (fun h => absurd h (by decide)) hfuel
  unfold xas_load_steps xas_load
  cases hv : xas_valid xas with
  | true =>
    by_cases h0 : xas.xa_node = 0
    · have hr : xas_reload m xas = some m.xa.xa_head := by
        unfold xas_reload xa_head
        simp [h0]
      rw [xas_start_valid m xas _ hv hr]
      exact hfrom_head xas
    · obtain ⟨n, hnn, ho, hle⟩ := hcur hv h0
      have hr : xas_reload m xas = some (n.slots xas.xa_offset) := by
        unfold xas_reload xa_entry
        simp [h0, hnn]
      rw [xas_start_valid m xas _ hv hr]
      refine xas_load_loop_steps_spec hd hdrop fuel _ xas _ (fun hs => ?_) hfuel
      obtain ⟨c, hc, hlt⟩ := hdrop _ n _ hnn ho hs
      refine ⟨c, hc, ?_⟩
      have h3 : c.shift / d ≤ hn.shift / d := Nat.div_le_div_right (by omega)
      omega
  | false =>
    by_cases hout : xas.xa_index >>> hn.shift > XA_CHUNK_MASK
    · rw [xas_start_out m xas hv herr (Or.inr ⟨hhead, hn, hh, hout⟩)]
      exact hnull _
    · have hst : xas_start m xas = some (m.xa.xa_head, m, { xas with xa_node := 0 }) := by
        unfold xas_start
        rw [hv]
        simp [herr, xa_head, hhead, hh, hout]
      rw [hst]
      exact hfrom_head _

theorem C25_load_steps_bounded_witness :
    ∃ r k, xas_load_steps 2 tagged_tree (XA_STATE 67) = some (r, k) ∧
      xas_load 2 tagged_tree (XA_STATE 67) = some r ∧
      k ≤ tagged_tree_head.shift / XA_CHUNK_SHIFT + 1 :=
  C25_load_steps_bounded tagged_tree (XA_STATE 67) XA_CHUNK_SHIFT 2 tagged_tree_head
    (by decide) (linked_shifts_drop tagged_tree_linked) (by decide) rfl (by decide)
    (fun h => absurd h (by decide)) (by decide)

/-! ## C26: a load stops on a node only at the requested resolution -/

/-- C26: load stops on a node only at the requested resolution. Whenever `xas_load()`
returns a node entry, the `xa_shift` of the cursor (which the load does not change) is
strictly greater than the shift of that node; in particular with `xa_shift == 0`, as in
the fresh cursors of `xa_load`, `__xa_set_tag` and `__xa_clear_tag`, the entry
`xas_load()` returns is never a node entry. -/
theorem C26_load_stops_at_resolution (f : Nat) (m : Mem) (xas : xa_state) (e : Nat)
    (m1 : Mem) (x1 : xa_state) (h : xas_load f m xas = some (e, m1, x1)) :
    x1.xa_shift = xas.xa_shift ∧
    (xa_is_node e = true →
      ∃ n, m.nodes (xa_to_node e) = some n ∧ n.shift < x1.xa_shift) ∧
    (xas.xa_shift = 0 → xa_is_node e = false) ∧
    ((∃ i, xas = XA_STATE i) → xa_is_node e = false) := by
  have hsh := (xas_load_frame f m xas e m1 x1 h).2.1
  have hnode : xa_is_node e = true →
      ∃ n, m.nodes (xa_to_node e) = some n ∧ n.shift < x1.xa_shift := by
    intro hn
    unfold xas_load at h
    cases hst : xas_start m xas with
    | none => simp [hst] at h
    | some r =>
      obtain ⟨e0, m0, x0⟩ := r
      simp only [hst] at h
      obtain ⟨hm0, _⟩ := xas_start_frame m xas e0 m0 x0 hst
      subst hm0
      exact xas_load_loop_node f e0 m0 x0 e m1 x1 h hn
  have hzero : xas.xa_shift = 0 → xa_is_node e = false := by
    intro h0
    cases hn : xa_is_node e with
    | false => rfl
    | true =>
      obtain ⟨n, _, hlt⟩ := hnode hn
      rw [hsh, h0] at hlt
      omega
  refine ⟨hsh, hnode, hzero, ?_⟩
  rintro ⟨i, rfl⟩
  exact hzero rfl

theorem C26_load_stops_at_resolution_witness :
    ({ XA_STATE 64 with xa_node := 8192, xa_offset := 1, xa_shift := 6 } : xa_state).xa_shift
      = ({ XA_STATE 64 with xa_shift := 6 } : xa_state).xa_shift ∧
    (xa_is_node (xa_mk_node 8448) = true →
      ∃ n, two_level_mem.nodes (xa_to_node (xa_mk_node 8448)) = some n ∧
        n.shift < ({ XA_STATE 64 with xa_node := 8192, xa_offset := 1, xa_shift := 6 } :
          xa_state).xa_shift) ∧
    (({ XA_STATE 64 with xa_shift := 6 } : xa_state).xa_shift = 0 →
      xa_is_node (xa_mk_node 8448) = false) ∧
    ((∃ i, ({ XA_STATE 64 with xa_shift := 6 } : xa_state) = XA_STATE i) →
      xa_is_node (xa_mk_node 8448) = false) :=
  C26_load_stops_at_resolution 3 two_level_mem { XA_STATE 64 with xa_shift := 6 }
    (xa_mk_node 8448) two_level_mem
    { XA_STATE 64 with xa_node := 8192, xa_offset := 1, xa_shift := 6 } rfl

/-! ## C27: the value encoding is monotone -/

/-- C27: value encoding is strictly monotone. For all `u` and `v` below
`2^(BITS_PER_LONG-1)`, `xa_mk_value(u) < xa_mk_value(v)` as unsigned words if and only if
`u < v`, and the two entries are equal only if `u = v`: `xa_mk_value` is strictly
monotone and injective on the valid inputs, so the comparisons of entries in the range
checks of the test compare the values under them. -/
theorem C27_value_encoding_monotone (u v : Nat) (hu : u < 2 ^ (BITS_PER_LONG - 1))
    (hv : v < 2 ^ (BITS_PER_LONG - 1)) :
    (u < v → xa_mk_value u < xa_mk_value v) ∧
    (xa_mk_value u < xa_mk_value v ↔ u < v) ∧
    (xa_mk_value u = xa_mk_value v ↔ u = v) := by
  have h63 : (2 : Nat) ^ (BITS_PER_LONG - 1) = 9223372036854775808 := by decide
  have h64 : (2 : Nat) ^ 64 = 18446744073709551616 := by decide
  rw [h63] at hu hv
  have eu : xa_mk_value u = 2 * u + 1 := by
    rw [xa_mk_value_eq, h64]
    omega
  have ev : xa_mk_value v = 2 * v + 1 := by
    rw [xa_mk_value_eq, h64]
    omega
  rw [eu, ev]
  refine ⟨fun h => by omega, ⟨fun h => by omega, fun h => by omega⟩,
    ⟨fun h => by omega, fun h => by omega⟩⟩

theorem C27_value_encoding_monotone_witness :
    (5 < 9 → xa_mk_value 5 < xa_mk_value 9) ∧
    (xa_mk_value 5 < xa_mk_value 9 ↔ 5 < 9) ∧
    (xa_mk_value 5 = xa_mk_value 9 ↔ 5 = 9) :=
  C27_value_encoding_monotone 5 9 (by decide) (by decide)

/-! ## C28: the tag query from the top and the tag query of the cursor -/

/-- C28: top-down tag query equals the cursor query. On a linked array that satisfies the
tag propagation invariant for tag `t` (a tagged node has the bit of its slot set in its
parent, and the array flag is set when the root node is tagged: a tag on a slot is on
every ancestor and on the array), for every index `i`, walking a fresh cursor to `i` with
`xas_load()` returns, `xas_get_tag(xas, t)` with that cursor returns, and
`xa_get_tag(xa, i, t)` returns the same answer. -/
theorem C28_get_tag_is_cursor_query (m : Mem) (i t fuel : Nat) (hl : xa_linked m)
    (hinv : xa_tag_inv m t) (hfuel : 11 ≤ fuel) :
    ∃ e xas b, xas_load fuel m (XA_STATE i) = some (e, m, xas) ∧
      xas_get_tag m xas t = some b ∧ xa_get_tag fuel m i t = some (b, m) := by
  obtain ⟨e, xas, hload⟩ := xas_load_total hl fuel hfuel i
  obtain ⟨hA, hB, b, hb⟩ := xa_get_tag_of_load hl t fuel i e xas hload
  refine ⟨e, xas, b, hload, hb, ?_⟩
  cases b with
  | false => exact hA hb
  | true => exact hB hinv hb

theorem C28_get_tag_is_cursor_query_witness :
    ∃ e xas b, xas_load 11 tagged_tree (XA_STATE 67) = some (e, tagged_tree, xas) ∧
      xas_get_tag tagged_tree xas 0 = some b ∧
      xa_get_tag 11 tagged_tree 67 0 = some (b, tagged_tree) :=
  C28_get_tag_is_cursor_query tagged_tree 67 0 11 tagged_tree_linked (tagged_tree_inv 0)
    (le_refl _)

/-! ## C29: a second load on an unchanged array -/

/-- C29: xas_load is idempotent on an unchanged array. For every array and every cursor,
when `xas_load()` has returned, the array is as it was; if the cursor is not in an error
state, it is left valid or in the bounds state with the answer NULL; the entry returned
is the entry at the position of a valid cursor (the slot `xa_offset` of the node
`xa_node`, or the head when `xa_node` is NULL); and a second `xas_load()` with the same
cursor returns the same entry and leaves the cursor (`xa_node`, `xa_offset`, `xa_index`
and the rest) as the first call left it. -/
theorem C29_load_idempotent (f : Nat) (m : Mem) (xas : xa_state) (e : Nat) (m1 : Mem)
    (x1 : xa_state) (h : xas_load f m xas = some (e, m1, x1)) :
    m1 = m ∧
    (xas_error xas = 0 → xas_valid x1 = true ∨ (x1.xa_node = XAS_BOUNDS ∧ e = 0)) ∧
    (xas_valid x1 = true → xas_reload m x1 = some e) ∧
    xas_load f m x1 = some (e, m, x1) := by
  unfold xas_load at h
  cases hst : xas_start m xas with
  | none => simp [hst] at h
  | some r =>
    obtain ⟨e0, m0, x0⟩ := r
    simp only [hst] at h
    obtain ⟨hm0, hagain, hrel, hstate⟩ := xas_start_again m xas e0 m0 x0 hst
    subst hm0
    obtain ⟨hm1, _⟩ := xas_load_loop_frame f e0 m0 x0 e m1 x1 h
    subst hm1
    rcases xas_load_loop_reload f e0 m1 x0 e m1 x1 h with ⟨hv, hr⟩ | ⟨hx, he⟩
    · refine ⟨rfl, fun _ => Or.inl hv, fun _ => hr, ?_⟩
      unfold xas_load
      rw [xas_start_valid m1 x1 e hv hr]
      exact xas_load_loop_rest f e0 m1 x0 e m1 x1 h f (le_refl _)
    · subst hx he
      refine ⟨rfl, hstate, hrel, ?_⟩
      unfold xas_load
      rw [hagain]
      exact h

theorem C29_load_idempotent_witness :
    two_level_mem = two_level_mem ∧
    (xas_error (XA_STATE 69) = 0 →
      xas_valid { XA_STATE 68 with xa_node := 8448, xa_offset := 4 } = true ∨
        (({ XA_STATE 68 with xa_node := 8448, xa_offset := 4 } : xa_state).xa_node
          = XAS_BOUNDS ∧ xa_mk_value 4 = 0)) ∧
    (xas_valid { XA_STATE 68 with xa_node := 8448, xa_offset := 4 } = true →
      xas_reload two_level_mem { XA_STATE 68 with xa_node := 8448, xa_offset := 4 }
        = some (xa_mk_value 4)) ∧
    xas_load 3 two_level_mem { XA_STATE 68 with xa_node := 8448, xa_offset := 4 }
      = some (xa_mk_value 4, two_level_mem,
          { XA_STATE 68 with xa_node := 8448, xa_offset := 4 }) :=
  C29_load_idempotent 3 two_level_mem (XA_STATE 69) (xa_mk_value 4) two_level_mem
    { XA_STATE 68 with xa_node := 8448, xa_offset := 4 } rfl

/-! ## C30: a set followed by a clear -/

/-- C30: set followed by clear restores the tags. On a linked array whose tags for `t`
are tight (the bit of `t` of a parent for a child node is set if and only if that child
node has some bit of `t` set, and the array flag for `t` is set if and only if the head
node has some bit of `t` set), whose flags are a word of 32 bits, for every tag `t` below
`XA_MAX_TAGS` and every cursor on a slot whose bit of `t` is clear (for which
`xas_get_tag(xas, t)` returns false), `xas_set_tag(xas, t)` returns, and
`xas_clear_tag(xas, t)` after it returns the array as it was before the two calls: the
array flags and the tag bitmaps of every node are exactly as they were. -/
theorem C30_set_then_clear_restores (m : Mem) (xas : xa_state) (t fuel : Nat)
    (hl : xa_linked m) (htight : xa_tag_tight m t) (hfl : m.xa.xa_flags < 2 ^ 32)
    (ht : t < XA_MAX_TAGS) (hfuel : 11 ≤ fuel) (hbit : xas_get_tag m xas t = some false) :
    ∃ m1, xas_set_tag fuel m xas t = some m1 ∧ xas_clear_tag fuel m1 xas t = some m ∧
      ∀ m2, xas_clear_tag fuel m1 xas t = some m2 →
        m2.xa.xa_flags = m.xa.xa_flags ∧
        ∀ a n, m.nodes a = some n → ∃ n2, m2.nodes a = some n2 ∧ n2.tags = n.tags := by
  have hfin : ∀ m1, xas_clear_tag fuel m1 xas t = some m →
      ∀ m2, xas_clear_tag fuel m1 xas t = some m2 →
        m2.xa.xa_flags = m.xa.xa_flags ∧
        ∀ a n, m.nodes a = some n → ∃ n2, m2.nodes a = some n2 ∧ n2.tags = n.tags := by
    intro m1 hc m2 h2
    rw [hc] at h2
    cases h2
    exact ⟨rfl, fun a n hn => ⟨n, hn, rfl⟩⟩
  cases hv : xas_invalid xas with
  | true =>
    have hc : xas_clear_tag fuel m xas t = some m := by
      unfold xas_clear_tag
      rw [hv]
      rfl
    refine ⟨m, ?_, hc, hfin m hc⟩
    unfold xas_set_tag
    rw [hv]
    rfl
  | false =>
    unfold xas_get_tag at hbit
    rw [hv] at hbit
    simp only [Bool.false_eq_true, if_false] at hbit
    have hA : xas.xa_node = 0 → xa_tagged m.xa t = false := by
      intro h0
      simpa [h0] using hbit
    have hB : xas.xa_node ≠ 0 →
        ∃ n, m.nodes xas.xa_node = some n ∧ n.tags t xas.xa_offset = false ∧
          66 ≤ n.shift + 6 * fuel := by
      intro h0
      have hb : (xas.xa_node == 0) = false := by simpa using h0
      rw [hb] at hbit
      simp only [Bool.false_eq_true, if_false] at hbit
      cases hn : m.nodes xas.xa_node with
      | none => simp [hn] at hbit
      | some n =>
        simp only [hn, Option.some.injEq] at hbit
        exact ⟨n, rfl, hbit, by omega⟩
    obtain ⟨m1, hs, hc⟩ := xas_set_clear_loop t ht fuel m xas.xa_node xas.xa_offset hl hfl
      hA hB (fun _ c nc hc _ =>
        ⟨fun p hp hpn => htight.parent_iff c nc p hc hp hpn,
          fun hp => htight.flag_iff c nc hc hp⟩)
    have hc1 : xas_clear_tag fuel m1 xas t = some m := by
      unfold xas_clear_tag
      rw [hv]
      exact hc
    refine ⟨m1, ?_, hc1, hfin m1 hc1⟩
    unfold xas_set_tag
    rw [hv]
    exact hs

theorem C30_set_then_clear_restores_witness :
    ∃ m1, xas_set_tag 11 tagged_tree (tagged_tree_xas 69 5) 1 = some m1 ∧
      xas_clear_tag 11 m1 (tagged_tree_xas 69 5) 1 = some tagged_tree ∧
      ∀ m2, xas_clear_tag 11 m1 (tagged_tree_xas 69 5) 1 = some m2 →
        m2.xa.xa_flags = tagged_tree.xa.xa_flags ∧
        ∀ a n, tagged_tree.nodes a = some n → ∃ n2, m2.nodes a = some n2 ∧ n2.tags = n.tags :=
  C30_set_then_clear_restores tagged_tree (tagged_tree_xas 69 5) 1 11 tagged_tree_linked
    tagged_tree_tight (by decide) (by decide) (le_refl _) rfl
end Xarray
